import Mathlib

/-!
Shallow embedding of the MST / min-cut algorithms of the repository
(`kruskal.py`, `prim.py`, `boruvka.py`, `reverse.py`, `karger.py`),
together with proofs checking the natural-language specification
against the code.

Weighted undirected graphs are modelled as a list of node identifiers
plus a list of weighted edges; edge weights are integers.
-/

namespace MST

/-- An undirected weighted edge `(u, v, w)` in enumeration order. -/
structure Edge where
  u : Nat
  v : Nat
  w : Int
deriving DecidableEq, Repr

/-- A weighted undirected graph: the node list and the edge list, both in
the enumeration order the Python `networkx` graph exposes. -/
structure Graph where
  nodes : List Nat
  edges : List Edge
deriving DecidableEq, Repr

/-- Does edge `e` connect the unordered pair `{a, b}`? -/
def touches (e : Edge) (a b : Nat) : Bool :=
  (e.u == a && e.v == b) || (e.u == b && e.v == a)

/-- Model invariant (spec §3): nodes are distinct, there is at least one
node, edges join two distinct existing nodes, and there is at most one
edge per unordered pair. -/
def Graph.WF (G : Graph) : Prop :=
  G.nodes.Nodup ∧ G.nodes ≠ [] ∧
  (∀ e ∈ G.edges, e.u ∈ G.nodes ∧ e.v ∈ G.nodes ∧ e.u ≠ e.v) ∧
  G.edges.Pairwise (fun e f => ¬ (touches f e.u e.v = true))

instance decidableGraphWF (G : Graph) : Decidable G.WF :=
  inferInstanceAs (Decidable (_ ∧ _ ∧ _ ∧ _))

/-- The graphs the MST drivers build (`nx.from_numpy_array`): nodes are
exactly `0, 1, ..., n-1` in order. -/
def Graph.Std (G : Graph) : Prop :=
  G.nodes = List.range G.nodes.length

instance decidableGraphStd (G : Graph) : Decidable G.Std :=
  inferInstanceAs (Decidable (_ = _))

/-! ## DSU (`kruskal.py`, class `DSU`)

`find` is recursive in Python and terminates on every acyclic parent
forest; the embedding runs it with fuel `parent.length`, which suffices
on every well-formed state (proved below). -/

/-- Disjoint-set-union state: `parent` and `rank` lists indexed by node. -/
structure DSU where
  parent : List Nat
  rank : List Nat
deriving DecidableEq, Repr

/-- `DSU.__init__`: each node its own parent, all ranks zero. -/
def DSU.init (n : Nat) : DSU :=
  ⟨List.range n, List.replicate n 0⟩

/-- `DSU.find` body: follow parents to the root, repointing every visited
node directly to the root (path compression).  Returns the updated
parent list and the root. -/
def findAux : Nat → List Nat → Nat → List Nat × Nat
  | 0, p, x => (p, x)
  | fuel+1, p, x =>
    let px := p.getD x x
    if px = x then (p, x)
    else
      let r := findAux fuel p px
      (r.1.set x r.2, r.2)

/-- `DSU.find`, with fuel `parent.length` (enough on well-formed states). -/
def DSU.find (d : DSU) (x : Nat) : DSU × Nat :=
  let r := findAux d.parent.length d.parent x
  (⟨r.1, d.rank⟩, r.2)

/-- `DSU.union`: find both roots; if distinct, attach by rank and report
`true`; otherwise report `false`. -/
def DSU.union (d : DSU) (x y : Nat) : DSU × Bool :=
  let fx := d.find x
  let rootX := fx.2
  let fy := fx.1.find y
  let d2 := fy.1
  let rootY := fy.2
  if rootX ≠ rootY then
    if d2.rank.getD rootX 0 > d2.rank.getD rootY 0 then
      (⟨d2.parent.set rootY rootX, d2.rank⟩, true)
    else if d2.rank.getD rootX 0 < d2.rank.getD rootY 0 then
      (⟨d2.parent.set rootX rootY, d2.rank⟩, true)
    else
      (⟨d2.parent.set rootY rootX,
        d2.rank.set rootX (d2.rank.getD rootX 0 + 1)⟩, true)
  else (d2, false)

/-! ## Kruskal (`kruskal.py`, `kruskal_mst`) -/

/-- One step of a stable ascending insertion sort by weight: `e` is placed
before the first element of strictly larger weight, after all elements of
smaller or equal weight that were enumerated earlier. -/
def insertAsc (e : Edge) : List Edge → List Edge
  | [] => [e]
  | f :: fs => if f.w < e.w then f :: insertAsc e fs else e :: f :: fs

/-- Stable ascending sort by weight, the behaviour of Python's
`edges.sort(key=lambda x: x[2]['weight'])`: each edge is inserted into
the sorted list of the *later* edges, staying ahead of equal weights. -/
def sortEdgesAsc : List Edge → List Edge
  | [] => []
  | e :: es => insertAsc e (sortEdgesAsc es)

/-- The edge scan of `kruskal_mst`: walk the sorted list to its end,
accepting an edge (append to `mst`, add to `total`) iff `union` merged. -/
def kruskalScan : List Edge → DSU → List Edge → Int → List Edge × Int
  | [], _, mst, total => (mst, total)
  | e :: es, dsu, mst, total =>
    let r := dsu.union e.u e.v
    if r.2 then kruskalScan es r.1 (mst ++ [e]) (total + e.w)
    else kruskalScan es r.1 mst total

/-- `kruskal_mst`: sort all edges ascending by weight (Python's stable
sort), then scan with a fresh `DSU` over `len(G.nodes)` nodes. -/
def kruskal_mst (G : Graph) : List Edge × Int :=
  kruskalScan (sortEdgesAsc G.edges) (DSU.init G.nodes.length) [] 0

/-! ## Prim (`prim.py`, `prim_mst`)

Python's `heapq` holds `(weight, u, v)` tuples compared lexicographically
and pops the least one.  Since `seen_edges` guarantees every normalized
edge is pushed at most once, all queued tuples are distinct and the pop
order is exactly the lexicographic minimum of the queue's multiset; the
queue is therefore embedded as a list kept sorted in that order, with
`heapPush` an ordered insert and popping taking the head. -/

/-- A lazy priority-queue entry `(weight, u, v)`. -/
abbrev HeapEntry := Int × Nat × Nat

/-- Lexicographic comparison of `(weight, u, v)` tuples, as Python
compares heap entries. -/
def entryLe (a b : HeapEntry) : Bool :=
  decide (a.1 < b.1 ∨ (a.1 = b.1 ∧
    (a.2.1 < b.2.1 ∨ (a.2.1 = b.2.1 ∧ a.2.2 ≤ b.2.2))))

/-- `heapq.heappush`: ordered insert keeping the queue sorted. -/
def heapPush : List HeapEntry → HeapEntry → List HeapEntry
  | [], e => [e]
  | f :: fs, e => if entryLe f e then f :: heapPush fs e else e :: f :: fs

/-- `G[x].items()`: the neighbours of `x` with edge weights, in the order
the incident edges appear in the edge list. -/
def Graph.adj (G : Graph) (x : Nat) : List (Nat × Int) :=
  G.edges.filterMap (fun e =>
    if e.u = x then some (e.v, e.w)
    else if e.v = x then some (e.u, e.w) else none)

/-- `tuple(sorted((a, b)))`: the normalized unordered pair. -/
def normEdge (a b : Nat) : Nat × Nat :=
  if a ≤ b then (a, b) else (b, a)

/-- The initial push loop of `prim_mst` (edges out of the start node;
no visited check in the source). -/
def initPush (start : Nat) : List (Nat × Int) → List HeapEntry →
    List (Nat × Nat) → List HeapEntry × List (Nat × Nat)
  | [], heap, seen => (heap, seen)
  | (v, w) :: rest, heap, seen =>
    let e := normEdge start v
    if e ∈ seen then initPush start rest heap seen
    else initPush start rest (heapPush heap (w, start, v)) (seen ++ [e])

/-- The push loop run after visiting `v`: push edges from `v` to
unvisited neighbours whose normalized pair was not seen before. -/
def pushFrom (v : Nat) (visited : List Nat) : List (Nat × Int) →
    List HeapEntry → List (Nat × Nat) → List HeapEntry × List (Nat × Nat)
  | [], heap, seen => (heap, seen)
  | (u, w) :: rest, heap, seen =>
    if u ∈ visited then pushFrom v visited rest heap seen
    else
      let e := normEdge v u
      if e ∈ seen then pushFrom v visited rest heap seen
      else pushFrom v visited rest (heapPush heap (w, v, u)) (seen ++ [e])

/-- The main loop of `prim_mst`: while the queue is nonempty and not all
nodes are visited, pop the minimum entry; discard it if its far endpoint
is visited, otherwise accept the edge and push the new frontier. -/
def primLoop (G : Graph) (heap : List HeapEntry) (visited : List Nat)
    (seen : List (Nat × Nat)) (mst : List Edge) (total : Int) :
    List Edge × Int :=
  match heap with
  | [] => (mst, total)
  | (w, u, v) :: rest =>
    if h : visited.length < G.nodes.length then
      if v ∈ visited then primLoop G rest visited seen mst total
      else
        let pr := pushFrom v (visited ++ [v]) (G.adj v) rest seen
        primLoop G pr.1 (visited ++ [v]) pr.2 (mst ++ [⟨u, v, w⟩]) (total + w)
    else (mst, total)
termination_by (G.nodes.length - visited.length, heap.length)
decreasing_by
  · exact Prod.Lex.right _ (Nat.lt_succ_self _)
  · exact Prod.Lex.left _ _ (by simp; omega)

/-- `prim_mst`: start from node `0` with it alone visited, seed the queue
from its incident edges, then run the main loop. -/
def prim_mst (G : Graph) : List Edge × Int :=
  let ip := initPush 0 (G.adj 0) [] []
  primLoop G ip.1 [0] ip.2 [] 0

/-! ## Borůvka (`boruvka.py`, `boruvka_mst`)

The Python dictionaries `component` and `cheapest` are keyed by the
nodes `0..n-1` in insertion order; they are embedded as lists indexed by
node.  The source's `while num_components > 1` loop has no progress
check, so the embedding runs it on explicit fuel and returns `none` when
the fuel is exhausted (the loop did not terminate within that many
rounds). -/

/-- One conditional update `cheapest[c] = e if cheaper` of the cheapest
map (strict comparison: ties keep the first-seen edge). -/
def updateCheapest1 (cheapest : List (Option Edge)) (c : Nat) (e : Edge) :
    List (Option Edge) :=
  match cheapest.getD c none with
  | none => cheapest.set c (some e)
  | some f => if f.w > e.w then cheapest.set c (some e) else cheapest

/-- The per-round edge scan: for every edge whose endpoints lie in
different components, offer it to both endpoint components. -/
def scanCheapest (component : List Nat) :
    List (Option Edge) → List Edge → List (Option Edge)
  | cheapest, [] => cheapest
  | cheapest, e :: es =>
    let cu := component.getD e.u 0
    let cv := component.getD e.v 0
    if cu ≠ cv then
      scanCheapest component (updateCheapest1 (updateCheapest1 cheapest cu e) cv e) es
    else scanCheapest component cheapest es

/-- The mutable state of `boruvka_mst`'s round loop. -/
structure BorState where
  numComponents : Nat
  component : List Nat
  mst : List Edge
  total : Int
deriving DecidableEq, Repr

/-- The per-round merge phase: walk the cheapest map; for each recorded
edge whose endpoints are still in different components, accept it and
relabel every node of the first component to the second. -/
def mergePhase : BorState → List (Option Edge) → BorState
  | st, [] => st
  | st, none :: rest => mergePhase st rest
  | st, some e :: rest =>
    if st.component.getD e.u 0 ≠ st.component.getD e.v 0 then
      let oldC := st.component.getD e.u 0
      let newC := st.component.getD e.v 0
      mergePhase ⟨st.numComponents - 1,
        st.component.map (fun c => if c = oldC then newC else c),
        st.mst ++ [e], st.total + e.w⟩ rest
    else mergePhase st rest

/-- One round of `boruvka_mst`: reset the cheapest map, scan all edges,
then merge. -/
def boruvkaRound (G : Graph) (st : BorState) : BorState :=
  mergePhase st (scanCheapest st.component (List.replicate G.nodes.length none) G.edges)

/-- The `while num_components > 1` loop, on fuel. -/
def boruvkaLoop (G : Graph) : Nat → BorState → Option (List Edge × Int)
  | 0, _ => none
  | fuel+1, st =>
    if st.numComponents > 1 then boruvkaLoop G fuel (boruvkaRound G st)
    else some (st.mst, st.total)

/-- `boruvka_mst`: every node starts as its own component. -/
def boruvka_mst (G : Graph) (fuel : Nat) : Option (List Edge × Int) :=
  boruvkaLoop G fuel ⟨G.nodes.length, List.range G.nodes.length, [], 0⟩

/-! ## Connectivity (`nx.is_connected`, used by `reverse.py`)

A breadth-first closure: starting from the graph's first node, repeatedly
add every node adjacent to the current reached set; `nodes.length`
rounds saturate. -/

/-- Add to `s` every node joined by an edge to a node of `s`. -/
def expand (edges : List Edge) (s : Finset Nat) : Finset Nat :=
  edges.foldr (fun e acc =>
    if e.u ∈ s then insert e.v acc
    else if e.v ∈ s then insert e.u acc else acc) s

/-- The set reached from `start` after `k` expansion rounds. -/
def reachSet (edges : List Edge) (start : Nat) : Nat → Finset Nat
  | 0 => {start}
  | k+1 => expand edges (reachSet edges start k)

/-- `nx.is_connected`: every node is reached from the first node by a
full traversal (`nodes.length` rounds saturate the closure). -/
def is_connected (G : Graph) : Bool :=
  match G.nodes with
  | [] => false
  | n0 :: _ => decide (∀ x ∈ G.nodes, x ∈ reachSet G.edges n0 G.nodes.length)

/-! ## Reverse-Delete (`reverse.py`, `reverse_delete_mst`) -/

/-- One step of a stable descending insertion sort by weight
(`sorted(..., key=lambda x: -weight)`). -/
def insertDesc (e : Edge) : List Edge → List Edge
  | [] => [e]
  | f :: fs => if f.w > e.w then f :: insertDesc e fs else e :: f :: fs

/-- Stable descending sort by weight, ties in original enumeration
order. -/
def sortEdgesDesc : List Edge → List Edge
  | [] => []
  | e :: es => insertDesc e (sortEdgesDesc es)

/-- `graph.remove_edge(a, b)`: drop the edge joining `a` and `b`. -/
def removeEdge (edges : List Edge) (a b : Nat) : List Edge :=
  edges.filter (fun e => !(touches e a b))

/-- The edge loop of `reverse_delete_mst` over the working copy's edge
list: tentatively remove each edge (heaviest first); if the graph
disconnects, put it back and accept it into the MST. -/
def reverseLoop (nodes : List Nat) : List Edge → List Edge →
    List Edge → Int → List Edge × Int
  | _, [], mst, total => (mst, total)
  | work, e :: rest, mst, total =>
    let removed := removeEdge work e.u e.v
    if is_connected ⟨nodes, removed⟩ then
      reverseLoop nodes removed rest mst total
    else
      reverseLoop nodes (removed ++ [⟨e.u, e.v, e.w⟩]) rest
        (mst ++ [e]) (total + e.w)

/-- `reverse_delete_mst`: work on a copy of `G`, scanning all edges in
descending weight order. -/
def reverse_delete_mst (G : Graph) : List Edge × Int :=
  reverseLoop G.nodes G.edges (sortEdgesDesc G.edges) [] 0

/-! ## Karger (`karger.py`, `karger_min_cut`)

`G` is a *simple* `networkx` graph, so `nx.contracted_nodes` does not
keep parallel edges: when a rerouted edge of `v` collides with an edge
`u` already has, the existing edge (and its weight) is kept and the
rerouted edge's data is stashed under an unused `'contraction'`
attribute (`if not H.has_edge(w, x): H.add_edge(w, x, **d) else: ...`).
`random.choice` is embedded as an explicit choice function giving the
index of the picked edge at each step. -/

/-- One rerouted edge landing in `H`: if an edge joining `u` and `x`
already exists it is kept unchanged (the rerouted data only goes into
the `'contraction'` attribute, which nothing reads); otherwise
`H.add_edge(w, x, **d)` appends the rerouted edge. -/
def addIfAbsent (edges : List Edge) (e : Edge) : List Edge :=
  if edges.any (fun f => touches f e.u e.v) then edges
  else edges ++ [e]

/-- `nx.contracted_nodes(G, u, v, self_loops=False)` on a simple graph:
remove node `v`, reroute its incident edges to `u` (dropping the
self-loop to `u`), keeping the existing weight of any edge `u` already
had over a rerouted duplicate. -/
def contracted_nodes (G : Graph) (u v : Nat) : Graph :=
  let others := G.edges.filter (fun e => !(e.u == v || e.v == v))
  let rerouted := (G.edges.filter (fun e => e.u == v || e.v == v)).filterMap
    (fun e =>
      let x := if e.u = v then e.v else e.u
      if x = u then none else some (⟨u, x, e.w⟩ : Edge))
  ⟨G.nodes.filter (fun y => y != v), rerouted.foldl addIfAbsent others⟩

/-- `random.choice(list(G.edges()))` with the randomness explicit: the
step's choice value indexes into the current (nonempty) edge list. -/
def chooseEdge (choice : Nat → Nat) (k : Nat) (e0 : Edge) (es : List Edge) :
    Edge :=
  (e0 :: es).getD (choice k % (e0 :: es).length) e0

/-- The contraction loop of `karger_min_cut`, on fuel, with `choice k`
selecting the index of the edge picked at step `k`.  Returns `none` on
the error paths of the source (`random.choice` over an empty edge list
raises) and when fuel runs out. -/
def kargerLoop (choice : Nat → Nat) : Nat → Nat → Graph →
    List (List Edge) → Option (List (List Edge) × List Edge × Int)
  | 0, _, _, _ => none
  | fuel+1, k, G, steps =>
    if G.nodes.length > 2 then
      match G.edges with
      | [] => none
      | e0 :: es =>
        let chosen := chooseEdge choice k e0 es
        let G' := contracted_nodes G chosen.u chosen.v
        kargerLoop choice fuel (k+1) G' (steps ++ [G'.edges])
    else some (steps, G.edges, (G.edges.map Edge.w).sum)

/-- `karger_min_cut`: contract until two supernodes remain; the surviving
edges are the cut and their weight sum the reported cut value.  Fuel
`G.nodes.length` covers every run that the source completes. -/
def karger_min_cut (G : Graph) (choice : Nat → Nat) :
    Option (List (List Edge) × List Edge × Int) :=
  kargerLoop choice G.nodes.length 0 G []

/-- The weight of the cut separating the nodes in `s` from the rest. -/
def cutWeight (G : Graph) (s : List Nat) : Int :=
  ((G.edges.filter (fun e => decide (e.u ∈ s) != decide (e.v ∈ s))).map Edge.w).sum

/-- The true global minimum cut weight: the least `cutWeight` over all
nonempty proper node subsets. -/
def trueMinCut (G : Graph) : Option Int :=
  ((G.nodes.sublists.filter
    (fun s => !s.isEmpty && s.length < G.nodes.length)).map (cutWeight G)).min?

/-! ## Concrete scenario graphs (spec §8) -/

/-- The 3-node triangle with edges `(0,1,1), (1,2,2), (0,2,3)`, in the
enumeration order `nx.from_numpy_array` produces. -/
def triangle : Graph := ⟨[0, 1, 2], [⟨0, 1, 1⟩, ⟨0, 2, 3⟩, ⟨1, 2, 2⟩]⟩

/-- The disconnected graph with components `{0,1}` (edge weight 5) and
`{2,3}` (edge weight 7). -/
def g4disc : Graph := ⟨[0, 1, 2, 3], [⟨0, 1, 5⟩, ⟨2, 3, 7⟩]⟩

/-! ## Ascending/descending sort lemmas (for the Kruskal claim) -/

/-- Weight order on edges. -/
def wle (a b : Edge) : Prop := a.w ≤ b.w

instance : DecidableRel wle := fun a b => inferInstanceAs (Decidable (a.w ≤ b.w))

theorem insertAsc_perm (e : Edge) (l : List Edge) :
    (insertAsc e l).Perm (e :: l) := by
  induction l with
  | nil => exact List.Perm.refl _
  | cons f fs ih =>
    simp only [insertAsc]
    split
    · exact ((ih.cons f).trans (List.Perm.swap e f fs))
    · exact List.Perm.refl _

theorem sortEdgesAsc_perm (l : List Edge) : (sortEdgesAsc l).Perm l := by
  induction l with
  | nil => exact List.Perm.refl _
  | cons e es ih =>
    exact (insertAsc_perm e (sortEdgesAsc es)).trans (ih.cons e)

theorem mem_insertAsc {f e : Edge} {l : List Edge} (h : f ∈ insertAsc e l) :
    f = e ∨ f ∈ l :=
  List.mem_cons.mp ((insertAsc_perm e l).mem_iff.mp h)

theorem insertAsc_sorted (e : Edge) (l : List Edge) (h : l.Sorted wle) :
    (insertAsc e l).Sorted wle := by
  induction l with
  | nil => simp [insertAsc, List.Sorted]
  | cons f fs ih =>
    simp only [insertAsc]
    rcases List.sorted_cons.mp h with ⟨hf, hfs⟩
    split
    · rename_i hlt
      refine List.sorted_cons.mpr ⟨?_, ih hfs⟩
      intro b hb
      rcases mem_insertAsc hb with rfl | hb
      · exact le_of_lt hlt
      · exact hf b hb
    · rename_i hnlt
      refine List.sorted_cons.mpr ⟨?_, h⟩
      intro b hb
      rcases List.mem_cons.mp hb with rfl | hb
      · exact le_of_not_lt hnlt
      · exact le_trans (le_of_not_lt hnlt) (hf b hb)

theorem sortEdgesAsc_sorted (l : List Edge) : (sortEdgesAsc l).Sorted wle := by
  induction l with
  | nil => simp [sortEdgesAsc, List.Sorted]
  | cons e es ih => exact insertAsc_sorted e (sortEdgesAsc es) ih

theorem insertAsc_filter_eq (e : Edge) (l : List Edge) (c : Int) (h : e.w = c) :
    (insertAsc e l).filter (fun f => f.w == c) =
      e :: l.filter (fun f => f.w == c) := by
  induction l with
  | nil => simp [insertAsc, List.filter, h]
  | cons f fs ih =>
    simp only [insertAsc]
    split
    · rename_i hlt
      have hfc : (f.w == c) = false := by
        simp only [beq_eq_false_iff_ne]
        omega
      simp [List.filter, hfc, ih]
    · simp [List.filter, h]

theorem insertAsc_filter_ne (e : Edge) (l : List Edge) (c : Int) (h : e.w ≠ c) :
    (insertAsc e l).filter (fun f => f.w == c) =
      l.filter (fun f => f.w == c) := by
  have hec : (e.w == c) = false := by simpa using h
  induction l with
  | nil => simp [insertAsc, List.filter, hec]
  | cons f fs ih =>
    simp only [insertAsc]
    split
    · simp [List.filter, ih]
    · simp [List.filter, hec]

/-- Stability of the ascending sort: for every weight value, the edges of
that weight appear in the sorted list exactly in original order. -/
theorem sortEdgesAsc_stable (l : List Edge) (c : Int) :
    (sortEdgesAsc l).filter (fun f => f.w == c) =
      l.filter (fun f => f.w == c) := by
  induction l with
  | nil => rfl
  | cons e es ih =>
    simp only [sortEdgesAsc]
    by_cases h : e.w = c
    · rw [insertAsc_filter_eq e _ c h, ih]
      simp [List.filter, h]
    · rw [insertAsc_filter_ne e _ c h, ih]
      have : (e.w == c) = false := by simpa using h
      simp [List.filter, this]

theorem kruskalScan_total (es : List Edge) (d : DSU) (mst : List Edge) (t : Int)
    (h : t = (mst.map Edge.w).sum) :
    (kruskalScan es d mst t).2 = ((kruskalScan es d mst t).1.map Edge.w).sum := by
  induction es generalizing d mst t with
  | nil => simpa [kruskalScan] using h
  | cons e es ih =>
    simp only [kruskalScan]
    split
    · exact ih _ _ _ (by simp [h])
    · exact ih _ _ _ h

/-! ## C1 -/

/-- C1, counterexample.  The claim states that on a graph that is not
connected each MST operation surfaces an explicit `DisconnectedGraph`
outcome instead of returning a silently-partial tree.  On the
disconnected two-component graph, `reverse_delete_mst` (whose code has
no initial connectivity check at all) returns the plain value
`([(2,3,7), (0,1,5)], 12)` — exactly the "weight-12 tree" the spec says
must not be returned — so the claim as stated is false. -/
theorem C1_counterexample :
    is_connected g4disc = false ∧
    reverse_delete_mst g4disc = ([⟨2, 3, 7⟩, ⟨0, 1, 5⟩], 12) := by
  constructor
  · rfl
  · rfl

/-- Evaluation of `prim_mst` on the disconnected graph (`primLoop` is
defined by well-founded recursion, so it is evaluated by rewriting with
its equations). -/
theorem prim_mst_g4disc : prim_mst g4disc = ([⟨0, 1, 5⟩], 5) := by
  simp [prim_mst, primLoop, initPush, pushFrom, heapPush, normEdge,
    Graph.adj, entryLe, g4disc]

/-- C1, amended: none of the three operations surfaces a distinct
disconnected-graph outcome; each returns a plain `(edges, weight)` pair.
On the disconnected graph, `kruskal_mst` silently returns a spanning
forest with fewer than `n-1` edges, `prim_mst` silently returns the
partial tree of node 0's component, and `reverse_delete_mst` accepts
every component's bridges and returns their total weight 12. -/
theorem C1_amended_silent_results :
    is_connected g4disc = false ∧
    kruskal_mst g4disc = ([⟨0, 1, 5⟩, ⟨2, 3, 7⟩], 12) ∧
    (kruskal_mst g4disc).1.length < g4disc.nodes.length - 1 ∧
    prim_mst g4disc = ([⟨0, 1, 5⟩], 5) ∧
    (prim_mst g4disc).1.length < g4disc.nodes.length - 1 ∧
    reverse_delete_mst g4disc = ([⟨2, 3, 7⟩, ⟨0, 1, 5⟩], 12) := by
  refine ⟨rfl, rfl, by decide, prim_mst_g4disc, ?_, rfl⟩
  rw [prim_mst_g4disc]
  decide

/-! ## C2 -/

/-- The state `boruvka_mst` reaches on `g4disc` after one round: two
components, no crossing edges left. -/
def g4discStuck : BorState :=
  ⟨2, [1, 1, 3, 3], [⟨0, 1, 5⟩, ⟨2, 3, 7⟩], 12⟩

theorem g4disc_round_init :
    boruvkaRound g4disc ⟨4, [0, 1, 2, 3], [], 0⟩ = g4discStuck := by decide

theorem g4disc_round_stuck : boruvkaRound g4disc g4discStuck = g4discStuck := by
  decide

theorem g4disc_loop_stuck (fuel : Nat) :
    boruvkaLoop g4disc fuel g4discStuck = none := by
  induction fuel with
  | zero => rfl
  | succ n ih =>
    simp only [boruvkaLoop, g4disc_round_stuck]
    rw [if_pos (by decide)]
    exact ih

/-- C2: the claim says `boruvka_mst` detects a no-progress round on a
disconnected graph and terminates with an error.  The code's
`while num_components > 1` loop has no progress check: on the
disconnected two-component graph the round function reaches a fixed
point with two components and the loop never exits — for every fuel
bound the embedded loop fails to terminate normally. -/
theorem C2_boruvka_diverges_on_disconnected :
    (∀ fuel, boruvka_mst g4disc fuel = none) ∧
    boruvkaRound g4disc g4discStuck = g4discStuck ∧
    g4discStuck.numComponents = 2 := by
  refine ⟨?_, g4disc_round_stuck, rfl⟩
  intro fuel
  cases fuel with
  | zero => rfl
  | succ n =>
    show boruvkaLoop g4disc (n + 1) _ = none
    simp only [boruvkaLoop]
    rw [if_pos (by decide), show boruvkaRound g4disc ⟨g4disc.nodes.length, List.range g4disc.nodes.length, [], 0⟩ = g4discStuck from g4disc_round_init]
    exact g4disc_loop_stuck n

/-! ## C6 and C7 -/

/-- C6: the claim says contraction keeps parallel edges as separate
multi-edges so that the final cut weight equals the weight crossing the
final two-block partition.  Contracting the edge `(0,1)` of the triangle
merges `1` into `0`; the rerouted edge `(0,2,2)` collides with the
existing edge `(0,2,3)` and, on a simple graph, `nx.contracted_nodes`
keeps only the surviving edge (the rerouted data goes into an unused
`'contraction'` attribute), so the run reports cut weight 3 while the
edges of the original graph crossing the final partition `{0,1} | {2}`
weigh 5: the parallel weight 2 is lost, not kept as a multi-edge. -/
theorem C6_contraction_loses_weight :
    karger_min_cut triangle (fun _ => 0) =
      some ([[⟨0, 2, 3⟩]], [⟨0, 2, 3⟩], 3) ∧
    cutWeight triangle [2] = 5 ∧ (3 : Int) ≠ 5 := by
  refine ⟨rfl, rfl, by decide⟩

/-- C7: the claim says a single Karger run never reports a cut weight
below the true global minimum cut.  On the triangle, picking edge
`(1,2)` first merges `2` into `1`; the rerouted edge `(1,0,3)` collides
with the existing `(0,1,1)`, whose weight is kept, so the code reports
cut weight 1, while the true minimum cut weight of the triangle is 3. -/
theorem C7_run_below_min_cut :
    karger_min_cut triangle (fun _ => 2) =
      some ([[⟨0, 1, 1⟩]], [⟨0, 1, 1⟩], 1) ∧
    trueMinCut triangle = some 3 ∧ (1 : Int) < 3 := by
  refine ⟨rfl, by decide, by decide⟩

/-! ## C3 -/

/-- C3: `kruskal_mst` stably sorts the edges ascending by weight (the
sorted list is a permutation, is sorted, and preserves the original
order within each weight class), scans the whole sorted list with no
early exit, appends an edge and adds its weight exactly when `union`
reports a merge, and the returned total is the sum of the accepted
weights. -/
theorem C3_kruskal_stable_sort_scan (G : Graph) :
    (sortEdgesAsc G.edges).Perm G.edges ∧
    (sortEdgesAsc G.edges).Sorted wle ∧
    (∀ c : Int, (sortEdgesAsc G.edges).filter (fun f => f.w == c) =
      G.edges.filter (fun f => f.w == c)) ∧
    kruskal_mst G =
      kruskalScan (sortEdgesAsc G.edges) (DSU.init G.nodes.length) [] 0 ∧
    (∀ e es d mst t, kruskalScan (e :: es) d mst t =
      if (d.union e.u e.v).2 then
        kruskalScan es (d.union e.u e.v).1 (mst ++ [e]) (t + e.w)
      else kruskalScan es (d.union e.u e.v).1 mst t) ∧
    (kruskal_mst G).2 = ((kruskal_mst G).1.map Edge.w).sum := by
  refine ⟨sortEdgesAsc_perm _, sortEdgesAsc_sorted _,
    fun c => sortEdgesAsc_stable _ c, rfl, fun e es d mst t => rfl,
    kruskalScan_total _ _ _ _ rfl⟩

/-! ## DSU theory

Roots and path compression.  `RootedAt p x r` says the parent chain from
`x` reaches the root `r`; `rootAux` computes it on fuel.  On every
well-formed state (`DSU.WFb`), fuel `parent.length` suffices, `find` is
idempotent, and compression never changes any node's root. -/

theorem getD_set_eq {α : Type} (l : List α) (i : Nat) (a d : α) (h : i < l.length) :
    (l.set i a).getD i d = a := by
  induction l generalizing i with
  | nil => simp at h
  | cons b l ih =>
    cases i with
    | zero => rfl
    | succ j => exact ih j (by simpa using h)

theorem getD_set_ne {α : Type} (l : List α) (i j : Nat) (a d : α) (h : i ≠ j) :
    (l.set i a).getD j d = l.getD j d := by
  induction l generalizing i j with
  | nil => rfl
  | cons b l ih =>
    cases i with
    | zero => cases j with
      | zero => exact absurd rfl h
      | succ k => rfl
    | succ i' => cases j with
      | zero => rfl
      | succ k => exact ih i' k (by omega)

theorem set_getD_self {α : Type} (l : List α) (i : Nat) (d : α) : l.set i (l.getD i d) = l := by
  induction l generalizing i with
  | nil => rfl
  | cons b l ih =>
    cases i with
    | zero => rfl
    | succ j => simpa using ih j

theorem set_of_getD {α : Type} (l : List α) (i : Nat) (a d : α) (h : l.getD i d = a) :
    l.set i a = l := by
  rw [← h]
  exact set_getD_self l i d

theorem getD_lt_of_ne (p : List Nat) (x : Nat) (h : p.getD x x ≠ x) :
    x < p.length := by
  by_contra hx
  exact h (List.getD_eq_default _ _ (Nat.le_of_not_lt hx))

/-- The parent chain from `x` reaches root `r` (Python's recursive `find`
terminates on `x` and returns `r`). -/
inductive RootedAt (p : List Nat) : Nat → Nat → Prop
  | self (x : Nat) : p.getD x x = x → RootedAt p x x
  | step (x r : Nat) : p.getD x x ≠ x → RootedAt p (p.getD x x) r →
      RootedAt p x r

theorem RootedAt.root_fix {p : List Nat} {x r : Nat} (h : RootedAt p x r) :
    p.getD r r = r := by
  induction h with
  | self _ h => exact h
  | step _ _ _ _ ih => exact ih

theorem RootedAt.unique {p : List Nat} {x r s : Nat}
    (h1 : RootedAt p x r) (h2 : RootedAt p x s) : r = s := by
  induction h1 with
  | self x hx =>
    cases h2 with
    | self _ _ => rfl
    | step _ _ hne _ => exact absurd hx hne
  | step x r hne hr ih =>
    cases h2 with
    | self _ hx => exact absurd hx hne
    | step _ _ _ hs => exact ih hs

/-- Compute the root of `x` by chasing parents on fuel. -/
def rootAux : Nat → List Nat → Nat → Option Nat
  | 0, p, x => if p.getD x x = x then some x else none
  | fuel+1, p, x =>
    if p.getD x x = x then some x else rootAux fuel p (p.getD x x)

theorem rootAux_rootedAt {fuel : Nat} {p : List Nat} {x r : Nat}
    (h : rootAux fuel p x = some r) : RootedAt p x r := by
  induction fuel generalizing x with
  | zero =>
    simp only [rootAux] at h
    split at h
    · cases h; exact RootedAt.self _ (by assumption)
    · cases h
  | succ n ih =>
    simp only [rootAux] at h
    split at h
    · cases h; exact RootedAt.self _ (by assumption)
    · exact RootedAt.step _ _ (by assumption) (ih h)

/-- Setting a node's parent directly to its own root preserves every
node's root. -/
theorem rootedAt_set_root {p : List Nat} {x r : Nat} (hx : RootedAt p x r) :
    ∀ y s, RootedAt p y s → RootedAt (p.set x r) y s := by
  by_cases hxroot : p.getD x x = x
  · have hr : r = x := hx.unique (RootedAt.self _ hxroot)
    have hp : p.set x r = p := by
      rw [hr]
      exact set_of_getD p x x x hxroot
    rw [hp]
    exact fun y s h => h
  · have hxlen : x < p.length := getD_lt_of_ne p x hxroot
    have hrx : r ≠ x := fun hrx => hxroot (hrx ▸ hx.root_fix)
    have hgx : (p.set x r).getD x x = r := getD_set_eq p x r x hxlen
    have hgr : (p.set x r).getD r r = r := by
      rw [getD_set_ne p x r r r (Ne.symm hrx)]
      exact hx.root_fix
    intro y s h
    induction h with
    | self y hy =>
      have hyx : y ≠ x := fun hyx => hxroot (hyx ▸ hy)
      exact RootedAt.self _ (by
        rw [getD_set_ne p x y r y (Ne.symm hyx)]; exact hy)
    | step y s hy hs ih =>
      by_cases hyx : y = x
      · have hrs : s = r :=
          (hx.unique (RootedAt.step x s (hyx ▸ hy) (hyx ▸ hs))).symm
        rw [hyx, hrs]
        refine RootedAt.step _ _ ?_ ?_
        · rw [hgx]; exact hrx
        · rw [hgx]; exact RootedAt.self _ hgr
      · refine RootedAt.step _ _ ?_ ?_
        · rw [getD_set_ne p x y r y (Ne.symm hyx)]; exact hy
        · rw [getD_set_ne p x y r y (Ne.symm hyx)]; exact ih

/-- Full specification of `findAux` on a grounded node: it returns the
root, preserves the parent list's length, preserves every node's root,
keeps every root its own parent, and leaves `x` pointing at its root. -/
theorem findAux_spec (fuel : Nat) (p : List Nat) (x r : Nat)
    (h : rootAux fuel p x = some r) :
    (findAux fuel p x).2 = r ∧
    (findAux fuel p x).1.length = p.length ∧
    (∀ y s, RootedAt p y s → RootedAt (findAux fuel p x).1 y s) ∧
    (∀ z, p.getD z z = z → (findAux fuel p x).1.getD z z = z) ∧
    (findAux fuel p x).1.getD x x = r ∧
    (∀ z, (findAux fuel p x).1.getD z z = p.getD z z ∨
      RootedAt p z ((findAux fuel p x).1.getD z z)) := by
  induction fuel generalizing p x with
  | zero =>
    simp only [rootAux] at h
    split at h
    · cases h
      exact ⟨rfl, rfl, fun y s hs => hs, fun z hz => hz, by assumption,
        fun z => Or.inl rfl⟩
    · cases h
  | succ n ih =>
    simp only [rootAux] at h
    split at h
    · rename_i hroot
      injection h with hxr
      have hred : findAux (n + 1) p x = (p, x) := by
        simp only [findAux]
        rw [if_pos hroot]
      rw [hred, ← hxr]
      exact ⟨rfl, rfl, fun y s hs => hs, fun z hz => hz, hroot,
        fun z => Or.inl rfl⟩
    · rename_i hne
      obtain ⟨ih1, ih2, ih3, ih4, ih5, ih6⟩ := ih p (p.getD x x) h
      have hxr : RootedAt p x r :=
        RootedAt.step _ _ hne (rootAux_rootedAt h)
      have hxr' : RootedAt (findAux n p (p.getD x x)).1 x r := ih3 _ _ hxr
      have hxlen : x < p.length := getD_lt_of_ne p x hne
      have hxlen' : x < (findAux n p (p.getD x x)).1.length := ih2 ▸ hxlen
      have hrx : r ≠ x := by
        intro hrx
        subst hrx
        exact hne hxr.root_fix
      constructor
      · simp only [findAux, if_neg hne, ih1]
      constructor
      · simp only [findAux, if_neg hne, List.length_set, ih1, ih2]
      constructor
      · intro y s hs
        simp only [findAux, if_neg hne, ih1]
        exact rootedAt_set_root hxr' y s (ih3 y s hs)
      constructor
      · intro z hz
        simp only [findAux, if_neg hne, ih1]
        have hzx : z ≠ x := by
          intro hzx
          subst hzx
          exact hne hz
        rw [getD_set_ne _ _ _ _ _ (fun h => hzx h.symm)]
        exact ih4 z hz
      constructor
      · simp only [findAux, if_neg hne, ih1]
        exact getD_set_eq _ _ _ _ hxlen'
      · intro z
        simp only [findAux, if_neg hne, ih1]
        by_cases hzx : z = x
        · subst hzx
          rw [getD_set_eq _ _ _ _ hxlen']
          exact Or.inr hxr
        · rw [getD_set_ne _ _ _ _ _ (fun hh => hzx hh.symm)]
          rcases ih6 z with hh | hh
          · exact Or.inl hh
          · exact Or.inr hh

/-- Well-formedness of a DSU state: ranks sized to parents, every node's
parent chain grounded within fuel `parent.length`, parents in range. -/
def DSU.WFb (d : DSU) : Bool :=
  d.parent.length == d.rank.length &&
  (List.range d.parent.length).all (fun x =>
    (rootAux d.parent.length d.parent x).isSome &&
    decide (d.parent.getD x x < d.parent.length))

theorem DSU.WFb_grounded {d : DSU} (h : d.WFb = true) {x : Nat}
    (hx : x < d.parent.length) :
    ∃ r, rootAux d.parent.length d.parent x = some r := by
  simp only [DSU.WFb, Bool.and_eq_true, List.all_eq_true] at h
  obtain ⟨-, h2⟩ := h
  have := h2 x (List.mem_range.mpr hx)
  simp only [Bool.and_eq_true, Option.isSome_iff_exists] at this
  exact this.1

/-- At a root, `findAux` is the identity at every fuel. -/
theorem findAux_fix (p : List Nat) (x : Nat) (h : p.getD x x = x) :
    ∀ fuel, findAux fuel p x = (p, x) := by
  intro fuel
  cases fuel with
  | zero => rfl
  | succ n =>
    simp only [findAux]
    rw [if_pos h]

/-- `find` on a grounded state: the second call returns the same root and
leaves the state unchanged. -/
theorem DSU.find_idem (d : DSU) (x : Nat) (h : d.WFb = true) :
    (d.find x).1.find x = d.find x := by
  by_cases hroot : d.parent.getD x x = x
  · simp [DSU.find, findAux_fix _ _ hroot]
  · have hx : x < d.parent.length := getD_lt_of_ne _ _ hroot
    obtain ⟨r, hr⟩ := DSU.WFb_grounded h hx
    obtain ⟨h1, h2, h3, h4, h5, h6⟩ := findAux_spec d.parent.length d.parent x r hr
    have hrooted : RootedAt d.parent x r := rootAux_rootedAt hr
    have hrx : r ≠ x := fun hrx => hroot (hrx ▸ hrooted.root_fix)
    have hfix' : (findAux d.parent.length d.parent x).1.getD r r =
        r := h4 r hrooted.root_fix
    obtain ⟨m, hm⟩ : ∃ m, d.parent.length = m + 1 :=
      ⟨d.parent.length - 1, by omega⟩
    have hsecond : ∀ P : List Nat, P.getD x x = r → P.getD r r = r →
        findAux d.parent.length P x = (P, r) := by
      intro P hPx hPr
      rw [hm]
      simp only [findAux]
      rw [hPx, if_neg (fun hh : r = x => hrx hh), findAux_fix P r hPr m]
      simp [set_of_getD P x r x hPx]
    simp only [DSU.find]
    rw [h2, hsecond _ h5 hfix', ← h1]

/-- `find` never changes which root a node has. -/
theorem DSU.find_preserves_roots (d : DSU) (x : Nat) (h : d.WFb = true) :
    ∀ y s, RootedAt d.parent y s → RootedAt (d.find x).1.parent y s := by
  by_cases hroot : d.parent.getD x x = x
  · intro y s hs
    simpa [DSU.find, findAux_fix _ _ hroot] using hs
  · have hx : x < d.parent.length := getD_lt_of_ne _ _ hroot
    obtain ⟨r, hr⟩ := DSU.WFb_grounded h hx
    obtain ⟨-, -, h3, -, -, -⟩ := findAux_spec d.parent.length d.parent x r hr
    exact h3

/-- `union x x` on a well-formed state returns `false` and its state is
exactly the state left behind by the path compression of `find x`. -/
theorem DSU.union_self_eq (d : DSU) (x : Nat) (h : d.WFb = true) :
    d.union x x = ((d.find x).1, false) := by
  have hidem := DSU.find_idem d x h
  simp [DSU.union, hidem]

/-! ## C8 -/

/-- The DSU state produced from `DSU.init 4` by
`union 0 1; union 2 3; union 1 3`: node 3's parent chain has length two,
so the next `find 3` path-compresses. -/
def dsuEx : DSU := ⟨[0, 0, 0, 2], [2, 0, 1, 0]⟩

/-- C8, counterexample.  The claim states that `union(x, x)` changes no
state of the structure.  On the reachable well-formed state `dsuEx`,
`union 3 3` returns `False` but *changes the parent list* (path
compression inside `find` repoints node 3 from 2 to the root 0), so the
claim as stated is false. -/
theorem C8_counterexample :
    ((((DSU.init 4).union 0 1).1.union 2 3).1.union 1 3).1 = dsuEx ∧
    dsuEx.WFb = true ∧
    (dsuEx.union 3 3).2 = false ∧
    (dsuEx.union 3 3).1.parent ≠ dsuEx.parent := by decide

/-- C8, amended: on every well-formed DSU state, `find` is idempotent
(the second call returns the same representative and leaves the state
unchanged), and `union(x, x)` returns `False`, never changes the rank
list, and changes the parent list only by the path compression performed
by `find` — in particular every node keeps its representative. -/
theorem C8_amended_find_idem_union_self (d : DSU) (x : Nat)
    (h : d.WFb = true) :
    ((d.find x).1.find x).2 = (d.find x).2 ∧
    (d.find x).1.find x = d.find x ∧
    d.union x x = ((d.find x).1, false) ∧
    (d.union x x).2 = false ∧
    (d.union x x).1.rank = d.rank ∧
    (∀ y s, RootedAt d.parent y s → RootedAt (d.union x x).1.parent y s) := by
  have hidem := DSU.find_idem d x h
  have hu := DSU.union_self_eq d x h
  refine ⟨by rw [hidem], hidem, hu, by rw [hu], by rw [hu]; rfl, ?_⟩
  intro y s hs
  rw [hu]
  exact DSU.find_preserves_roots d x h y s hs

/-- C8, witness: the amended theorem applied to the concrete reachable
state `dsuEx` at node 3. -/
theorem C8_witness :
    dsuEx.WFb = true ∧
    (((dsuEx.find 3).1.find 3).2 = (dsuEx.find 3).2 ∧
     (dsuEx.find 3).1.find 3 = dsuEx.find 3 ∧
     dsuEx.union 3 3 = ((dsuEx.find 3).1, false) ∧
     (dsuEx.union 3 3).2 = false ∧
     (dsuEx.union 3 3).1.rank = dsuEx.rank ∧
     (∀ y s, RootedAt dsuEx.parent y s →
       RootedAt (dsuEx.union 3 3).1.parent y s)) :=
  ⟨by decide, C8_amended_find_idem_union_self dsuEx 3 (by decide)⟩

/-! ## Object store (for the frame/aliasing claim)

Python variables hold references to graph objects.  To state that
`reverse_delete_mst` mutates only the copy made by `G.copy()` and that
`karger_min_cut` only rebinds its local variable to the fresh graphs
returned by `nx.contracted_nodes` (default `copy=True`), the two
functions are re-run over an explicit store of graph objects, with
references as indices; the pure functions above are proved to be their
projections, and the caller's slot is proved unchanged. -/

/-- A store of graph objects. -/
abbrev Store := List Graph

/-- Dereference. -/
def Store.get (σ : Store) (r : Nat) : Graph := σ.getD r ⟨[], []⟩

/-- In-place mutation of the object at `r`. -/
def Store.put (σ : Store) (r : Nat) (G : Graph) : Store := σ.set r G

/-- Allocation of a fresh object; returns the new store and reference. -/
def Store.alloc (σ : Store) (G : Graph) : Store × Nat := (σ ++ [G], σ.length)

theorem Store.get_put_eq (σ : Store) (r : Nat) (G : Graph)
    (h : r < σ.length) : (σ.put r G).get r = G :=
  getD_set_eq σ r G _ h

theorem Store.get_put_ne (σ : Store) (r q : Nat) (G : Graph) (h : r ≠ q) :
    (σ.put r G).get q = σ.get q :=
  getD_set_ne σ r q G _ h

theorem Store.length_put (σ : Store) (r : Nat) (G : Graph) :
    (σ.put r G).length = σ.length := List.length_set σ r G

theorem Store.get_alloc_new (σ : Store) (G : Graph) :
    (σ.alloc G).1.get (σ.alloc G).2 = G := by
  simp [Store.alloc, Store.get, List.getD_eq_getElem?_getD]

theorem Store.get_alloc_old (σ : Store) (G : Graph) (q : Nat)
    (h : q < σ.length) : (σ.alloc G).1.get q = σ.get q := by
  simp only [Store.alloc, Store.get, List.getD_eq_getElem?_getD]
  rw [List.getElem?_append_left h]

/-- The loop of `reverse_delete_mst` with the working copy held in the
store at reference `rc` and mutated in place by `remove_edge` /
`add_edge`. -/
def reverseLoopSt : Store → Nat → List Edge → List Edge → Int →
    Store × (List Edge × Int)
  | σ, _, [], mst, total => (σ, (mst, total))
  | σ, rc, e :: rest, mst, total =>
    let g := σ.get rc
    let removed := removeEdge g.edges e.u e.v
    let σ1 := σ.put rc ⟨g.nodes, removed⟩
    if is_connected (σ1.get rc) then
      reverseLoopSt σ1 rc rest mst total
    else
      let σ2 := σ1.put rc ⟨g.nodes, removed ++ [⟨e.u, e.v, e.w⟩]⟩
      reverseLoopSt σ2 rc rest (mst ++ [e]) (total + e.w)

/-- `reverse_delete_mst` over the store: `graph = G.copy()` allocates a
fresh object; the loop mutates only that object. -/
def reverse_delete_st (σ : Store) (r : Nat) : Store × (List Edge × Int) :=
  let a := σ.alloc (σ.get r)
  reverseLoopSt a.1 a.2 (sortEdgesDesc ((a.1.get a.2).edges)) [] 0

/-- The contraction loop of `karger_min_cut` over the store: each
`nx.contracted_nodes` call allocates a fresh graph and the local
variable is rebound to it; nothing is mutated. -/
def kargerLoopSt (choice : Nat → Nat) : Nat → Nat → Store → Nat →
    List (List Edge) → Option (Store × (List (List Edge) × List Edge × Int))
  | 0, _, _, _, _ => none
  | fuel+1, k, σ, g, steps =>
    if (σ.get g).nodes.length > 2 then
      match (σ.get g).edges with
      | [] => none
      | e0 :: es =>
        let chosen := chooseEdge choice k e0 es
        let a := σ.alloc (contracted_nodes (σ.get g) chosen.u chosen.v)
        kargerLoopSt choice fuel (k+1) a.1 a.2 (steps ++ [(a.1.get a.2).edges])
    else some (σ, (steps, (σ.get g).edges, ((σ.get g).edges.map Edge.w).sum))

/-- `karger_min_cut` over the store. -/
def karger_min_cut_st (σ : Store) (r : Nat) (choice : Nat → Nat) :
    Option (Store × (List (List Edge) × List Edge × Int)) :=
  kargerLoopSt choice (σ.get r).nodes.length 0 σ r []

theorem reverseLoopSt_spec (es : List Edge) :
    ∀ (σ : Store) (rc : Nat) (mst : List Edge) (t : Int), rc < σ.length →
    (reverseLoopSt σ rc es mst t).2 =
      reverseLoop (σ.get rc).nodes (σ.get rc).edges es mst t ∧
    (reverseLoopSt σ rc es mst t).1.length = σ.length ∧
    (∀ q, q ≠ rc → (reverseLoopSt σ rc es mst t).1.get q = σ.get q) := by
  induction es with
  | nil => exact fun σ rc mst t _ => ⟨rfl, rfl, fun _ _ => rfl⟩
  | cons e rest ih =>
    intro σ rc mst t hrc
    simp only [reverseLoopSt, reverseLoop]
    rw [Store.get_put_eq σ rc _ hrc]
    by_cases hconn :
        is_connected ⟨(σ.get rc).nodes, removeEdge (σ.get rc).edges e.u e.v⟩
    · rw [if_pos hconn, if_pos hconn]
      obtain ⟨ih1, ih2, ih3⟩ :=
        ih (σ.put rc ⟨(σ.get rc).nodes, removeEdge (σ.get rc).edges e.u e.v⟩)
          rc mst t (by rw [Store.length_put]; exact hrc)
      refine ⟨?_, ?_, ?_⟩
      · rw [ih1, Store.get_put_eq σ rc _ hrc]
      · rw [ih2, Store.length_put]
      · intro q hq
        rw [ih3 q hq, Store.get_put_ne σ rc q _ (fun h => hq h.symm)]
    · rw [if_neg hconn, if_neg hconn]
      have hrc1 : rc <
          (σ.put rc ⟨(σ.get rc).nodes, removeEdge (σ.get rc).edges e.u e.v⟩).length := by
        rw [Store.length_put]; exact hrc
      obtain ⟨ih1, ih2, ih3⟩ :=
        ih ((σ.put rc ⟨(σ.get rc).nodes, removeEdge (σ.get rc).edges e.u e.v⟩).put rc
            ⟨(σ.get rc).nodes, removeEdge (σ.get rc).edges e.u e.v ++ [⟨e.u, e.v, e.w⟩]⟩)
          rc (mst ++ [e]) (t + e.w)
          (by rw [Store.length_put, Store.length_put]; exact hrc)
      refine ⟨?_, ?_, ?_⟩
      · rw [ih1, Store.get_put_eq _ rc _ hrc1]
      · rw [ih2, Store.length_put, Store.length_put]
      · intro q hq
        rw [ih3 q hq, Store.get_put_ne _ rc q _ (fun h => hq h.symm),
          Store.get_put_ne σ rc q _ (fun h => hq h.symm)]

theorem kargerLoopSt_spec (choice : Nat → Nat) (fuel : Nat) :
    ∀ (k : Nat) (σ : Store) (g : Nat) (steps : List (List Edge)),
    g < σ.length →
    (match kargerLoopSt choice fuel k σ g steps with
     | none => kargerLoop choice fuel k (σ.get g) steps = none
     | some (σ', res) =>
        kargerLoop choice fuel k (σ.get g) steps = some res ∧
        σ'.length ≥ σ.length ∧
        (∀ q, q < σ.length → σ'.get q = σ.get q)) := by
  induction fuel with
  | zero => exact fun k σ g steps _ => rfl
  | succ n ih =>
    intro k σ g steps hg
    by_cases hn : (σ.get g).nodes.length > 2
    · cases hedges : (σ.get g).edges with
      | nil =>
        simp only [kargerLoopSt, kargerLoop, hedges, if_pos hn]
      | cons e0 es =>
        have hnew : (σ ++ [contracted_nodes (σ.get g)
            (chooseEdge choice k e0 es).u (chooseEdge choice k e0 es).v]).get
              σ.length =
            contracted_nodes (σ.get g)
              (chooseEdge choice k e0 es).u (chooseEdge choice k e0 es).v :=
          Store.get_alloc_new σ _
        have hstA : kargerLoopSt choice (n+1) k σ g steps =
            kargerLoopSt choice n (k+1)
              (σ ++ [contracted_nodes (σ.get g)
                (chooseEdge choice k e0 es).u (chooseEdge choice k e0 es).v])
              σ.length
              (steps ++ [(contracted_nodes (σ.get g)
                (chooseEdge choice k e0 es).u (chooseEdge choice k e0 es).v).edges]) := by
          simp only [kargerLoopSt, hedges, if_pos hn, Store.alloc]
          rw [hnew]
        have hstB : kargerLoop choice (n+1) k (σ.get g) steps =
            kargerLoop choice n (k+1)
              (contracted_nodes (σ.get g)
                (chooseEdge choice k e0 es).u (chooseEdge choice k e0 es).v)
              (steps ++ [(contracted_nodes (σ.get g)
                (chooseEdge choice k e0 es).u (chooseEdge choice k e0 es).v).edges]) := by
          simp only [kargerLoop, hedges, if_pos hn]
        have hg' : σ.length < (σ ++ [contracted_nodes (σ.get g)
            (chooseEdge choice k e0 es).u (chooseEdge choice k e0 es).v]).length := by
          simp
        have hmain := ih (k+1)
          (σ ++ [contracted_nodes (σ.get g)
            (chooseEdge choice k e0 es).u (chooseEdge choice k e0 es).v])
          σ.length
          (steps ++ [(contracted_nodes (σ.get g)
            (chooseEdge choice k e0 es).u (chooseEdge choice k e0 es).v).edges])
          hg'
        rw [hnew] at hmain
        rw [hstA, hstB]
        cases hres : kargerLoopSt choice n (k+1)
            (σ ++ [contracted_nodes (σ.get g)
              (chooseEdge choice k e0 es).u (chooseEdge choice k e0 es).v])
            σ.length
            (steps ++ [(contracted_nodes (σ.get g)
              (chooseEdge choice k e0 es).u (chooseEdge choice k e0 es).v).edges]) with
        | none =>
          rw [hres] at hmain
          exact hmain
        | some out =>
          rw [hres] at hmain
          obtain ⟨σ', res⟩ := out
          obtain ⟨hm1, hm2, hm3⟩ := hmain
          refine ⟨hm1, ?_, ?_⟩
          · refine le_trans ?_ hm2
            simp
          · intro q hq
            rw [hm3 q (by simp; omega)]
            exact Store.get_alloc_old σ _ q hq
    · simp [kargerLoopSt, kargerLoop, hn]

/-! ## C9 -/

/-- C9: run over the explicit object store, `reverse_delete_mst` mutates
only the fresh copy made by `G.copy()` and `karger_min_cut` only
allocates fresh graphs via `nx.contracted_nodes`, rebinding its local
variable; the caller's graph object (and every other pre-existing
object) is unchanged after either call, and both store-level runs
compute exactly the pure functions of the caller's graph value. -/
theorem C9_no_mutation_of_input (σ : Store) (r : Nat) (choice : Nat → Nat)
    (hr : r < σ.length) :
    (reverse_delete_st σ r).2 = reverse_delete_mst (σ.get r) ∧
    (∀ q, q < σ.length → (reverse_delete_st σ r).1.get q = σ.get q) ∧
    (∀ σ' res, karger_min_cut_st σ r choice = some (σ', res) →
      karger_min_cut (σ.get r) choice = some res ∧
      (∀ q, q < σ.length → σ'.get q = σ.get q)) := by
  have hrc : σ.length < (σ ++ [σ.get r]).length := by simp
  have hnew : (σ ++ [σ.get r]).get σ.length = σ.get r := Store.get_alloc_new σ _
  obtain ⟨h1, h2, h3⟩ := reverseLoopSt_spec
    (sortEdgesDesc (((σ ++ [σ.get r]).get σ.length).edges))
    (σ ++ [σ.get r]) σ.length [] 0 hrc
  refine ⟨?_, ?_, ?_⟩
  · show (reverseLoopSt (σ ++ [σ.get r]) σ.length
      (sortEdgesDesc (((σ ++ [σ.get r]).get σ.length).edges)) [] 0).2 = _
    rw [h1, hnew]
    rfl
  · intro q hq
    show (reverseLoopSt (σ ++ [σ.get r]) σ.length
      (sortEdgesDesc (((σ ++ [σ.get r]).get σ.length).edges)) [] 0).1.get q = _
    rw [h3 q (by omega)]
    exact Store.get_alloc_old σ _ q hq
  · intro σ' res hres
    have hspec := kargerLoopSt_spec choice (σ.get r).nodes.length 0 σ r [] hr
    rw [show karger_min_cut_st σ r choice =
      kargerLoopSt choice (σ.get r).nodes.length 0 σ r [] from rfl] at hres
    rw [hres] at hspec
    exact ⟨hspec.1, fun q hq => hspec.2.2 q hq⟩

/-- C9, witness: the frame theorem applied to a one-object store holding
the triangle. -/
theorem C9_witness :
    0 < ([triangle] : Store).length ∧
    ((reverse_delete_st [triangle] 0).2 =
        reverse_delete_mst (Store.get [triangle] 0) ∧
     (∀ q, q < ([triangle] : Store).length →
        (reverse_delete_st [triangle] 0).1.get q = Store.get [triangle] q) ∧
     (∀ σ' res, karger_min_cut_st [triangle] 0 (fun _ => 0) = some (σ', res) →
        karger_min_cut (Store.get [triangle] 0) (fun _ => 0) = some res ∧
        (∀ q, q < ([triangle] : Store).length → σ'.get q = Store.get [triangle] q))) :=
  ⟨by decide, C9_no_mutation_of_input [triangle] 0 (fun _ => 0) (by decide)⟩

/-! ## Connectivity theory

`adjRel` / `Reach` give the mathematical reading of the edge list;
`reachSet` (the embedded BFS closure of `nx.is_connected`) is proved to
compute exactly reachability, so `is_connected` decides connectivity. -/

/-- Some edge joins `a` and `b`. -/
def adjRel (edges : List Edge) (a b : Nat) : Prop :=
  ∃ e ∈ edges, touches e a b = true

/-- Reachability along edges. -/
def Reach (edges : List Edge) : Nat → Nat → Prop :=
  Relation.ReflTransGen (adjRel edges)

theorem touches_symm (e : Edge) (a b : Nat) : touches e a b = touches e b a := by
  simp only [touches]
  cases h1 : e.u == a <;> cases h2 : e.v == b <;>
    cases h3 : e.u == b <;> cases h4 : e.v == a <;> rfl

theorem adjRel_symm {edges : List Edge} {a b : Nat} (h : adjRel edges a b) :
    adjRel edges b a := by
  obtain ⟨e, he, ht⟩ := h
  exact ⟨e, he, (touches_symm e b a).trans ht⟩

theorem reach_symm {edges : List Edge} {a b : Nat} (h : Reach edges a b) :
    Reach edges b a :=
  Relation.ReflTransGen.symmetric (fun _ _ => adjRel_symm) h

theorem reach_trans {edges : List Edge} {a b c : Nat} (h1 : Reach edges a b)
    (h2 : Reach edges b c) : Reach edges a c :=
  Relation.ReflTransGen.trans h1 h2

theorem adjRel_of_mem {edges : List Edge} {e : Edge} (he : e ∈ edges) :
    adjRel edges e.u e.v :=
  ⟨e, he, by simp [touches]⟩

theorem subset_expand (edges : List Edge) (s : Finset Nat) :
    s ⊆ expand edges s := by
  induction edges with
  | nil => exact fun x hx => hx
  | cons e es ih =>
    intro x hx
    simp only [expand, List.foldr]
    split
    · exact Finset.mem_insert_of_mem (ih hx)
    · split
      · exact Finset.mem_insert_of_mem (ih hx)
      · exact ih hx

theorem mem_expand_cases {edges : List Edge} {s : Finset Nat} {x : Nat}
    (h : x ∈ expand edges s) :
    x ∈ s ∨ ∃ e ∈ edges, (e.u ∈ s ∧ x = e.v) ∨ (e.v ∈ s ∧ x = e.u) := by
  induction edges with
  | nil => exact Or.inl h
  | cons e es ih =>
    simp only [expand, List.foldr] at h
    split at h
    · rcases Finset.mem_insert.mp h with rfl | h
      · exact Or.inr ⟨e, List.mem_cons_self e es, Or.inl ⟨by assumption, rfl⟩⟩
      · rcases ih h with h | ⟨f, hf, hc⟩
        · exact Or.inl h
        · exact Or.inr ⟨f, List.mem_cons_of_mem e hf, hc⟩
    · split at h
      · rcases Finset.mem_insert.mp h with rfl | h
        · exact Or.inr ⟨e, List.mem_cons_self e es, Or.inr ⟨by assumption, rfl⟩⟩
        · rcases ih h with h | ⟨f, hf, hc⟩
          · exact Or.inl h
          · exact Or.inr ⟨f, List.mem_cons_of_mem e hf, hc⟩
      · rcases ih h with h | ⟨f, hf, hc⟩
        · exact Or.inl h
        · exact Or.inr ⟨f, List.mem_cons_of_mem e hf, hc⟩

theorem expand_mem_of_u {edges : List Edge} {s : Finset Nat} {e : Edge}
    (he : e ∈ edges) (hu : e.u ∈ s) : e.v ∈ expand edges s := by
  induction edges with
  | nil => cases he
  | cons f fs ih =>
    simp only [expand, List.foldr]
    rcases List.mem_cons.mp he with rfl | he
    · rw [if_pos hu]
      exact Finset.mem_insert_self _ _
    · split
      · exact Finset.mem_insert_of_mem (ih he)
      · split
        · exact Finset.mem_insert_of_mem (ih he)
        · exact ih he

theorem expand_mem_of_v {edges : List Edge} {s : Finset Nat} {e : Edge}
    (he : e ∈ edges) (hv : e.v ∈ s) : e.u ∈ expand edges s := by
  induction edges with
  | nil => cases he
  | cons f fs ih =>
    simp only [expand, List.foldr]
    rcases List.mem_cons.mp he with rfl | he
    · by_cases hu : e.u ∈ s
      · rw [if_pos hu]
        exact Finset.mem_insert_of_mem (subset_expand fs s hu)
      · rw [if_neg hu, if_pos hv]
        exact Finset.mem_insert_self _ _
    · split
      · exact Finset.mem_insert_of_mem (ih he)
      · split
        · exact Finset.mem_insert_of_mem (ih he)
        · exact ih he

theorem start_mem_reachSet (edges : List Edge) (start k : Nat) :
    start ∈ reachSet edges start k := by
  induction k with
  | zero => exact Finset.mem_singleton_self start
  | succ n ih => exact subset_expand edges _ ih

theorem reachSet_sound {edges : List Edge} {start k x : Nat}
    (h : x ∈ reachSet edges start k) : Reach edges start x := by
  induction k generalizing x with
  | zero =>
    rw [Finset.mem_singleton.mp h]
    exact Relation.ReflTransGen.refl
  | succ n ih =>
    rcases mem_expand_cases h with h | ⟨e, he, hc⟩
    · exact ih h
    · rcases hc with ⟨hu, rfl⟩ | ⟨hv, rfl⟩
      · exact Relation.ReflTransGen.tail (ih hu) ⟨e, he, by simp [touches]⟩
      · exact Relation.ReflTransGen.tail (ih hv) ⟨e, he, by simp [touches]⟩

theorem reachSet_subset_succ (edges : List Edge) (start k : Nat) :
    reachSet edges start k ⊆ reachSet edges start (k+1) :=
  subset_expand edges _

theorem reachSet_subset_bound {edges : List Edge} {start : Nat}
    {bound : Finset Nat} (hstart : start ∈ bound)
    (hedges : ∀ e ∈ edges, e.u ∈ bound ∧ e.v ∈ bound) (k : Nat) :
    reachSet edges start k ⊆ bound := by
  induction k with
  | zero => exact Finset.singleton_subset_iff.mpr hstart
  | succ n ih =>
    intro x hx
    rcases mem_expand_cases hx with h | ⟨e, he, hc⟩
    · exact ih h
    · rcases hc with ⟨-, rfl⟩ | ⟨-, rfl⟩
      · exact (hedges e he).2
      · exact (hedges e he).1

theorem reachSet_fix_stable {edges : List Edge} {start k : Nat}
    (h : reachSet edges start (k+1) = reachSet edges start k) :
    ∀ j, reachSet edges start (k + j) = reachSet edges start k := by
  intro j
  induction j with
  | zero => rfl
  | succ m ih =>
    have : reachSet edges start (k + (m + 1)) =
        expand edges (reachSet edges start (k + m)) := rfl
    rw [this, ih]
    exact h

theorem reachSet_exists_fix {edges : List Edge} {start : Nat}
    {bound : Finset Nat} (hstart : start ∈ bound)
    (hedges : ∀ e ∈ edges, e.u ∈ bound ∧ e.v ∈ bound) :
    ∃ j ≤ bound.card, reachSet edges start (j+1) = reachSet edges start j := by
  by_contra hno
  push_neg at hno
  have hgrow : ∀ k, k ≤ bound.card + 1 → k + 1 ≤ (reachSet edges start k).card := by
    intro k
    induction k with
    | zero =>
      intro _
      simp [reachSet]
    | succ m ih =>
      intro hm
      have hm' : m ≤ bound.card := by omega
      have hsub := reachSet_subset_succ edges start m
      have hne := hno m hm'
      have hlt : (reachSet edges start m).card <
          (reachSet edges start (m+1)).card := by
        by_contra hle
        push_neg at hle
        exact hne (Finset.eq_of_subset_of_card_le hsub hle).symm
      have := ih (by omega)
      omega
  have h1 := hgrow (bound.card + 1) (le_refl _)
  have h2 : (reachSet edges start (bound.card + 1)).card ≤ bound.card :=
    Finset.card_le_card (reachSet_subset_bound hstart hedges _)
  omega

theorem reachSet_closed {edges : List Edge} {start : Nat}
    {bound : Finset Nat} (hstart : start ∈ bound)
    (hedges : ∀ e ∈ edges, e.u ∈ bound ∧ e.v ∈ bound) {n : Nat}
    (hn : bound.card ≤ n) :
    expand edges (reachSet edges start n) = reachSet edges start n := by
  obtain ⟨j, hj, hfix⟩ := reachSet_exists_fix hstart hedges
  have h1 : reachSet edges start n = reachSet edges start j := by
    have := reachSet_fix_stable hfix (n - j)
    rwa [show j + (n - j) = n by omega] at this
  have h2 : expand edges (reachSet edges start n) =
      reachSet edges start (n + 1) := rfl
  rw [h2]
  have := reachSet_fix_stable hfix (n + 1 - j)
  rwa [show j + (n + 1 - j) = n + 1 by omega, ← h1] at this

theorem reach_complete {edges : List Edge} {start x : Nat}
    {bound : Finset Nat} (hstart : start ∈ bound)
    (hedges : ∀ e ∈ edges, e.u ∈ bound ∧ e.v ∈ bound) {n : Nat}
    (hn : bound.card ≤ n) (h : Reach edges start x) :
    x ∈ reachSet edges start n := by
  induction h with
  | refl => exact start_mem_reachSet edges start n
  | tail hab hadj ih =>
    rename_i b c
    obtain ⟨e, he, ht⟩ := hadj
    simp only [touches, Bool.or_eq_true, Bool.and_eq_true, beq_iff_eq] at ht
    rcases ht with ⟨hu, hv⟩ | ⟨hu, hv⟩
    · have := expand_mem_of_u he (s := reachSet edges start n) (hu ▸ ih)
      rw [reachSet_closed hstart hedges hn] at this
      exact hv ▸ this
    · have := expand_mem_of_v he (s := reachSet edges start n) (hv ▸ ih)
      rw [reachSet_closed hstart hedges hn] at this
      exact hu ▸ this

/-- On a well-formed graph, `is_connected` decides reachability of every
node from the first node. -/
theorem is_connected_iff {G : Graph} (hwf : G.WF) {n0 : Nat} {rest : List Nat}
    (hnodes : G.nodes = n0 :: rest) :
    is_connected G = true ↔ ∀ x ∈ G.nodes, Reach G.edges n0 x := by
  obtain ⟨hnodup, -, hends, -⟩ := hwf
  have hstart : n0 ∈ G.nodes.toFinset := by
    rw [hnodes]; simp
  have hedges : ∀ e ∈ G.edges, e.u ∈ G.nodes.toFinset ∧
      e.v ∈ G.nodes.toFinset := by
    intro e he
    obtain ⟨h1, h2, -⟩ := hends e he
    exact ⟨List.mem_toFinset.mpr h1, List.mem_toFinset.mpr h2⟩
  have hcard : G.nodes.toFinset.card = G.nodes.length :=
    List.toFinset_card_of_nodup hnodup
  constructor
  · intro hconn x hx
    simp only [is_connected, hnodes] at hconn
    rw [decide_eq_true_iff] at hconn
    have := hconn x (hnodes ▸ hx)
    exact reachSet_sound this
  · intro hreach
    simp only [is_connected, hnodes]
    rw [decide_eq_true_iff]
    intro x hx
    exact reach_complete hstart hedges
      (by rw [hcard, hnodes]) (hreach x (hnodes ▸ hx))

/-! ## Contraction lemmas (for the Karger safety claim)

`contracted_nodes` preserves well-formedness and connectivity and
removes exactly one node; the loop of `karger_min_cut` therefore always
finds an edge to pick and performs exactly `n - 2` contractions on a
connected graph. -/

theorem touches_flip (e f : Edge) : touches f e.u e.v = touches e f.u f.v := by
  simp only [touches]
  rw [Bool.eq_iff_iff]
  simp only [Bool.or_eq_true, Bool.and_eq_true, beq_iff_eq]
  constructor
  · rintro (⟨hh1, hh2⟩ | ⟨hh1, hh2⟩)
    · exact Or.inl ⟨hh1.symm, hh2.symm⟩
    · exact Or.inr ⟨hh2.symm, hh1.symm⟩
  · rintro (⟨hh1, hh2⟩ | ⟨hh1, hh2⟩)
    · exact Or.inl ⟨hh1.symm, hh2.symm⟩
    · exact Or.inr ⟨hh2.symm, hh1.symm⟩

/-- Endpoint provenance through `addIfAbsent`. -/
theorem addIfAbsent_mem {edges : List Edge} {e f' : Edge}
    (h : f' ∈ addIfAbsent edges e) :
    (∃ f ∈ edges, f'.u = f.u ∧ f'.v = f.v) ∨ f' = e := by
  simp only [addIfAbsent] at h
  split at h
  · exact Or.inl ⟨f', h, rfl, rfl⟩
  · rcases List.mem_append.mp h with h | h
    · exact Or.inl ⟨f', h, rfl, rfl⟩
    · exact Or.inr (List.mem_singleton.mp h)

theorem addIfAbsent_pair_mono {edges : List Edge} (e : Edge) {a b : Nat}
    (h : ∃ f ∈ edges, touches f a b = true) :
    ∃ f ∈ addIfAbsent edges e, touches f a b = true := by
  obtain ⟨f, hf, ht⟩ := h
  simp only [addIfAbsent]
  split
  · exact ⟨f, hf, ht⟩
  · exact ⟨f, List.mem_append_left _ hf, ht⟩

theorem addIfAbsent_pair_self (edges : List Edge) (e : Edge) :
    ∃ f ∈ addIfAbsent edges e, touches f e.u e.v = true := by
  simp only [addIfAbsent]
  split
  · rename_i hany
    obtain ⟨f, hf, ht⟩ := List.any_eq_true.mp hany
    exact ⟨f, hf, ht⟩
  · exact ⟨e, List.mem_append_right _ (List.mem_singleton_self e),
      by simp [touches]⟩

theorem addIfAbsent_pairwise {edges : List Edge} (e : Edge)
    (h : edges.Pairwise (fun a b => ¬ (touches b a.u a.v = true))) :
    (addIfAbsent edges e).Pairwise (fun a b => ¬ (touches b a.u a.v = true)) := by
  simp only [addIfAbsent]
  split
  · exact h
  · rename_i hany
    rw [List.pairwise_append]
    refine ⟨h, List.pairwise_singleton _ _, ?_⟩
    intro a ha b hb
    rw [List.mem_singleton.mp hb]
    rw [← touches_flip]
    intro hcontra
    have hne : edges.any (fun f => touches f e.u e.v) = true :=
      List.any_eq_true.mpr ⟨a, ha, hcontra⟩
    exact hany hne

theorem foldl_addIfAbsent_mem {l : List Edge} :
    ∀ {base : List Edge} {f' : Edge}, f' ∈ l.foldl addIfAbsent base →
    (∃ f ∈ base, f'.u = f.u ∧ f'.v = f.v) ∨
    (∃ e ∈ l, f'.u = e.u ∧ f'.v = e.v) := by
  induction l with
  | nil => exact fun h => Or.inl ⟨_, h, rfl, rfl⟩
  | cons e es ih =>
    intro base f' h
    rcases ih h with h | ⟨g, hg, hu, hv⟩
    · obtain ⟨f, hf, hu, hv⟩ := h
      rcases addIfAbsent_mem hf with ⟨f0, hf0, hu0, hv0⟩ | rfl
      · exact Or.inl ⟨f0, hf0, hu.trans hu0, hv.trans hv0⟩
      · exact Or.inr ⟨f, List.mem_cons_self f es, hu, hv⟩
    · exact Or.inr ⟨g, List.mem_cons_of_mem e hg, hu, hv⟩

theorem foldl_addIfAbsent_pair_mono (l : List Edge) :
    ∀ {base : List Edge} {a b : Nat}, (∃ f ∈ base, touches f a b = true) →
    ∃ f ∈ l.foldl addIfAbsent base, touches f a b = true := by
  induction l with
  | nil => exact fun h => h
  | cons e es ih => exact fun h => ih (addIfAbsent_pair_mono e h)

theorem foldl_addIfAbsent_pair_new (l : List Edge) :
    ∀ {base : List Edge} {e : Edge}, e ∈ l →
    ∃ f ∈ l.foldl addIfAbsent base, touches f e.u e.v = true := by
  induction l with
  | nil => intro _ _ h; cases h
  | cons g gs ih =>
    intro base e he
    rcases List.mem_cons.mp he with rfl | he
    · exact foldl_addIfAbsent_pair_mono gs (addIfAbsent_pair_self base e)
    · exact ih he

theorem foldl_addIfAbsent_pairwise (l : List Edge) :
    ∀ {base : List Edge},
    base.Pairwise (fun a b => ¬ (touches b a.u a.v = true)) →
    (l.foldl addIfAbsent base).Pairwise
      (fun a b => ¬ (touches b a.u a.v = true)) := by
  induction l with
  | nil => exact fun h => h
  | cons e es ih => exact fun h => ih (addIfAbsent_pairwise e h)

/-- The contracted node list: everything but `v`. -/
theorem contracted_nodes_nodes (G : Graph) (u v : Nat) :
    (contracted_nodes G u v).nodes = G.nodes.filter (fun y => y != v) := rfl

theorem length_filter_ne {l : List Nat} (h : l.Nodup) {a : Nat} (ha : a ∈ l) :
    (l.filter (fun y => y != a)).length = l.length - 1 := by
  induction l with
  | nil => cases ha
  | cons b l ih =>
    rcases List.nodup_cons.mp h with ⟨hb, hl⟩
    rcases List.mem_cons.mp ha with rfl | ha
    · have hfix : l.filter (fun y => y != a) = l :=
        List.filter_eq_self.mpr (fun x hx => by
          simp only [bne_iff_ne, ne_eq]
          exact fun hxb => hb (hxb ▸ hx))
      simp [hfix]
    · have hba : (b != a) = true := by
        simp only [bne_iff_ne, ne_eq]
        exact fun hba => hb (hba ▸ ha)
      have hlen : 1 ≤ l.length := List.length_pos.mpr (List.ne_nil_of_mem ha)
      simp only [List.filter, hba, List.length_cons]
      rw [ih hl ha]
      omega

/-- Membership in the rerouted edge list of a contraction. -/
theorem rerouted_mem_of {G : Graph} {u v : Nat} {g : Edge}
    (hg : g ∈ (G.edges.filter (fun e => e.u == v || e.v == v)).filterMap
      (fun e =>
        if (if e.u = v then e.v else e.u) = u then none
        else some (⟨u, if e.u = v then e.v else e.u, e.w⟩ : Edge))) :
    ∃ e0 ∈ G.edges, (e0.u = v ∨ e0.v = v) ∧
      g.u = u ∧ g.v = (if e0.u = v then e0.v else e0.u) ∧ g.v ≠ u := by
  rw [List.mem_filterMap] at hg
  obtain ⟨e0, he0, hmap⟩ := hg
  rw [List.mem_filter] at he0
  obtain ⟨he0E, he0v⟩ := he0
  simp only [Bool.or_eq_true, beq_iff_eq] at he0v
  by_cases hx : (if e0.u = v then e0.v else e0.u) = u
  · rw [if_pos hx] at hmap; cases hmap
  · rw [if_neg hx] at hmap
    injection hmap with hmap
    exact ⟨e0, he0E, he0v, by rw [← hmap], by rw [← hmap], by rw [← hmap]; exact hx⟩

/-- Contraction preserves well-formedness (for `u` a surviving node). -/
theorem contracted_nodes_WF {G : Graph} (hwf : G.WF) {u v : Nat}
    (hu : u ∈ G.nodes) (huv : u ≠ v) :
    (contracted_nodes G u v).WF := by
  obtain ⟨hnodup, hne, hends, hpair⟩ := hwf
  have hu' : u ∈ G.nodes.filter (fun y => y != v) :=
    List.mem_filter.mpr ⟨hu, by simpa using huv⟩
  refine ⟨hnodup.filter _, List.ne_nil_of_mem hu', ?_, ?_⟩
  · intro f hf
    rcases foldl_addIfAbsent_mem hf with ⟨g, hg, hgu, hgv⟩ | ⟨g, hg, hgu, hgv⟩
    · rw [List.mem_filter] at hg
      obtain ⟨hgE, hgv'⟩ := hg
      obtain ⟨h1, h2, h3⟩ := hends g hgE
      have hnotv : ¬(g.u == v || g.v == v) = true := by simpa using hgv'
      simp only [Bool.or_eq_true, beq_iff_eq] at hnotv
      push_neg at hnotv
      refine ⟨?_, ?_, ?_⟩
      · rw [hgu]
        exact List.mem_filter.mpr ⟨h1, by simpa using hnotv.1⟩
      · rw [hgv]
        exact List.mem_filter.mpr ⟨h2, by simpa using hnotv.2⟩
      · rw [hgu, hgv]; exact h3
    · obtain ⟨e0, he0E, he0v, hgu', hgv', hgvu⟩ := rerouted_mem_of hg
      obtain ⟨h1, h2, h3⟩ := hends e0 he0E
      have hxv : g.v ≠ v := by
        rw [hgv']
        split
        · rename_i h
          exact fun hc => h3 (h.trans hc.symm)
        · rename_i h
          exact h
      have hxn : g.v ∈ G.nodes := by
        rw [hgv']
        split
        · exact h2
        · exact h1
      refine ⟨?_, ?_, ?_⟩
      · rw [hgu, hgu']; exact hu'
      · rw [hgv]
        exact List.mem_filter.mpr ⟨hxn, by simpa using hxv⟩
      · rw [hgu, hgv, hgu']
        exact fun hc => hgvu hc.symm
  · exact foldl_addIfAbsent_pairwise _
      (hpair.sublist (List.filter_sublist G.edges))

theorem contracted_pair_of_other {G : Graph} {u v a b : Nat} {e : Edge}
    (he : e ∈ G.edges) (ht : touches e a b = true) (hav : a ≠ v)
    (hbv : b ≠ v) :
    ∃ f ∈ (contracted_nodes G u v).edges, touches f a b = true := by
  apply foldl_addIfAbsent_pair_mono
  refine ⟨e, ?_, ht⟩
  rw [List.mem_filter]
  refine ⟨he, ?_⟩
  simp only [Bool.not_eq_true', Bool.or_eq_false_iff, beq_eq_false_iff_ne, ne_eq]
  simp only [touches, Bool.or_eq_true, Bool.and_eq_true, beq_iff_eq] at ht
  rcases ht with ⟨h1, h2⟩ | ⟨h1, h2⟩
  · exact ⟨h1 ▸ hav, h2 ▸ hbv⟩
  · exact ⟨h1 ▸ hbv, h2 ▸ hav⟩

theorem contracted_pair_of_incident {G : Graph} {u v b : Nat} {e : Edge}
    (he : e ∈ G.edges) (ht : touches e v b = true) (hbv : b ≠ v)
    (hbu : b ≠ u) :
    ∃ f ∈ (contracted_nodes G u v).edges, touches f u b = true := by
  have hmem : (⟨u, b, e.w⟩ : Edge) ∈
      (G.edges.filter (fun e => e.u == v || e.v == v)).filterMap
      (fun e =>
        if (if e.u = v then e.v else e.u) = u then none
        else some (⟨u, if e.u = v then e.v else e.u, e.w⟩ : Edge)) := by
    rw [List.mem_filterMap]
    refine ⟨e, ?_, ?_⟩
    · rw [List.mem_filter]
      refine ⟨he, ?_⟩
      simp only [touches, Bool.or_eq_true, Bool.and_eq_true, beq_iff_eq] at ht
      simp only [Bool.or_eq_true, beq_iff_eq]
      rcases ht with ⟨h1, -⟩ | ⟨-, h2⟩
      · exact Or.inl h1
      · exact Or.inr h2
    · simp only [touches, Bool.or_eq_true, Bool.and_eq_true, beq_iff_eq] at ht
      have hxb : (if e.u = v then e.v else e.u) = b := by
        rcases ht with ⟨h1, h2⟩ | ⟨h1, h2⟩
        · rw [if_pos h1]; exact h2
        · rw [if_neg (h1 ▸ hbv), h1]
      rw [hxb, if_neg hbu]
  exact @foldl_addIfAbsent_pair_new
    ((G.edges.filter (fun e => e.u == v || e.v == v)).filterMap
      (fun e =>
        if (if e.u = v then e.v else e.u) = u then none
        else some (⟨u, if e.u = v then e.v else e.u, e.w⟩ : Edge)))
    (G.edges.filter (fun e => !(e.u == v || e.v == v)))
    (⟨u, b, e.w⟩ : Edge) hmem

/-- The vertex projection of contracting `v` into `u`. -/
def phi (u v x : Nat) : Nat := if x = v then u else x

theorem adj_contracted {G : Graph} {u v a b : Nat}
    (hadj : adjRel G.edges a b) :
    phi u v a = phi u v b ∨
      adjRel (contracted_nodes G u v).edges (phi u v a) (phi u v b) := by
  obtain ⟨e, he, ht⟩ := hadj
  by_cases hav : a = v <;> by_cases hbv : b = v
  · left; rw [hav, hbv]
  · by_cases hbu : b = u
    · left
      rw [phi, if_pos hav, phi, if_neg hbv, hbu]
    · right
      rw [phi, if_pos hav, phi, if_neg hbv]
      exact contracted_pair_of_incident he (hav ▸ ht) hbv hbu
  · by_cases hau : a = u
    · left
      rw [phi, if_neg hav, phi, if_pos hbv, hau]
    · right
      rw [phi, if_neg hav, phi, if_pos hbv]
      obtain ⟨f, hf, htf⟩ := contracted_pair_of_incident he
        (hbv ▸ (touches_symm e a b ▸ ht)) hav hau
      exact ⟨f, hf, (touches_symm f a u) ▸ htf⟩
  · right
    rw [phi, if_neg hav, phi, if_neg hbv]
    exact contracted_pair_of_other he ht hav hbv

theorem reach_contracted {G : Graph} (u v : Nat) {a b : Nat}
    (h : Reach G.edges a b) :
    Reach (contracted_nodes G u v).edges (phi u v a) (phi u v b) := by
  induction h with
  | refl => exact Relation.ReflTransGen.refl
  | tail hxy hadj ih =>
    rcases adj_contracted (u := u) (v := v) hadj with heq | hadj'
    · rw [← heq]; exact ih
    · exact Relation.ReflTransGen.tail ih hadj'

/-- Contraction of two adjacent nodes preserves connectivity. -/
theorem contracted_nodes_connected {G : Graph} (hwf : G.WF)
    (hconn : is_connected G = true) {u v : Nat} (hu : u ∈ G.nodes)
    (huv : u ≠ v) :
    is_connected (contracted_nodes G u v) = true := by
  have hwf' := contracted_nodes_WF hwf hu huv
  obtain ⟨n0, rest, hnodes⟩ : ∃ n0 rest, G.nodes = n0 :: rest := by
    cases h : G.nodes with
    | nil => exact absurd h hwf.2.1
    | cons a l => exact ⟨a, l, rfl⟩
  obtain ⟨n0', rest', hnodes'⟩ : ∃ n0' rest',
      (contracted_nodes G u v).nodes = n0' :: rest' := by
    cases h : (contracted_nodes G u v).nodes with
    | nil => exact absurd h hwf'.2.1
    | cons a l => exact ⟨a, l, rfl⟩
  rw [is_connected_iff hwf' hnodes']
  intro x hx
  have hxmem : x ∈ G.nodes ∧ x ≠ v := by
    have := hx
    rw [contracted_nodes_nodes, List.mem_filter] at this
    exact ⟨this.1, by simpa using this.2⟩
  have hn0mem : n0' ∈ G.nodes ∧ n0' ≠ v := by
    have : n0' ∈ (contracted_nodes G u v).nodes := by
      rw [hnodes']; exact List.mem_cons_self _ _
    rw [contracted_nodes_nodes, List.mem_filter] at this
    exact ⟨this.1, by simpa using this.2⟩
  have h1 : Reach G.edges n0 x :=
    (is_connected_iff hwf hnodes).mp hconn x hxmem.1
  have h2 : Reach G.edges n0 n0' :=
    (is_connected_iff hwf hnodes).mp hconn n0' hn0mem.1
  have h3 : Reach G.edges n0' x := reach_trans (reach_symm h2) h1
  have h4 := reach_contracted u v h3
  rwa [phi, if_neg hn0mem.2, phi, if_neg hxmem.2] at h4

theorem edges_nonempty_of_connected {G : Graph} (hwf : G.WF)
    (hconn : is_connected G = true) (hlen : 2 ≤ G.nodes.length) :
    G.edges ≠ [] := by
  intro hempty
  obtain ⟨n0, rest, hnodes⟩ : ∃ n0 rest, G.nodes = n0 :: rest := by
    cases h : G.nodes with
    | nil => exact absurd h hwf.2.1
    | cons a l => exact ⟨a, l, rfl⟩
  obtain ⟨x, hx⟩ : ∃ x, x ∈ rest := by
    cases h : rest with
    | nil => rw [hnodes, h] at hlen; simp at hlen
    | cons a l => exact ⟨a, List.mem_cons_self a l⟩
  have hxn0 : x ≠ n0 := by
    have hnd := hwf.1
    rw [hnodes] at hnd
    rcases List.nodup_cons.mp hnd with ⟨hn0, -⟩
    exact fun h => hn0 (h ▸ hx)
  have hreach := (is_connected_iff hwf hnodes).mp hconn x
    (by rw [hnodes]; exact List.mem_cons_of_mem _ hx)
  rw [hempty] at hreach
  have : x = n0 := by
    induction hreach with
    | refl => rfl
    | tail _ hadj _ =>
      obtain ⟨e, he, -⟩ := hadj
      cases he
  exact hxn0 this

theorem chooseEdge_mem (choice : Nat → Nat) (k : Nat) (e0 : Edge)
    (es : List Edge) : chooseEdge choice k e0 es ∈ e0 :: es := by
  simp only [chooseEdge]
  have hlt : choice k % (e0 :: es).length < (e0 :: es).length :=
    Nat.mod_lt _ (by simp)
  rw [List.getD_eq_getElem (e0 :: es) e0 hlt]
  exact List.getElem_mem _

/-- The loop of `karger_min_cut` completes on connected well-formed
graphs, recording one step per contraction: exactly `n - 2` of them. -/
theorem kargerLoop_completes (choice : Nat → Nat) :
    ∀ (fuel k : Nat) (G : Graph) (steps : List (List Edge)),
    G.WF → is_connected G = true →
    2 ≤ G.nodes.length → G.nodes.length ≤ fuel + 1 →
    ∃ out, kargerLoop choice fuel k G steps = some out ∧
      out.1.length = steps.length + (G.nodes.length - 2) := by
  intro fuel
  induction fuel with
  | zero =>
    intro k G steps hwf hconn hge hle
    exact absurd hle (by omega)
  | succ m ih =>
    intro k G steps hwf hconn hge hle
    by_cases hn : G.nodes.length > 2
    · have hne : G.edges ≠ [] := edges_nonempty_of_connected hwf hconn hge
      obtain ⟨e0, es, hedges⟩ : ∃ e0 es, G.edges = e0 :: es := by
        cases h : G.edges with
        | nil => exact absurd h hne
        | cons a l => exact ⟨a, l, rfl⟩
      have hcmem : chooseEdge choice k e0 es ∈ G.edges := by
        rw [hedges]; exact chooseEdge_mem choice k e0 es
      obtain ⟨hcu, hcv, hcuv⟩ := hwf.2.2.1 _ hcmem
      have hwf' := contracted_nodes_WF hwf hcu hcuv
      have hconn' := contracted_nodes_connected hwf hconn hcu hcuv
      have hlen' : (contracted_nodes G (chooseEdge choice k e0 es).u
          (chooseEdge choice k e0 es).v).nodes.length = G.nodes.length - 1 := by
        rw [contracted_nodes_nodes]
        exact length_filter_ne hwf.1 hcv
      obtain ⟨out, hout, hlen⟩ := ih (k+1)
        (contracted_nodes G (chooseEdge choice k e0 es).u
          (chooseEdge choice k e0 es).v)
        (steps ++ [(contracted_nodes G (chooseEdge choice k e0 es).u
          (chooseEdge choice k e0 es).v).edges])
        hwf' hconn' (by omega) (by omega)
      refine ⟨out, ?_, ?_⟩
      · simp only [kargerLoop, hedges, if_pos hn]
        exact hout
      · rw [hlen, hlen']
        simp only [List.length_append, List.length_singleton]
        omega
    · refine ⟨(steps, G.edges, (G.edges.map Edge.w).sum), ?_, ?_⟩
      · simp only [kargerLoop, if_neg hn]
      · have : G.nodes.length = 2 := by omega
        rw [this]
        simp

/-! ## C10 -/

/-- C10: on every connected well-formed graph with at least two nodes and
any sequence of random choices, `karger_min_cut` completes normally —
the contraction loop's edge list is never empty (the `random.choice`
error branch is never taken, and the fuel `n` suffices) — performing
exactly `n - 2` contractions and returning a trace of exactly `n - 2`
steps. -/
theorem C10_karger_trace (G : Graph) (choice : Nat → Nat) (hwf : G.WF)
    (hconn : is_connected G = true) (hn : 2 ≤ G.nodes.length) :
    ∃ out, karger_min_cut G choice = some out ∧
      out.1.length = G.nodes.length - 2 := by
  obtain ⟨out, h1, h2⟩ := kargerLoop_completes choice G.nodes.length 0 G []
    hwf hconn hn (by omega)
  exact ⟨out, h1, by simpa using h2⟩

/-- C10, witness: the safety theorem applied to the triangle with the
constant-0 choice sequence. -/
theorem C10_witness :
    triangle.WF ∧ is_connected triangle = true ∧
    2 ≤ triangle.nodes.length ∧
    (∃ out, karger_min_cut triangle (fun _ => 0) = some out ∧
      out.1.length = triangle.nodes.length - 2) := by
  refine ⟨?_, ?_, ?_, ?_⟩
  · decide
  · decide
  · decide
  · exact C10_karger_trace triangle (fun _ => 0) (by decide) (by decide)
      (by decide)

/-! ## DSU partition counting (for the spanning-tree size claim)

Every node with a root resolves within fuel `parent.length` (the parent
chain cannot repeat a node), so groundedness is preserved by `find` and
`union`; a successful `union` merges two root classes and decreases the
root count by exactly one. -/

/-- One parent-chain step. -/
def pstep (p : List Nat) (z : Nat) : Nat := p.getD z z

theorem rootAux_root {p : List Nat} {x : Nat} (h : p.getD x x = x) :
    ∀ fuel, rootAux fuel p x = some x := by
  intro fuel
  cases fuel with
  | zero =>
    simp only [rootAux]
    rw [if_pos h]
  | succ n =>
    simp only [rootAux]
    rw [if_pos h]

theorem rootedAt_exists_fuel {p : List Nat} {x r : Nat} (h : RootedAt p x r) :
    ∃ fuel, rootAux fuel p x = some r := by
  induction h with
  | self x hx => exact ⟨0, rootAux_root hx 0⟩
  | step x r hx _ ih =>
    obtain ⟨fuel, hf⟩ := ih
    refine ⟨fuel + 1, ?_⟩
    simp only [rootAux]
    rw [if_neg hx]
    exact hf

theorem rootAux_none_nonroot {p : List Nat} :
    ∀ {fuel x : Nat}, rootAux fuel p x = none →
    ∀ i ≤ fuel, p.getD ((pstep p)^[i] x) ((pstep p)^[i] x) ≠ (pstep p)^[i] x := by
  intro fuel
  induction fuel with
  | zero =>
    intro x h i hi
    interval_cases i
    simp only [Function.iterate_zero, id]
    simp only [rootAux] at h
    split at h
    · cases h
    · assumption
  | succ n ih =>
    intro x h i hi
    simp only [rootAux] at h
    split at h
    · cases h
    · cases i with
      | zero =>
        simp only [Function.iterate_zero, id]
        assumption
      | succ j =>
        rw [Function.iterate_succ_apply]
        exact ih h j (by omega)

theorem rootAux_some_root {p : List Nat} :
    ∀ {fuel x r : Nat}, rootAux fuel p x = some r →
    ∃ i ≤ fuel, (pstep p)^[i] x = r ∧ p.getD r r = r := by
  intro fuel
  induction fuel with
  | zero =>
    intro x r h
    simp only [rootAux] at h
    split at h
    · injection h with h
      exact ⟨0, le_refl 0, h, by rw [← h]; assumption⟩
    · cases h
  | succ n ih =>
    intro x r h
    simp only [rootAux] at h
    split at h
    · injection h with h
      exact ⟨0, Nat.zero_le _, h, by rw [← h]; assumption⟩
    · obtain ⟨i, hi, heq, hroot⟩ := ih h
      exact ⟨i + 1, by omega, by rw [Function.iterate_succ_apply]; exact heq,
        hroot⟩

theorem rootAux_mono {p : List Nat} :
    ∀ {fuel fuel' x r : Nat}, rootAux fuel p x = some r → fuel ≤ fuel' →
    rootAux fuel' p x = some r := by
  intro fuel
  induction fuel with
  | zero =>
    intro fuel' x r h hle
    simp only [rootAux] at h
    split at h
    · exact (rootAux_root (by assumption) fuel').trans h
    · cases h
  | succ n ih =>
    intro fuel' x r h hle
    simp only [rootAux] at h
    split at h
    · exact (rootAux_root (by assumption) fuel').trans h
    · obtain ⟨m, rfl⟩ : ∃ m, fuel' = m + 1 := ⟨fuel' - 1, by omega⟩
      rename_i hne
      simp only [rootAux]
      rw [if_neg hne]
      exact ih h (by omega)

/-- Master fuel bound: a rooted node resolves within fuel
`parent.length` (the chain visits distinct in-range non-roots). -/
theorem rootAux_length_of_rootedAt {p : List Nat} {x r : Nat}
    (h : RootedAt p x r) : rootAux p.length p x = some r := by
  obtain ⟨f, hf⟩ := rootedAt_exists_fuel h
  have hex : ∃ fuel, (rootAux fuel p x).isSome := ⟨f, by rw [hf]; rfl⟩
  set f0 := Nat.find hex with hf0
  obtain ⟨r', hr'⟩ := Option.isSome_iff_exists.mp (Nat.find_spec hex)
  have hrr : r' = r :=
    (rootAux_rootedAt hr').unique h
  subst hrr
  by_cases hle : f0 ≤ p.length
  · exact rootAux_mono hr' hle
  · exfalso
    have hmin : ∀ j, j < f0 → rootAux j p x = none := by
      intro j hj
      have := Nat.find_min hex hj
      cases hres : rootAux j p x with
      | none => rfl
      | some s => exact absurd (by rw [hres]; rfl) this
    have hnonroot : ∀ i, i < f0 →
        p.getD ((pstep p)^[i] x) ((pstep p)^[i] x) ≠ (pstep p)^[i] x := by
      intro i hi
      have h1 : rootAux (f0 - 1) p x = none := hmin _ (by omega)
      exact rootAux_none_nonroot h1 i (by omega)
    have hroot_f0 : p.getD ((pstep p)^[f0] x) ((pstep p)^[f0] x) =
        (pstep p)^[f0] x := by
      obtain ⟨i, hi, heq, hroot⟩ := rootAux_some_root hr'
      have : i = f0 := by
        rcases Nat.lt_or_ge i f0 with hlt | hge
        · exact absurd (heq ▸ hroot) (heq ▸ hnonroot i hlt)
        · omega
      rw [this] at heq
      rw [heq]
      exact hroot
    have hperiod : ∀ i j, i < j → j < f0 →
        (pstep p)^[i] x = (pstep p)^[j] x → False := by
      intro i j hij hjf heq
      have hper : ∀ t, (pstep p)^[i + t] x = (pstep p)^[j + t] x := by
        intro t
        rw [Nat.add_comm i t, Nat.add_comm j t,
          Function.iterate_add_apply, Function.iterate_add_apply, heq]
      have hx1 : (pstep p)^[f0 - (j - i)] x = (pstep p)^[f0] x := by
        have := hper (f0 - j)
        rw [show i + (f0 - j) = f0 - (j - i) by omega,
          show j + (f0 - j) = f0 by omega] at this
        exact this
      have hlt : f0 - (j - i) < f0 := by omega
      exact hnonroot _ hlt (hx1 ▸ hroot_f0)
    have hinj : Set.InjOn (fun i => (pstep p)^[i] x) (Finset.range f0) := by
      intro i hi j hj heq
      simp only [Finset.coe_range, Set.mem_Iio] at hi hj
      rcases Nat.lt_trichotomy i j with h | h | h
      · exact absurd heq (fun heq => hperiod i j h hj heq)
      · exact h
      · exact absurd heq.symm (fun heq => hperiod j i h hi heq)
    have hmaps : ∀ i ∈ Finset.range f0,
        (pstep p)^[i] x ∈ Finset.range p.length := by
      intro i hi
      rw [Finset.mem_range] at hi ⊢
      exact getD_lt_of_ne _ _ (hnonroot i hi)
    have := Finset.card_le_card_of_injOn _ hmaps hinj
    simp only [Finset.card_range] at this
    omega

/-- Two nodes are in the same DSU class. -/
def sameRoot (p : List Nat) (a b : Nat) : Prop :=
  ∃ r, RootedAt p a r ∧ RootedAt p b r

theorem sameRoot_refl {p : List Nat} {a r : Nat} (h : RootedAt p a r) :
    sameRoot p a a := ⟨r, h, h⟩

theorem sameRoot_symm {p : List Nat} {a b : Nat} (h : sameRoot p a b) :
    sameRoot p b a := by
  obtain ⟨r, h1, h2⟩ := h
  exact ⟨r, h2, h1⟩

theorem sameRoot_trans {p : List Nat} {a b c : Nat} (h1 : sameRoot p a b)
    (h2 : sameRoot p b c) : sameRoot p a c := by
  obtain ⟨r, ha, hb⟩ := h1
  obtain ⟨s, hb', hc⟩ := h2
  exact ⟨r, ha, (hb.unique hb') ▸ hc⟩

/-- The invariant the Kruskal scan maintains on the DSU state (the rank
list plays no role in the partition). -/
structure DSUInv (n : Nat) (d : DSU) : Prop where
  plen : d.parent.length = n
  grounded : ∀ x, ∃ r, RootedAt d.parent x r
  inRange : ∀ z, d.parent.getD z z ≠ z → d.parent.getD z z < n

/-- The number of class representatives. -/
def numRoots (p : List Nat) : Nat :=
  (List.range p.length).countP (fun z => decide (p.getD z z = z))

theorem rootedAt_lt {n : Nat} {p : List Nat}
    (hrange : ∀ z, p.getD z z ≠ z → p.getD z z < n) {x r : Nat}
    (h : RootedAt p x r) (hx : x < n) : r < n := by
  induction h with
  | self _ _ => exact hx
  | step z r hz _ ih => exact ih (hrange z hz)

/-- `DSU.find` at the invariant level. -/
theorem find_spec {n : Nat} (d : DSU) (x : Nat) (hInv : DSUInv n d) :
    RootedAt d.parent x (d.find x).2 ∧ DSUInv n (d.find x).1 ∧
    (∀ y s, RootedAt d.parent y s → RootedAt (d.find x).1.parent y s) ∧
    (∀ z, ((d.find x).1.parent.getD z z = z ↔ d.parent.getD z z = z)) ∧
    (d.find x).1.parent.length = d.parent.length ∧
    (d.find x).1.rank = d.rank := by
  obtain ⟨r, hr⟩ := hInv.grounded x
  have hroot := rootAux_length_of_rootedAt hr
  obtain ⟨h1, h2, h3, h4, h5, h6⟩ :=
    findAux_spec d.parent.length d.parent x r hroot
  have hfind2 : (d.find x).2 = r := h1
  have hfindp : (d.find x).1.parent = (findAux d.parent.length d.parent x).1 :=
    rfl
  refine ⟨hfind2 ▸ hr, ?_, ?_, ?_, ?_, rfl⟩
  · refine ⟨hfindp ▸ (h2.trans hInv.plen), ?_, ?_⟩
    · intro z
      obtain ⟨s, hs⟩ := hInv.grounded z
      exact ⟨s, hfindp ▸ h3 z s hs⟩
    · intro z hz
      rw [hfindp] at hz ⊢
      rcases h6 z with heq | hrootz
      · rw [heq] at hz ⊢
        exact hInv.inRange z hz
      · by_cases hzr : d.parent.getD z z = z
        · exact absurd (hrootz.unique (RootedAt.self z hzr)) hz
        · have hzlt : z < n := hInv.plen ▸ getD_lt_of_ne _ _ hzr
          exact rootedAt_lt hInv.inRange hrootz hzlt
  · exact fun y s hs => hfindp ▸ h3 y s hs
  · intro z
    rw [hfindp]
    constructor
    · intro hz
      rcases h6 z with heq | hrootz
      · rw [← heq]; exact hz
      · rw [hz] at hrootz
        exact hrootz.root_fix
    · exact h4 z
  · rw [hfindp]; exact h2

theorem attach_rootedAt {p : List Nat} {a b : Nat}
    (ha : p.getD a a = a) (hbroot : p.getD b b = b) (hab : a ≠ b)
    (hb : b < p.length) :
    ∀ z s, RootedAt p z s → RootedAt (p.set b a) z (if s = b then a else s) := by
  intro z s h
  induction h with
  | self z hz =>
    by_cases hzb : z = b
    · subst hzb
      rw [if_pos rfl]
      refine RootedAt.step _ _ ?_ ?_
      · rw [getD_set_eq p z a z hb]
        exact fun h => hab h
      · rw [getD_set_eq p z a z hb]
        refine RootedAt.self a ?_
        rw [getD_set_ne p z a a a (fun h => hab h.symm)]
        exact ha
    · rw [if_neg hzb]
      refine RootedAt.self z ?_
      rw [getD_set_ne p b z a z (fun h => hzb h.symm)]
      exact hz
  | step z s hz hs ih =>
    have hzb : z ≠ b := fun hzb => hz (hzb ▸ hbroot)
    refine RootedAt.step _ _ ?_ ?_
    · rw [getD_set_ne p b z a z (fun h => hzb h.symm)]
      exact hz
    · rw [getD_set_ne p b z a z (fun h => hzb h.symm)]
      exact ih

theorem attach_root_iff {p : List Nat} {a b : Nat} (hab : a ≠ b)
    (hb : b < p.length) :
    ∀ z, ((p.set b a).getD z z = z ↔ (p.getD z z = z ∧ z ≠ b)) := by
  intro z
  by_cases hzb : z = b
  · subst hzb
    rw [getD_set_eq p z a z hb]
    constructor
    · intro h
      exact absurd h hab
    · intro h
      exact absurd rfl h.2
  · rw [getD_set_ne p b z a z (fun h => hzb h.symm)]
    exact ⟨fun h => ⟨h, hzb⟩, fun h => h.1⟩

theorem countP_sub_one {l : List Nat} (hnodup : l.Nodup) {b : Nat}
    (hb : b ∈ l) (q q' : Nat → Bool) (hq : ∀ z ∈ l, q' z = (q z && z != b))
    (hqb : q b = true) :
    l.countP q' + 1 = l.countP q := by
  rw [List.countP_congr (fun x hx => by rw [hq x hx, Bool.and_comm]),
    List.countP_eq_length_filter,
    List.countP_eq_length_filter, ← List.filter_filter]
  have hmem : b ∈ l.filter q := List.mem_filter.mpr ⟨hb, hqb⟩
  have hnd : (l.filter q).Nodup := hnodup.filter q
  have hge : 1 ≤ (l.filter q).length :=
    List.length_pos.mpr (List.ne_nil_of_mem hmem)
  rw [length_filter_ne hnd hmem]
  omega

/-- Attaching root `b` under a different root `a` preserves the DSU
invariant, maps every class accordingly, and removes exactly one root. -/
theorem attach_spec {n : Nat} {p : List Nat} {a b : Nat}
    (hplen : p.length = n)
    (hrange : ∀ z, p.getD z z ≠ z → p.getD z z < n)
    (hgr : ∀ z, ∃ r, RootedAt p z r)
    (ha : p.getD a a = a) (hbroot : p.getD b b = b)
    (hab : a ≠ b) (han : a < n) (hbn : b < n) :
    (∀ z s, RootedAt p z s → RootedAt (p.set b a) z (if s = b then a else s)) ∧
    (p.set b a).length = n ∧
    (∀ z, ∃ r, RootedAt (p.set b a) z r) ∧
    (∀ z, (p.set b a).getD z z ≠ z → (p.set b a).getD z z < n) ∧
    numRoots (p.set b a) + 1 = numRoots p := by
  have hb : b < p.length := hplen ▸ hbn
  have hmap := attach_rootedAt ha hbroot hab hb
  refine ⟨hmap, (List.length_set p b a).trans hplen, ?_, ?_, ?_⟩
  · intro z
    obtain ⟨r, hr⟩ := hgr z
    exact ⟨_, hmap z r hr⟩
  · intro z hz
    by_cases hzb : z = b
    · subst hzb
      rw [getD_set_eq p z a z hb] at hz ⊢
      exact han
    · rw [getD_set_ne p b z a z (fun h => hzb h.symm)] at hz ⊢
      exact hrange z hz
  · have hlen : (p.set b a).length = p.length := List.length_set p b a
    simp only [numRoots, hlen]
    refine countP_sub_one (List.nodup_range _)
      (List.mem_range.mpr (show b < p.length by omega)) _ _ ?_ ?_
    · intro z hz
      have hiff := attach_root_iff hab hb z
      rw [Bool.eq_iff_iff]
      simp only [decide_eq_true_eq, Bool.and_eq_true, bne_iff_ne, ne_eq]
      exact hiff
    · exact decide_eq_true hbroot

/-- `DSU.union` at the invariant level: the invariant is preserved, the
partition only coarsens, the two arguments end in the same class, and
the root count drops by one exactly when a merge is reported. -/
theorem union_spec {n : Nat} (d : DSU) (x y : Nat) (hInv : DSUInv n d)
    (hx : x < n) (hy : y < n) :
    DSUInv n (d.union x y).1 ∧
    (∀ a b, sameRoot d.parent a b → sameRoot (d.union x y).1.parent a b) ∧
    sameRoot (d.union x y).1.parent x y ∧
    (if (d.union x y).2 then
      numRoots (d.union x y).1.parent + 1 = numRoots d.parent
     else numRoots (d.union x y).1.parent = numRoots d.parent) := by
  obtain ⟨hfx_root, hfx_inv, hfx_pres, hfx_iff, hfx_len, hfx_rank⟩ :=
    find_spec d x hInv
  obtain ⟨hfy_root0, hfy_inv, hfy_pres, hfy_iff, hfy_len, hfy_rank⟩ :=
    find_spec (d.find x).1 y hfx_inv
  have hX2 : RootedAt ((d.find x).1.find y).1.parent x (d.find x).2 :=
    hfy_pres x (d.find x).2 (hfx_pres x (d.find x).2 hfx_root)
  have hY2 : RootedAt ((d.find x).1.find y).1.parent y ((d.find x).1.find y).2 :=
    hfy_pres y ((d.find x).1.find y).2 hfy_root0
  have hXfix := hX2.root_fix
  have hYfix := hY2.root_fix
  have hXlt : (d.find x).2 < n := rootedAt_lt hfy_inv.inRange hX2 hx
  have hYlt : ((d.find x).1.find y).2 < n := rootedAt_lt hfy_inv.inRange hY2 hy
  have hpres2 : ∀ a b, sameRoot d.parent a b →
      sameRoot ((d.find x).1.find y).1.parent a b := by
    intro a b ⟨r, h1, h2⟩
    exact ⟨r, hfy_pres a r (hfx_pres a r h1), hfy_pres b r (hfx_pres b r h2)⟩
  have hnum2 : numRoots ((d.find x).1.find y).1.parent = numRoots d.parent := by
    simp only [numRoots, hfy_len, hfx_len]
    refine List.countP_congr ?_
    intro z hz
    simp only [decide_eq_true_eq]
    exact (hfy_iff z).trans (hfx_iff z)
  by_cases hne : (d.find x).2 = ((d.find x).1.find y).2
  · have hunion : d.union x y = (((d.find x).1.find y).1, false) := by
      simp only [DSU.union]
      rw [if_neg (by simpa using hne)]
    rw [hunion]
    refine ⟨hfy_inv, hpres2, ⟨(d.find x).2, hX2, hne ▸ hY2⟩, ?_⟩
    simpa using hnum2
  · obtain ⟨hmapA, hlenA, hgrA, hrgA, hnumA⟩ :=
      attach_spec (a := (d.find x).2) (b := ((d.find x).1.find y).2)
        hfy_inv.plen hfy_inv.inRange hfy_inv.grounded hXfix hYfix hne hXlt hYlt
    obtain ⟨hmapB, hlenB, hgrB, hrgB, hnumB⟩ :=
      attach_spec (a := ((d.find x).1.find y).2) (b := (d.find x).2)
        hfy_inv.plen hfy_inv.inRange hfy_inv.grounded hYfix hXfix
        (Ne.symm hne) hYlt hXlt
    have hsameA : sameRoot (((d.find x).1.find y).1.parent.set
        ((d.find x).1.find y).2 (d.find x).2) x y := by
      refine ⟨(d.find x).2, ?_, ?_⟩
      · have := hmapA x (d.find x).2 hX2
        rwa [if_neg hne] at this
      · have := hmapA y ((d.find x).1.find y).2 hY2
        rwa [if_pos rfl] at this
    have hsameB : sameRoot (((d.find x).1.find y).1.parent.set
        (d.find x).2 ((d.find x).1.find y).2) x y := by
      refine ⟨((d.find x).1.find y).2, ?_, ?_⟩
      · have := hmapB x (d.find x).2 hX2
        rwa [if_pos rfl] at this
      · have := hmapB y ((d.find x).1.find y).2 hY2
        rwa [if_neg (Ne.symm hne)] at this
    have hpresA : ∀ a b, sameRoot d.parent a b →
        sameRoot (((d.find x).1.find y).1.parent.set
          ((d.find x).1.find y).2 (d.find x).2) a b := by
      intro a b hab
      obtain ⟨r, h1, h2⟩ := hpres2 a b hab
      exact ⟨_, hmapA a r h1, hmapA b r h2⟩
    have hpresB : ∀ a b, sameRoot d.parent a b →
        sameRoot (((d.find x).1.find y).1.parent.set
          (d.find x).2 ((d.find x).1.find y).2) a b := by
      intro a b hab
      obtain ⟨r, h1, h2⟩ := hpres2 a b hab
      exact ⟨_, hmapB a r h1, hmapB b r h2⟩
    by_cases hr1 : ((d.find x).1.find y).1.rank.getD (d.find x).2 0 >
        ((d.find x).1.find y).1.rank.getD (((d.find x).1.find y).2) 0
    · have hunion : d.union x y =
          (⟨((d.find x).1.find y).1.parent.set ((d.find x).1.find y).2
            (d.find x).2, ((d.find x).1.find y).1.rank⟩, true) := by
        simp only [DSU.union]
        rw [if_pos (by simpa using hne), if_pos hr1]
      rw [hunion]
      refine ⟨⟨hlenA, hgrA, hrgA⟩, hpresA, hsameA, ?_⟩
      simpa using hnumA.trans hnum2
    · by_cases hr2 : ((d.find x).1.find y).1.rank.getD (d.find x).2 0 <
          ((d.find x).1.find y).1.rank.getD (((d.find x).1.find y).2) 0
      · have hunion : d.union x y =
            (⟨((d.find x).1.find y).1.parent.set (d.find x).2
              ((d.find x).1.find y).2, ((d.find x).1.find y).1.rank⟩, true) := by
          simp only [DSU.union]
          rw [if_pos (by simpa using hne), if_neg hr1, if_pos hr2]
        rw [hunion]
        refine ⟨⟨hlenB, hgrB, hrgB⟩, hpresB, hsameB, ?_⟩
        simpa using hnumB.trans hnum2
      · have hunion : d.union x y =
            (⟨((d.find x).1.find y).1.parent.set ((d.find x).1.find y).2
              (d.find x).2, ((d.find x).1.find y).1.rank.set (d.find x).2
                (((d.find x).1.find y).1.rank.getD ((d.find x).2) 0 + 1)⟩,
              true) := by
          simp only [DSU.union]
          rw [if_pos (by simpa using hne), if_neg hr1, if_neg hr2]
        rw [hunion]
        refine ⟨⟨hlenA, hgrA, hrgA⟩, hpresA, hsameA, ?_⟩
        simpa using hnumA.trans hnum2

/-- The DSU state left behind by the Kruskal scan. -/
def kruskalScanD : List Edge → DSU → DSU
  | [], d => d
  | e :: es, d => kruskalScanD es (d.union e.u e.v).1

/-- The Kruskal scan: the invariant is preserved, accepted edges balance
the lost roots, both endpoints of every scanned edge end in one class,
and the partition only coarsens. -/
theorem kruskalScan_spec (n : Nat) :
    ∀ (es : List Edge) (d : DSU) (mst : List Edge) (t : Int),
    DSUInv n d → (∀ e ∈ es, e.u < n ∧ e.v < n) →
    DSUInv n (kruskalScanD es d) ∧
    (kruskalScan es d mst t).1.length + numRoots (kruskalScanD es d).parent =
      mst.length + numRoots d.parent ∧
    (∀ e ∈ es, sameRoot (kruskalScanD es d).parent e.u e.v) ∧
    (∀ a b, sameRoot d.parent a b →
      sameRoot (kruskalScanD es d).parent a b) := by
  intro es
  induction es with
  | nil =>
    exact fun d mst t hInv _ =>
      ⟨hInv, rfl, fun e he => absurd he (List.not_mem_nil e), fun a b h => h⟩
  | cons e es ih =>
    intro d mst t hInv hlt
    obtain ⟨hu, hv⟩ := hlt e (List.mem_cons_self e es)
    obtain ⟨hInv', hpres, hsame, hcount⟩ := union_spec d e.u e.v hInv hu hv
    have hscanD : kruskalScanD (e :: es) d =
        kruskalScanD es (d.union e.u e.v).1 := rfl
    by_cases hb : (d.union e.u e.v).2 = true
    · obtain ⟨ih1, ih2, ih3, ih4⟩ := ih (d.union e.u e.v).1 (mst ++ [e])
        (t + e.w) hInv' (fun f hf => hlt f (List.mem_cons_of_mem e hf))
      rw [if_pos hb] at hcount
      have hscan : kruskalScan (e :: es) d mst t =
          kruskalScan es (d.union e.u e.v).1 (mst ++ [e]) (t + e.w) := by
        simp only [kruskalScan]
        rw [if_pos hb]
      rw [hscan, hscanD]
      refine ⟨ih1, ?_, ?_, ?_⟩
      · rw [ih2]
        simp only [List.length_append, List.length_singleton]
        omega
      · intro f hf
        rcases List.mem_cons.mp hf with rfl | hf
        · exact ih4 _ _ hsame
        · exact ih3 f hf
      · exact fun a b h => ih4 a b (hpres a b h)
    · obtain ⟨ih1, ih2, ih3, ih4⟩ := ih (d.union e.u e.v).1 mst t hInv'
        (fun f hf => hlt f (List.mem_cons_of_mem e hf))
      rw [if_neg hb] at hcount
      have hscan : kruskalScan (e :: es) d mst t =
          kruskalScan es (d.union e.u e.v).1 mst t := by
        simp only [kruskalScan]
        rw [if_neg hb]
      rw [hscan, hscanD]
      refine ⟨ih1, ?_, ?_, ?_⟩
      · rw [ih2]
        omega
      · intro f hf
        rcases List.mem_cons.mp hf with rfl | hf
        · exact ih4 _ _ hsame
        · exact ih3 f hf
      · exact fun a b h => ih4 a b (hpres a b h)

theorem range_getD_self (n z : Nat) : (List.range n).getD z z = z := by
  by_cases h : z < n
  · rw [List.getD_eq_getElem _ _ (by simpa using h)]
    simp
  · exact List.getD_eq_default _ _ (by simpa using Nat.le_of_not_lt h)

theorem DSUInv_init (n : Nat) : DSUInv n (DSU.init n) := by
  refine ⟨List.length_range n, ?_, ?_⟩
  · exact fun x => ⟨x, RootedAt.self x (range_getD_self n x)⟩
  · intro z hz
    exact absurd (range_getD_self n z) hz

theorem numRoots_init (n : Nat) : numRoots (DSU.init n).parent = n := by
  simp only [numRoots, DSU.init, List.length_range]
  rw [List.countP_eq_length.mpr]
  · exact List.length_range n
  · intro z hz
    exact decide_eq_true (range_getD_self n z)

/-- On a connected standard graph, `kruskal_mst` accepts exactly `n - 1`
edges. -/
theorem kruskal_count {G : Graph} (hwf : G.WF) (hstd : G.Std)
    (hconn : is_connected G = true) :
    (kruskal_mst G).1.length = G.nodes.length - 1 := by
  obtain ⟨hnodup, hne, hends, hpw⟩ := hwf
  have hend : ∀ e ∈ sortEdgesAsc G.edges, e.u < G.nodes.length ∧
      e.v < G.nodes.length := by
    intro e he
    have heE : e ∈ G.edges := (sortEdgesAsc_perm G.edges).mem_iff.mp he
    obtain ⟨h1, h2, -⟩ := hends e heE
    rw [hstd] at h1 h2
    exact ⟨List.mem_range.mp h1, List.mem_range.mp h2⟩
  obtain ⟨hinvF, hcount, hsameE, -⟩ :=
    kruskalScan_spec G.nodes.length (sortEdgesAsc G.edges)
      (DSU.init G.nodes.length) [] 0 (DSUInv_init _) hend
  obtain ⟨m, hm⟩ : ∃ m, G.nodes.length = m + 1 := by
    refine ⟨G.nodes.length - 1, ?_⟩
    have := List.length_pos.mpr hne
    omega
  obtain ⟨rest, hnodes⟩ : ∃ rest, G.nodes = 0 :: rest := by
    refine ⟨(List.range m).map Nat.succ, ?_⟩
    rw [hstd, hm]
    exact List.range_succ_eq_map m
  have hallreach := (is_connected_iff ⟨hnodup, hne, hends, hpw⟩ hnodes).mp hconn
  have hsameE' : ∀ e ∈ G.edges,
      sameRoot (kruskalScanD (sortEdgesAsc G.edges)
        (DSU.init G.nodes.length)).parent e.u e.v :=
    fun e he => hsameE e ((sortEdgesAsc_perm G.edges).mem_iff.mpr he)
  have hreach_same : ∀ a b, Reach G.edges a b →
      sameRoot (kruskalScanD (sortEdgesAsc G.edges)
        (DSU.init G.nodes.length)).parent a b := by
    intro a b h
    induction h with
    | refl =>
      obtain ⟨r, hr⟩ := hinvF.grounded a
      exact ⟨r, hr, hr⟩
    | tail h hadj ih =>
      obtain ⟨e, he, ht⟩ := hadj
      have hse := hsameE' e he
      simp only [touches, Bool.or_eq_true, Bool.and_eq_true, beq_iff_eq] at ht
      rcases ht with ⟨h1, h2⟩ | ⟨h1, h2⟩
      · exact sameRoot_trans ih (h1 ▸ h2 ▸ hse)
      · exact sameRoot_trans ih (sameRoot_symm (h1 ▸ h2 ▸ hse))
  obtain ⟨r0, hr0⟩ := hinvF.grounded 0
  have hall : ∀ z, z < G.nodes.length →
      RootedAt (kruskalScanD (sortEdgesAsc G.edges)
        (DSU.init G.nodes.length)).parent z r0 := by
    intro z hz
    have hzmem : z ∈ G.nodes := by
      rw [hstd]
      exact List.mem_range.mpr hz
    obtain ⟨r, h0r, hzr⟩ := hreach_same 0 z (hallreach z hzmem)
    exact (hr0.unique h0r) ▸ hzr
  have hr0lt : r0 < G.nodes.length :=
    rootedAt_lt hinvF.inRange hr0 (by omega)
  have hnumF : numRoots (kruskalScanD (sortEdgesAsc G.edges)
      (DSU.init G.nodes.length)).parent = 1 := by
    simp only [numRoots, hinvF.plen]
    have hcongr : ∀ z ∈ List.range G.nodes.length,
        (decide ((kruskalScanD (sortEdgesAsc G.edges)
          (DSU.init G.nodes.length)).parent.getD z z = z) = true ↔
         (z == r0) = true) := by
      intro z hz
      rw [List.mem_range] at hz
      simp only [decide_eq_true_eq, beq_iff_eq]
      constructor
      · intro hroot
        exact ((hall z hz).unique (RootedAt.self z hroot)).symm
      · rintro rfl
        exact hr0.root_fix
    rw [List.countP_congr hcongr]
    rw [show (List.range G.nodes.length).countP (fun z => z == r0) =
      (List.range G.nodes.length).count r0 from rfl]
    rw [List.count_eq_one_of_mem (List.nodup_range _)
      (List.mem_range.mpr hr0lt)]
  have hfinal : (kruskal_mst G).1.length + 1 = G.nodes.length := by
    have := hcount
    rw [hnumF, numRoots_init] at this
    simpa [kruskal_mst] using this
  omega

/-! ## Reverse-Delete analysis

The working graph stays connected throughout, its edge multiset is
always the unprocessed queue plus the accepted MST edges, and every
accepted edge disconnects the working graph when removed.  At the end
the working graph *is* the MST result, connected with every edge a
bridge. -/

theorem insertDesc_perm (e : Edge) (l : List Edge) :
    (insertDesc e l).Perm (e :: l) := by
  induction l with
  | nil => exact List.Perm.refl _
  | cons f fs ih =>
    simp only [insertDesc]
    split
    · exact ((ih.cons f).trans (List.Perm.swap e f fs))
    · exact List.Perm.refl _

theorem sortEdgesDesc_perm (l : List Edge) : (sortEdgesDesc l).Perm l := by
  induction l with
  | nil => exact List.Perm.refl _
  | cons e es ih =>
    exact (insertDesc_perm e (sortEdgesDesc es)).trans (ih.cons e)

theorem mem_removeEdge {E : List Edge} {a b : Nat} {f : Edge} :
    f ∈ removeEdge E a b ↔ f ∈ E ∧ touches f a b = false := by
  simp only [removeEdge, List.mem_filter, Bool.not_eq_true']

/-- The final working edge list of `reverse_delete_mst`. -/
def reverseLoopW (nodes : List Nat) : List Edge → List Edge → List Edge
  | work, [] => work
  | work, e :: rest =>
    let removed := removeEdge work e.u e.v
    if is_connected ⟨nodes, removed⟩ then reverseLoopW nodes removed rest
    else reverseLoopW nodes (removed ++ [⟨e.u, e.v, e.w⟩]) rest

/-- In a pairwise edge list, removing an edge's pair removes exactly it. -/
theorem removeEdge_eq_erase {E : List Edge} {e : Edge}
    (hpw : E.Pairwise (fun a b => ¬ (touches b a.u a.v = true)))
    (he : e ∈ E) : removeEdge E e.u e.v = E.erase e := by
  induction E with
  | nil => cases he
  | cons f fs ih =>
    rcases List.pairwise_cons.mp hpw with ⟨hf, hfs⟩
    rcases List.mem_cons.mp he with rfl | he
    · have hclean : removeEdge fs e.u e.v = fs := by
        refine List.filter_eq_self.mpr ?_
        intro g hg
        simp only [Bool.not_eq_true']
        rw [← Bool.not_eq_true]
        exact fun hc => hf g hg ((touches_flip e g) ▸ hc)
      rw [List.erase_cons_head]
      have hskip : removeEdge (e :: fs) e.u e.v = removeEdge fs e.u e.v := by
        simp [removeEdge, List.filter_cons, touches]
      rw [hskip, hclean]
    · have hnf : touches f e.u e.v = false := by
        rw [← Bool.not_eq_true]
        intro hc
        exact hf e he ((touches_flip e f) ▸ hc)
      have hne : f ≠ e := by
        rintro rfl
        rw [show touches f f.u f.v = true by simp [touches]] at hnf
        cases hnf
      have hkeep : removeEdge (f :: fs) e.u e.v = f :: removeEdge fs e.u e.v := by
        simp [removeEdge, List.filter_cons, hnf]
      rw [hkeep, List.erase_cons_tail]
      · exact congrArg (f :: ·) (ih hfs he)
      · simpa using hne

/-- Connectivity only grows with the edge set. -/
theorem is_connected_mono {nodes : List Nat} {E1 E2 : List Edge}
    (hwf1 : Graph.WF ⟨nodes, E1⟩) (hwf2 : Graph.WF ⟨nodes, E2⟩)
    (hsub : ∀ f ∈ E1, f ∈ E2)
    (hconn : is_connected ⟨nodes, E1⟩ = true) :
    is_connected ⟨nodes, E2⟩ = true := by
  obtain ⟨n0, rest, hnodes⟩ : ∃ n0 rest, nodes = n0 :: rest := by
    cases h : nodes with
    | nil => exact absurd h hwf1.2.1
    | cons a l => exact ⟨a, l, rfl⟩
  rw [is_connected_iff hwf1 (by simpa using hnodes)] at hconn
  rw [is_connected_iff hwf2 (by simpa using hnodes)]
  intro x hx
  refine Relation.ReflTransGen.mono ?_ (hconn x hx)
  intro a b ⟨e, he, ht⟩
  exact ⟨e, hsub e he, ht⟩

/-- Edge lists with the same members have the same connectivity verdict. -/
theorem is_connected_congr {nodes : List Nat} {E1 E2 : List Edge}
    (hwf1 : Graph.WF ⟨nodes, E1⟩) (hwf2 : Graph.WF ⟨nodes, E2⟩)
    (hiff : ∀ f, f ∈ E1 ↔ f ∈ E2) :
    is_connected ⟨nodes, E1⟩ = is_connected ⟨nodes, E2⟩ := by
  rw [Bool.eq_iff_iff]
  constructor
  · exact is_connected_mono hwf1 hwf2 (fun f hf => (hiff f).mp hf)
  · exact is_connected_mono hwf2 hwf1 (fun f hf => (hiff f).mpr hf)

theorem touches_self (e : Edge) : touches e e.u e.v = true := by
  simp [touches]

theorem pairwiseSymm :
    Symmetric (fun a b : Edge => ¬ (touches b a.u a.v = true)) := by
  intro a b h hc
  exact h ((touches_flip b a) ▸ hc)

theorem WF_of_sub {G : Graph} (hwf : G.WF) {E : List Edge}
    (hsub : ∀ f ∈ E, f ∈ G.edges)
    (hpw : E.Pairwise (fun a b => ¬ (touches b a.u a.v = true))) :
    Graph.WF ⟨G.nodes, E⟩ :=
  ⟨hwf.1, hwf.2.1, fun e he => hwf.2.2.1 e (hsub e he), hpw⟩

/-- The Reverse-Delete loop: the final working edge list is a
permutation of the returned MST, well-formed, connected, and every
returned edge disconnects it when removed. -/
theorem reverseLoop_spec (G : Graph) (hwf : G.WF) :
    ∀ (queue work mst : List Edge) (t : Int),
    (∀ f ∈ work, f ∈ G.edges) →
    work.Pairwise (fun a b => ¬ (touches b a.u a.v = true)) →
    work.Perm (queue ++ mst) →
    is_connected ⟨G.nodes, work⟩ = true →
    (∀ e ∈ mst, is_connected ⟨G.nodes, removeEdge work e.u e.v⟩ = false) →
    (reverseLoopW G.nodes work queue).Perm
      (reverseLoop G.nodes work queue mst t).1 ∧
    (∀ f ∈ reverseLoopW G.nodes work queue, f ∈ G.edges) ∧
    (reverseLoopW G.nodes work queue).Pairwise
      (fun a b => ¬ (touches b a.u a.v = true)) ∧
    is_connected ⟨G.nodes, reverseLoopW G.nodes work queue⟩ = true ∧
    (∀ e ∈ (reverseLoop G.nodes work queue mst t).1,
      is_connected ⟨G.nodes,
        removeEdge (reverseLoopW G.nodes work queue) e.u e.v⟩ = false) := by
  intro queue
  induction queue with
  | nil =>
    intro work mst t hsub hpw hperm hconn hess
    exact ⟨by simpa using hperm, hsub, hpw, hconn, hess⟩
  | cons e rest ih =>
    intro work mst t hsub hpw hperm hconn hess
    have hework : e ∈ work :=
      hperm.mem_iff.mpr (List.mem_append_left _ (List.mem_cons_self e rest))
    have heG : e ∈ G.edges := hsub e hework
    have hwfW : Graph.WF ⟨G.nodes, work⟩ := WF_of_sub hwf hsub hpw
    have herase : removeEdge work e.u e.v = work.erase e :=
      removeEdge_eq_erase hpw hework
    have hrsub : ∀ f ∈ removeEdge work e.u e.v, f ∈ work :=
      fun f hf => (mem_removeEdge.mp hf).1
    have hrsubG : ∀ f ∈ removeEdge work e.u e.v, f ∈ G.edges :=
      fun f hf => hsub f (hrsub f hf)
    have hrpw : (removeEdge work e.u e.v).Pairwise
        (fun a b => ¬ (touches b a.u a.v = true)) :=
      hpw.sublist (List.filter_sublist work)
    have hrperm : (removeEdge work e.u e.v).Perm (rest ++ mst) := by
      rw [herase]
      have h1 : (work.erase e).Perm (((e :: rest) ++ mst).erase e) :=
        hperm.erase e
      rwa [show (e :: rest) ++ mst = e :: (rest ++ mst) from rfl,
        List.erase_cons_head] at h1
    have hwfR : Graph.WF ⟨G.nodes, removeEdge work e.u e.v⟩ :=
      WF_of_sub hwf hrsubG hrpw
    have heta : (⟨e.u, e.v, e.w⟩ : Edge) = e := rfl
    by_cases hc : is_connected ⟨G.nodes, removeEdge work e.u e.v⟩ = true
    · have hstepW : reverseLoopW G.nodes work (e :: rest) =
          reverseLoopW G.nodes (removeEdge work e.u e.v) rest := by
        simp only [reverseLoopW]
        rw [if_pos hc]
      have hstepL : reverseLoop G.nodes work (e :: rest) mst t =
          reverseLoop G.nodes (removeEdge work e.u e.v) rest mst t := by
        simp only [reverseLoop]
        rw [if_pos hc]
      rw [hstepW, hstepL]
      refine ih (removeEdge work e.u e.v) mst t hrsubG hrpw hrperm hc ?_
      intro e0 he0
      have hsub0 : ∀ f ∈ removeEdge (removeEdge work e.u e.v) e0.u e0.v,
          f ∈ removeEdge work e0.u e0.v := by
        intro f hf
        obtain ⟨hf1, hf2⟩ := mem_removeEdge.mp hf
        exact mem_removeEdge.mpr ⟨hrsub f hf1, hf2⟩
      by_contra hcontra
      rw [Bool.not_eq_false] at hcontra
      have hmono := is_connected_mono
        (WF_of_sub hwf (fun f hf => hrsubG f (mem_removeEdge.mp hf).1)
          (hrpw.sublist (List.filter_sublist _)))
        (WF_of_sub hwf (fun f hf => hsub f (mem_removeEdge.mp hf).1)
          (hpw.sublist (List.filter_sublist _)))
        hsub0 hcontra
      rw [hess e0 he0] at hmono
      cases hmono
    · have hcf : is_connected ⟨G.nodes, removeEdge work e.u e.v⟩ = false :=
        Bool.not_eq_true _ ▸ (Bool.eq_false_iff.mpr (fun h => hc h))
      have hstepW : reverseLoopW G.nodes work (e :: rest) =
          reverseLoopW G.nodes (removeEdge work e.u e.v ++ [e]) rest := by
        simp only [reverseLoopW]
        rw [if_neg hc, heta]
      have hstepL : reverseLoop G.nodes work (e :: rest) mst t =
          reverseLoop G.nodes (removeEdge work e.u e.v ++ [e]) rest
            (mst ++ [e]) (t + e.w) := by
        simp only [reverseLoop]
        rw [if_neg hc, heta]
      have hsub' : ∀ f ∈ removeEdge work e.u e.v ++ [e], f ∈ G.edges := by
        intro f hf
        rcases List.mem_append.mp hf with hf | hf
        · exact hrsubG f hf
        · rw [List.mem_singleton.mp hf]
          exact heG
      have hpw' : (removeEdge work e.u e.v ++ [e]).Pairwise
          (fun a b => ¬ (touches b a.u a.v = true)) := by
        rw [List.pairwise_append]
        refine ⟨hrpw, List.pairwise_singleton _ _, ?_⟩
        intro f hf g hg
        rw [List.mem_singleton.mp hg]
        intro hcon
        exact absurd ((touches_flip e f) ▸ hcon)
          (by simpa using (mem_removeEdge.mp hf).2)
      have hperm' : (removeEdge work e.u e.v ++ [e]).Perm
          (rest ++ (mst ++ [e])) := by
        have := hrperm.append_right [e]
        rwa [List.append_assoc] at this
      have hmemiff : ∀ f, f ∈ removeEdge work e.u e.v ++ [e] ↔ f ∈ work := by
        intro f
        constructor
        · intro hf
          rcases List.mem_append.mp hf with hf | hf
          · exact hrsub f hf
          · rw [List.mem_singleton.mp hf]
            exact hework
        · intro hf
          by_cases ht : touches f e.u e.v = true
          · have hfe : f = e := by
              by_contra hne
              exact (hpw.forall pairwiseSymm hework hf
                (fun hh => hne hh.symm)) ((touches_flip f e) ▸ ht)
            rw [hfe]
            exact List.mem_append_right _ (List.mem_singleton_self e)
          · exact List.mem_append_left _
              (mem_removeEdge.mpr ⟨hf, Bool.not_eq_true _ ▸
                (Bool.eq_false_iff.mpr (fun h => ht h))⟩)
      have hwfW' : Graph.WF ⟨G.nodes, removeEdge work e.u e.v ++ [e]⟩ :=
        WF_of_sub hwf hsub' hpw'
      have hconn' : is_connected ⟨G.nodes, removeEdge work e.u e.v ++ [e]⟩ =
          true := by
        rw [is_connected_congr hwfW' hwfW hmemiff]
        exact hconn
      have hess' : ∀ e0 ∈ mst ++ [e],
          is_connected ⟨G.nodes,
            removeEdge (removeEdge work e.u e.v ++ [e]) e0.u e0.v⟩ = false := by
        intro e0 he0
        rcases List.mem_append.mp he0 with he0 | he0
        · have hiff0 : ∀ f, f ∈ removeEdge (removeEdge work e.u e.v ++ [e])
              e0.u e0.v ↔ f ∈ removeEdge work e0.u e0.v := by
            intro f
            rw [mem_removeEdge, mem_removeEdge, hmemiff f]
          rw [is_connected_congr
            (WF_of_sub hwf (fun f hf => hsub' f (mem_removeEdge.mp hf).1)
              (hpw'.sublist (List.filter_sublist _)))
            (WF_of_sub hwf (fun f hf => hsub f (mem_removeEdge.mp hf).1)
              (hpw.sublist (List.filter_sublist _)))
            hiff0]
          exact hess e0 he0
        · rw [List.mem_singleton.mp he0]
          have hdrop : removeEdge (removeEdge work e.u e.v ++ [e]) e.u e.v =
              removeEdge work e.u e.v := by
            simp only [removeEdge, List.filter_append]
            rw [List.filter_filter]
            have h1 : List.filter
                (fun f => !(touches f e.u e.v) && !(touches f e.u e.v))
                work = List.filter (fun f => !(touches f e.u e.v)) work := by
              refine List.filter_congr ?_
              intro f hf
              rw [Bool.and_self]
            rw [h1]
            have h2 : List.filter (fun f => !(touches f e.u e.v)) [e] = [] := by
              simp [touches_self]
            rw [h2, List.append_nil]
          rw [hdrop]
          exact hcf
      rw [hstepW, hstepL]
      exact ih (removeEdge work e.u e.v ++ [e]) (mst ++ [e]) (t + e.w)
        hsub' hpw' hperm' hconn' hess'

/-! ## Minimally-connected edge lists span trees (via Mathlib) -/

/-- The simple graph on `Fin n` spanned by an edge list. -/
def toSG (n : Nat) (E : List Edge) : SimpleGraph (Fin n) where
  Adj a b := a ≠ b ∧ ∃ e ∈ E, touches e a.val b.val = true
  symm := by
    intro a b h
    obtain ⟨hne, e, he, ht⟩ := h
    exact ⟨hne.symm, e, he, (touches_symm e b.val a.val).trans ht⟩
  loopless := fun a h => h.1 rfl

instance toSGAdjDecidable (n : Nat) (E : List Edge) :
    DecidableRel (toSG n E).Adj :=
  fun a b => inferInstanceAs (Decidable (_ ∧ _))

theorem toSG_adj {n : Nat} {E : List Edge} {a b : Fin n} :
    (toSG n E).Adj a b ↔ a ≠ b ∧ ∃ e ∈ E, touches e a.val b.val = true :=
  Iff.rfl

/-- `Reach` transfers to reachability in the spanned simple graph. -/
theorem reach_toSG {n : Nat} {E : List Edge}
    (hends : ∀ e ∈ E, e.u < n ∧ e.v < n ∧ e.u ≠ e.v) {a b : Nat}
    (h : Reach E a b) :
    ∀ (ha : a < n) (hb : b < n), (toSG n E).Reachable ⟨a, ha⟩ ⟨b, hb⟩ := by
  induction h with
  | refl => exact fun ha hb => SimpleGraph.Reachable.refl _
  | tail hab hadj ih =>
    intro ha hc
    obtain ⟨e, he, ht⟩ := hadj
    obtain ⟨h1, h2, h3⟩ := hends e he
    simp only [touches, Bool.or_eq_true, Bool.and_eq_true, beq_iff_eq] at ht
    rcases ht with ⟨hh1, hh2⟩ | ⟨hh1, hh2⟩
    · have hb : _ < n := hh1 ▸ h1
      refine (ih ha hb).trans (SimpleGraph.Adj.reachable ?_)
      refine ⟨?_, e, he, by simp [touches, hh1, hh2]⟩
      intro hcon
      apply h3
      rw [hh1, hh2]
      exact congrArg Fin.val hcon
    · have hb : _ < n := hh2 ▸ h2
      refine (ih ha hb).trans (SimpleGraph.Adj.reachable ?_)
      refine ⟨?_, e, he, by simp [touches, hh1, hh2]⟩
      intro hcon
      apply h3
      rw [hh1, hh2]
      exact (congrArg Fin.val hcon).symm

/-- Same unordered pair, same `touches` verdict. -/
theorem touches_congr {e : Edge} {a b : Nat} (h : touches e a b = true)
    (f : Edge) : touches f a b = touches f e.u e.v := by
  simp only [touches, Bool.or_eq_true, Bool.and_eq_true, beq_iff_eq] at h
  rcases h with ⟨h1, h2⟩ | ⟨h1, h2⟩
  · rw [← h1, ← h2]
  · rw [← h1, ← h2]
    exact touches_symm f e.v e.u

/-- Rerouting around a removed edge: if its endpoints stay reachable
without it, removal preserves all reachability. -/
theorem reach_patch {W : List Edge} {u v : Nat}
    (huv : Reach (removeEdge W u v) u v) {a b : Nat}
    (h : Reach W a b) : Reach (removeEdge W u v) a b := by
  induction h with
  | refl => exact Relation.ReflTransGen.refl
  | tail hab hadj ih =>
    rename_i x y
    obtain ⟨f, hf, ht⟩ := hadj
    cases hfp : touches f u v with
    | false =>
      exact Relation.ReflTransGen.tail ih ⟨f, mem_removeEdge.mpr ⟨hf, hfp⟩, ht⟩
    | true =>
      refine reach_trans ih ?_
      simp only [touches, Bool.or_eq_true, Bool.and_eq_true, beq_iff_eq]
        at ht hfp
      rcases ht with ⟨ht1, ht2⟩ | ⟨ht1, ht2⟩ <;>
        rcases hfp with ⟨hp1, hp2⟩ | ⟨hp1, hp2⟩
      · rw [← ht1, ← ht2, hp1, hp2]; exact huv
      · rw [← ht1, ← ht2, hp1, hp2]; exact reach_symm huv
      · rw [← ht2, ← ht1, hp1, hp2]; exact reach_symm huv
      · rw [← ht2, ← ht1, hp1, hp2]; exact huv

/-- If removing the pair `(u,v)` disconnects a connected working graph,
its endpoints are not reachable in the pruned edge list. -/
theorem not_reach_removed {G : Graph} (hwf : G.WF) {W : List Edge}
    (hsub : ∀ f ∈ W, f ∈ G.edges)
    (hpw : W.Pairwise (fun a b => ¬ (touches b a.u a.v = true)))
    {u v : Nat}
    (hconn : is_connected ⟨G.nodes, W⟩ = true)
    (hdis : is_connected ⟨G.nodes, removeEdge W u v⟩ = false) :
    ¬ Reach (removeEdge W u v) u v := by
  intro hreach
  cases hn : G.nodes with
  | nil => exact hwf.2.1 hn
  | cons n0 rest =>
    have hwfW : Graph.WF ⟨G.nodes, W⟩ := WF_of_sub hwf hsub hpw
    have hwfR : Graph.WF ⟨G.nodes, removeEdge W u v⟩ :=
      WF_of_sub hwf (fun f hf => hsub f (mem_removeEdge.mp hf).1)
        (hpw.sublist (List.filter_sublist _))
    have h1 := (is_connected_iff hwfW hn).mp hconn
    have h2 : is_connected ⟨G.nodes, removeEdge W u v⟩ = true := by
      rw [is_connected_iff hwfR hn]
      intro x hx
      exact reach_patch hreach (h1 x hx)
    rw [h2] at hdis
    exact Bool.true_eq_false ▸ hdis

/-- Reachability in the spanned graph minus one pair descends to `Reach`
over the pruned edge list. -/
theorem sdiff_reach_toNat {n : Nat} {W : List Edge} {a b s t : Fin n}
    (h : ((toSG n W) \ SimpleGraph.fromEdgeSet {s(a, b)}).Reachable s t) :
    Reach (removeEdge W a.val b.val) s.val t.val := by
  rw [SimpleGraph.reachable_iff_reflTransGen] at h
  induction h with
  | refl => exact Relation.ReflTransGen.refl
  | tail hab hadj ih =>
    rw [SimpleGraph.sdiff_adj] at hadj
    obtain ⟨⟨hne, e, he, ht⟩, hnot⟩ := hadj
    rename_i x y
    refine Relation.ReflTransGen.tail ih ⟨e, mem_removeEdge.mpr ⟨he, ?_⟩, ht⟩
    cases hcon : touches e a.val b.val with
    | false => rfl
    | true =>
      exfalso
      apply hnot
      rw [SimpleGraph.fromEdgeSet_adj, Set.mem_singleton_iff]
      refine ⟨?_, hne⟩
      simp only [touches, Bool.or_eq_true, Bool.and_eq_true, beq_iff_eq]
        at ht hcon
      rw [Sym2.eq_iff]
      rcases ht with ⟨h1, h2⟩ | ⟨h1, h2⟩ <;>
        rcases hcon with ⟨h3, h4⟩ | ⟨h3, h4⟩
      · exact Or.inl ⟨Fin.ext (h1 ▸ h3), Fin.ext (h2 ▸ h4)⟩
      · exact Or.inr ⟨Fin.ext (h1 ▸ h3), Fin.ext (h2 ▸ h4)⟩
      · exact Or.inr ⟨Fin.ext (h2 ▸ h4), Fin.ext (h1 ▸ h3)⟩
      · exact Or.inl ⟨Fin.ext (h2 ▸ h4), Fin.ext (h1 ▸ h3)⟩

/-- Packs an edge of the list into an unordered pair of `Fin n`. -/
def edgeSym2 (n : Nat) (E : List Edge)
    (hends : ∀ e ∈ E, e.u < n ∧ e.v < n ∧ e.u ≠ e.v) :
    {e // e ∈ E} → Sym2 (Fin n) :=
  fun x => s((⟨x.1.u, (hends x.1 x.2).1⟩ : Fin n),
    (⟨x.1.v, (hends x.1 x.2).2.1⟩ : Fin n))

/-- A pairwise-nonparallel edge list spans a simple graph with exactly
as many edges. -/
theorem toSG_edgeFinset_card {n : Nat} {E : List Edge}
    (hends : ∀ e ∈ E, e.u < n ∧ e.v < n ∧ e.u ≠ e.v)
    (hpw : E.Pairwise (fun a b => ¬ (touches b a.u a.v = true))) :
    (toSG n E).edgeFinset.card = E.length := by
  have hpwa : E.attach.Pairwise
      (fun x y => ¬ (touches y.1 x.1.u x.1.v = true)) := by
    have h1 : (E.attach.map Subtype.val).Pairwise
        (fun a b => ¬ (touches b a.u a.v = true)) := by
      rw [List.attach_map_subtype_val]; exact hpw
    exact List.pairwise_map.mp h1
  have hnodup : (E.attach.map (edgeSym2 n E hends)).Nodup := by
    refine List.Pairwise.map (edgeSym2 n E hends) ?_ hpwa
    intro x y hxy hceq
    apply hxy
    simp only [edgeSym2] at hceq
    rcases Sym2.eq_iff.mp hceq with ⟨h1, h2⟩ | ⟨h1, h2⟩
    · have hu : x.1.u = y.1.u := congrArg Fin.val h1
      have hv : x.1.v = y.1.v := congrArg Fin.val h2
      simp [touches, hu, hv]
    · have hu : x.1.u = y.1.v := congrArg Fin.val h1
      have hv : x.1.v = y.1.u := congrArg Fin.val h2
      simp [touches, hu, hv]
  have hset : (E.attach.map (edgeSym2 n E hends)).toFinset =
      (toSG n E).edgeFinset := by
    ext z
    induction z using Sym2.ind with
    | _ a b =>
      rw [List.mem_toFinset, SimpleGraph.mem_edgeFinset,
        SimpleGraph.mem_edgeSet]
      constructor
      · intro hz
        rw [List.mem_map] at hz
        obtain ⟨x, hx, hfx⟩ := hz
        simp only [edgeSym2] at hfx
        obtain ⟨hu, hv, hne⟩ := hends x.1 x.2
        rcases Sym2.eq_iff.mp hfx with ⟨h1, h2⟩ | ⟨h1, h2⟩
        · refine ⟨?_, x.1, x.2, ?_⟩
          · intro hc
            exact hne (congrArg Fin.val (h1.trans (hc.trans h2.symm)))
          · have ha : a.val = x.1.u := (congrArg Fin.val h1).symm
            have hb : b.val = x.1.v := (congrArg Fin.val h2).symm
            simp [touches, ha, hb]
        · refine ⟨?_, x.1, x.2, ?_⟩
          · intro hc
            exact hne (congrArg Fin.val (h2.trans (hc.trans h1.symm))).symm
          · have ha : a.val = x.1.v := (congrArg Fin.val h2).symm
            have hb : b.val = x.1.u := (congrArg Fin.val h1).symm
            simp [touches, ha, hb]
      · intro hz
        obtain ⟨hne, e, he, ht⟩ := hz
        rw [List.mem_map]
        refine ⟨⟨e, he⟩, List.mem_attach _ _, ?_⟩
        simp only [edgeSym2]
        simp only [touches, Bool.or_eq_true, Bool.and_eq_true, beq_iff_eq]
          at ht
        rw [Sym2.eq_iff]
        rcases ht with ⟨h1, h2⟩ | ⟨h1, h2⟩
        · exact Or.inl ⟨Fin.ext h1, Fin.ext h2⟩
        · exact Or.inr ⟨Fin.ext h1, Fin.ext h2⟩
  have hcard : (toSG n E).edgeFinset.card =
      (E.attach.map (edgeSym2 n E hends)).length := by
    rw [← hset, List.toFinset_card_of_nodup hnodup]
  rw [hcard, List.length_map, List.length_attach]

/-- A connected, pairwise-nonparallel edge list all of whose edges are
essential spans a tree, hence has exactly `n - 1` edges. -/
theorem minimally_connected_length {G : Graph} (hwf : G.WF) (hstd : G.Std)
    {W : List Edge}
    (hsub : ∀ f ∈ W, f ∈ G.edges)
    (hpw : W.Pairwise (fun a b => ¬ (touches b a.u a.v = true)))
    (hconn : is_connected ⟨G.nodes, W⟩ = true)
    (hess : ∀ e ∈ W, is_connected ⟨G.nodes, removeEdge W e.u e.v⟩ = false) :
    W.length = G.nodes.length - 1 := by
  have hmem : ∀ x : Nat, x ∈ G.nodes ↔ x < G.nodes.length := by
    intro x
    constructor
    · intro hx; rw [hstd] at hx; exact List.mem_range.mp hx
    · intro hx; rw [hstd]; exact List.mem_range.mpr hx
  have hends : ∀ e ∈ W, e.u < G.nodes.length ∧ e.v < G.nodes.length ∧
      e.u ≠ e.v := by
    intro e he
    obtain ⟨h1, h2, h3⟩ := hwf.2.2.1 e (hsub e he)
    exact ⟨(hmem _).mp h1, (hmem _).mp h2, h3⟩
  cases hn : G.nodes with
  | nil => exact absurd hn hwf.2.1
  | cons n0 rest =>
    have hn0 : n0 < G.nodes.length :=
      (hmem n0).mp (hn ▸ List.mem_cons_self n0 rest)
    have hreachAll := (is_connected_iff (WF_of_sub hwf hsub hpw) hn).mp hconn
    have hconnSG : (toSG G.nodes.length W).Connected := by
      rw [SimpleGraph.connected_iff]
      refine ⟨?_, ⟨⟨n0, hn0⟩⟩⟩
      intro a b
      have ha : Reach W n0 a.val := hreachAll a.val ((hmem a.val).mpr a.isLt)
      have hb : Reach W n0 b.val := hreachAll b.val ((hmem b.val).mpr b.isLt)
      exact reach_toSG hends (reach_trans (reach_symm ha) hb) a.isLt b.isLt
    have hacyc : (toSG G.nodes.length W).IsAcyclic := by
      rw [SimpleGraph.isAcyclic_iff_forall_adj_isBridge]
      intro a b hadj
      obtain ⟨hne, e, he, ht⟩ := hadj
      rw [SimpleGraph.isBridge_iff]
      refine ⟨⟨hne, e, he, ht⟩, ?_⟩
      intro hreach
      have hR : Reach (removeEdge W a.val b.val) a.val b.val :=
        sdiff_reach_toNat hreach
      have hfilter : removeEdge W a.val b.val = removeEdge W e.u e.v := by
        simp only [removeEdge]
        exact List.filter_congr (fun f hf => by rw [touches_congr ht f])
      have hnr := not_reach_removed hwf hsub hpw hconn (hess e he)
      rw [← hfilter] at hnr
      simp only [touches, Bool.or_eq_true, Bool.and_eq_true, beq_iff_eq]
        at ht
      rcases ht with ⟨h1, h2⟩ | ⟨h1, h2⟩
      · rw [h1, h2] at hnr; exact hnr hR
      · rw [h1, h2] at hnr; exact hnr (reach_symm hR)
    have htree : (toSG G.nodes.length W).IsTree := ⟨hconnSG, hacyc⟩
    have hcount := toSG_edgeFinset_card hends hpw
    have hfin := htree.card_edgeFinset
    rw [hcount, Fintype.card_fin] at hfin
    rw [hn] at hfin
    omega

/-- On a connected standard graph, Reverse-Delete keeps exactly
`n - 1` edges. -/
theorem reverse_count {G : Graph} (hwf : G.WF) (hstd : G.Std)
    (hconn : is_connected G = true) :
    (reverse_delete_mst G).1.length = G.nodes.length - 1 := by
  have hperm : G.edges.Perm (sortEdgesDesc G.edges ++ []) := by
    rw [List.append_nil]
    exact (sortEdgesDesc_perm G.edges).symm
  obtain ⟨hp, hsubW, hpwW, hconnW, hessW⟩ :=
    reverseLoop_spec G hwf (sortEdgesDesc G.edges) G.edges [] 0
      (fun f hf => hf) hwf.2.2.2 hperm hconn
      (fun e he => absurd he (List.not_mem_nil e))
  have hess' : ∀ e ∈ reverseLoopW G.nodes G.edges (sortEdgesDesc G.edges),
      is_connected ⟨G.nodes, removeEdge
        (reverseLoopW G.nodes G.edges (sortEdgesDesc G.edges)) e.u e.v⟩ =
        false :=
    fun e he => hessW e (hp.mem_iff.mp he)
  have hlen := minimally_connected_length hwf hstd hsubW hpwW hconnW hess'
  rw [reverse_delete_mst, ← hp.length_eq]
  exact hlen

/-! ## Prim returns `n - 1` edges on connected graphs -/

theorem normEdge_eq_iff {a b c d : Nat} :
    normEdge a b = normEdge c d ↔ (a = c ∧ b = d) ∨ (a = d ∧ b = c) := by
  simp only [normEdge]
  split_ifs <;> simp only [Prod.mk.injEq] <;> omega

theorem normEdge_cases (a b : Nat) :
    normEdge a b = (a, b) ∨ normEdge a b = (b, a) := by
  simp only [normEdge]
  by_cases h : a ≤ b
  · rw [if_pos h]; exact Or.inl rfl
  · rw [if_neg h]; exact Or.inr rfl

theorem mem_heapPush {h : List HeapEntry} {e q : HeapEntry} :
    q ∈ heapPush h e ↔ q ∈ h ∨ q = e := by
  induction h with
  | nil => simp [heapPush]
  | cons f fs ih =>
    simp only [heapPush]
    by_cases hc : entryLe f e = true
    · rw [if_pos hc]
      simp only [List.mem_cons, ih]
      tauto
    · rw [if_neg hc]
      simp only [List.mem_cons]
      tauto

/-- Membership in the adjacency list of `x`. -/
theorem mem_adj {G : Graph} {x u : Nat} {w : Int} :
    (u, w) ∈ G.adj x ↔ ∃ e ∈ G.edges, e.w = w ∧
      ((e.u = x ∧ e.v = u) ∨ (e.v = x ∧ e.u = u)) := by
  simp only [Graph.adj, List.mem_filterMap]
  constructor
  · rintro ⟨e, he, hsome⟩
    by_cases h1 : e.u = x
    · rw [if_pos h1] at hsome
      injection hsome with h2
      injection h2 with h3 h4
      exact ⟨e, he, h4, Or.inl ⟨h1, h3⟩⟩
    · rw [if_neg h1] at hsome
      by_cases h2 : e.v = x
      · rw [if_pos h2] at hsome
        injection hsome with h3
        injection h3 with h4 h5
        exact ⟨e, he, h5, Or.inr ⟨h2, h4⟩⟩
      · rw [if_neg h2] at hsome
        exact absurd hsome (by simp)
  · rintro ⟨e, he, hw, hc⟩
    refine ⟨e, he, ?_⟩
    rcases hc with ⟨h1, h2⟩ | ⟨h1, h2⟩
    · rw [if_pos h1, h2, hw]
    · by_cases h3 : e.u = x
      · rw [if_pos h3, h1, ← h3, h2, hw]
      · rw [if_neg h3, if_pos h1, h2, hw]

theorem adj_mem_nodes {G : Graph} (hwf : G.WF) {x u : Nat} {w : Int}
    (h : (u, w) ∈ G.adj x) : u ∈ G.nodes := by
  obtain ⟨e, he, hw, hc⟩ := mem_adj.mp h
  obtain ⟨h1, h2, -⟩ := hwf.2.2.1 e he
  rcases hc with ⟨-, h3⟩ | ⟨-, h3⟩
  · exact h3 ▸ h2
  · exact h3 ▸ h1

/-- `initPush` is `pushFrom` with an empty visited set. -/
theorem initPush_eq_pushFrom (s : Nat) :
    ∀ (adj : List (Nat × Int)) (heap : List HeapEntry)
      (seen : List (Nat × Nat)),
    initPush s adj heap seen = pushFrom s [] adj heap seen := by
  intro adj
  induction adj with
  | nil => intro heap seen; rfl
  | cons p tl ih =>
    intro heap seen
    obtain ⟨u, w⟩ := p
    simp only [initPush, pushFrom]
    rw [if_neg (List.not_mem_nil u)]
    by_cases hc : normEdge s u ∈ seen
    · rw [if_pos hc, if_pos hc, ih]
    · rw [if_neg hc, if_neg hc, ih]

theorem pushFrom_mem_mono {v : Nat} {vis : List Nat} :
    ∀ (adj : List (Nat × Int)) (heap : List HeapEntry)
      (seen : List (Nat × Nat)) {q : HeapEntry},
    q ∈ heap → q ∈ (pushFrom v vis adj heap seen).1 := by
  intro adj
  induction adj with
  | nil => intro heap seen q hq; exact hq
  | cons p tl ih =>
    intro heap seen q hq
    obtain ⟨u, w⟩ := p
    simp only [pushFrom]
    by_cases h1 : u ∈ vis
    · rw [if_pos h1]; exact ih _ _ hq
    · rw [if_neg h1]
      by_cases h2 : normEdge v u ∈ seen
      · rw [if_pos h2]; exact ih _ _ hq
      · rw [if_neg h2]; exact ih _ _ (mem_heapPush.mpr (Or.inl hq))

theorem pushFrom_entries {v : Nat} {vis : List Nat} :
    ∀ (adj : List (Nat × Int)) (heap : List HeapEntry)
      (seen : List (Nat × Nat)) {q : HeapEntry},
    q ∈ (pushFrom v vis adj heap seen).1 →
    q ∈ heap ∨ (q.2.1 = v ∧ ∃ w', (q.2.2, w') ∈ adj) := by
  intro adj
  induction adj with
  | nil => intro heap seen q hq; exact Or.inl hq
  | cons p tl ih =>
    intro heap seen q hq
    obtain ⟨u, w⟩ := p
    simp only [pushFrom] at hq
    by_cases h1 : u ∈ vis
    · rw [if_pos h1] at hq
      rcases ih _ _ hq with h | ⟨h2, w', h3⟩
      · exact Or.inl h
      · exact Or.inr ⟨h2, w', List.mem_cons_of_mem _ h3⟩
    · rw [if_neg h1] at hq
      by_cases h2 : normEdge v u ∈ seen
      · rw [if_pos h2] at hq
        rcases ih _ _ hq with h | ⟨h3, w', h4⟩
        · exact Or.inl h
        · exact Or.inr ⟨h3, w', List.mem_cons_of_mem _ h4⟩
      · rw [if_neg h2] at hq
        rcases ih _ _ hq with h | ⟨h3, w', h4⟩
        · rcases mem_heapPush.mp h with h' | h'
          · exact Or.inl h'
          · refine Or.inr ⟨?_, w, ?_⟩
            · rw [h']
            · rw [h']
              show (u, w) ∈ (u, w) :: tl
              exact List.mem_cons_self _ _
        · exact Or.inr ⟨h3, w', List.mem_cons_of_mem _ h4⟩

theorem pushFrom_seen {v : Nat} {vis : List Nat} :
    ∀ (adj : List (Nat × Int)) (heap : List HeapEntry)
      (seen : List (Nat × Nat)) {p : Nat × Nat},
    p ∈ (pushFrom v vis adj heap seen).2 →
    p ∈ seen ∨ ∃ u, p = normEdge v u := by
  intro adj
  induction adj with
  | nil => intro heap seen p hp; exact Or.inl hp
  | cons pr tl ih =>
    intro heap seen p hp
    obtain ⟨u, w⟩ := pr
    simp only [pushFrom] at hp
    by_cases h1 : u ∈ vis
    · rw [if_pos h1] at hp; exact ih _ _ hp
    · rw [if_neg h1] at hp
      by_cases h2 : normEdge v u ∈ seen
      · rw [if_pos h2] at hp; exact ih _ _ hp
      · rw [if_neg h2] at hp
        rcases ih _ _ hp with h | h
        · rcases List.mem_append.mp h with h' | h'
          · exact Or.inl h'
          · rw [List.mem_singleton] at h'
            exact Or.inr ⟨u, h'⟩
        · exact Or.inr h

/-- Every unvisited neighbour of `v` ends up covered by a queue entry
with its normalized pair. -/
theorem pushFrom_cover {v : Nat} {vis : List Nat} :
    ∀ (adj : List (Nat × Int)) (heap : List HeapEntry)
      (seen : List (Nat × Nat)),
    (∀ a b, (a, b) ∈ adj → a ∉ vis → normEdge v a ∈ seen →
      ∃ q ∈ heap, normEdge q.2.1 q.2.2 = normEdge v a) →
    ∀ u w', (u, w') ∈ adj → u ∉ vis →
      ∃ q ∈ (pushFrom v vis adj heap seen).1,
        normEdge q.2.1 q.2.2 = normEdge v u := by
  intro adj
  induction adj with
  | nil =>
    intro heap seen hpre u w' hmem
    exact absurd hmem (List.not_mem_nil _)
  | cons p tl ih =>
    intro heap seen hpre u w' hmem hu
    obtain ⟨u0, w0⟩ := p
    simp only [pushFrom]
    by_cases h1 : u0 ∈ vis
    · rw [if_pos h1]
      rcases List.mem_cons.mp hmem with h | h
      · injection h with ha hb
        exact absurd (ha.symm ▸ h1) hu
      · exact ih _ _ (fun a b hab => hpre a b (List.mem_cons_of_mem _ hab))
          u w' h hu
    · rw [if_neg h1]
      by_cases h2 : normEdge v u0 ∈ seen
      · rw [if_pos h2]
        rcases List.mem_cons.mp hmem with h | h
        · injection h with ha hb
          obtain ⟨q, hq, hpair⟩ := hpre u w' hmem hu (ha.symm ▸ h2)
          exact ⟨q, pushFrom_mem_mono tl _ _ hq, hpair⟩
        · exact ih _ _ (fun a b hab => hpre a b (List.mem_cons_of_mem _ hab))
            u w' h hu
      · rw [if_neg h2]
        rcases List.mem_cons.mp hmem with h | h
        · injection h with ha hb
          refine ⟨(w0, v, u0),
            pushFrom_mem_mono tl _ _ (mem_heapPush.mpr (Or.inr rfl)), ?_⟩
          show normEdge v u0 = normEdge v u
          rw [ha]
        · refine ih _ _ ?_ u w' h hu
          intro a b hab hav hseen
          rcases List.mem_append.mp hseen with hs | hs
          · obtain ⟨q, hq, hp⟩ := hpre a b (List.mem_cons_of_mem _ hab) hav hs
            exact ⟨q, mem_heapPush.mpr (Or.inl hq), hp⟩
          · rw [List.mem_singleton] at hs
            refine ⟨(w0, v, u0), mem_heapPush.mpr (Or.inr rfl), ?_⟩
            show normEdge v u0 = normEdge v a
            exact hs.symm

/-- Invariant-carrying induction for `primLoop`: on a connected graph
the loop ends with all nodes visited, so the MST has `n - 1` edges. -/
theorem primLoop_count_aux {G : Graph} (hwf : G.WF)
    (hreach : ∀ x ∈ G.nodes, Reach G.edges 0 x) :
    ∀ (k : Nat) (heap : List HeapEntry) (visited : List Nat)
      (seen : List (Nat × Nat)) (mst : List Edge) (total : Int),
    G.nodes.length - visited.length ≤ k →
    0 ∈ visited →
    visited.Nodup →
    (∀ x ∈ visited, x ∈ G.nodes) →
    visited.length = mst.length + 1 →
    (∀ q ∈ heap, q.2.1 ∈ visited ∧ q.2.2 ∈ G.nodes) →
    (∀ p ∈ seen, p.1 ∈ visited ∨ p.2 ∈ visited) →
    (∀ x y, adjRel G.edges x y → x ∈ visited → y ∉ visited →
      ∃ q ∈ heap, normEdge q.2.1 q.2.2 = normEdge x y) →
    (primLoop G heap visited seen mst total).1.length =
      G.nodes.length - 1 := by
  intro k
  induction k with
  | zero =>
    intro heap visited seen mst total hk h0 hnd hsub hlen hq hs hcov
    have hle : visited.length ≤ G.nodes.length :=
      (hnd.subperm (fun _ h => hsub _ h)).length_le
    cases heap with
    | nil =>
      simp only [primLoop]
      omega
    | cons q rest =>
      obtain ⟨w, u, v⟩ := q
      simp only [primLoop]
      rw [dif_neg (by omega : ¬ (visited.length < G.nodes.length))]
      show mst.length = G.nodes.length - 1
      omega
  | succ k ihk =>
    intro heap visited seen mst total hk h0 hnd hsub hlen hq hs hcov
    have hle : visited.length ≤ G.nodes.length :=
      (hnd.subperm (fun _ h => hsub _ h)).length_le
    revert hq hcov
    induction heap with
    | nil =>
      intro hq hcov
      have hclosed : ∀ x, Reach G.edges 0 x → x ∈ visited := by
        intro x hx
        induction hx with
        | refl => exact h0
        | tail hab hadj ih =>
          rename_i p q'
          by_cases hq' : q' ∈ visited
          · exact hq'
          · obtain ⟨qq, hqq, -⟩ := hcov _ _ hadj ih hq'
            exact absurd hqq (List.not_mem_nil qq)
      have hge : G.nodes.length ≤ visited.length := by
        have hnodes_sub : G.nodes ⊆ visited :=
          fun x hx => hclosed x (hreach x hx)
        exact (hwf.1.subperm hnodes_sub).length_le
      simp only [primLoop]
      omega
    | cons q rest ihh =>
      intro hq hcov
      obtain ⟨w, u, v⟩ := q
      by_cases hg : visited.length < G.nodes.length
      · by_cases hv : v ∈ visited
        · -- lazy deletion: stale entry, both endpoints visited
          have hstep : primLoop G ((w, u, v) :: rest) visited seen mst
              total = primLoop G rest visited seen mst total := by
            conv_lhs => rw [primLoop]
            rw [dif_pos hg, if_pos hv]
          rw [hstep]
          refine ihh ?_ ?_
          · exact fun q' hq' => hq q' (List.mem_cons_of_mem _ hq')
          · intro x y hadj hx hy
            obtain ⟨qq, hqq, hp⟩ := hcov x y hadj hx hy
            rcases List.mem_cons.mp hqq with h | h
            · exfalso
              rw [h] at hp
              have hp' : normEdge u v = normEdge x y := hp
              rcases normEdge_eq_iff.mp hp' with ⟨h1, h2⟩ | ⟨h1, h2⟩
              · exact hy (h2 ▸ hv)
              · have hu : u ∈ visited := (hq _ (List.mem_cons_self _ _)).1
                exact hy (h1 ▸ hu)
            · exact ⟨qq, h, hp⟩
        · -- accept the popped edge, visit v, push its frontier
          have hstep : primLoop G ((w, u, v) :: rest) visited seen mst
              total = primLoop G
                (pushFrom v (visited ++ [v]) (G.adj v) rest seen).1
                (visited ++ [v])
                (pushFrom v (visited ++ [v]) (G.adj v) rest seen).2
                (mst ++ [⟨u, v, w⟩]) (total + w) := by
            conv_lhs => rw [primLoop]
            rw [dif_pos hg, if_neg hv]
          rw [hstep]
          have hvnode : v ∈ G.nodes := (hq _ (List.mem_cons_self _ _)).2
          refine ihk (pushFrom v (visited ++ [v]) (G.adj v) rest seen).1
            (visited ++ [v])
            (pushFrom v (visited ++ [v]) (G.adj v) rest seen).2
            (mst ++ [⟨u, v, w⟩]) (total + w) ?_ ?_ ?_ ?_ ?_ ?_ ?_ ?_
          · simp only [List.length_append, List.length_singleton]
            omega
          · exact List.mem_append_left _ h0
          · rw [List.nodup_append]
            exact ⟨hnd, List.nodup_singleton v,
              fun a ha hav => hv ((List.mem_singleton.mp hav) ▸ ha)⟩
          · intro x hx
            rcases List.mem_append.mp hx with h | h
            · exact hsub x h
            · rw [List.mem_singleton] at h
              exact h ▸ hvnode
          · simp only [List.length_append, List.length_singleton]
            omega
          · intro q' hq'
            rcases pushFrom_entries _ _ _ hq' with h | ⟨h1, w', h2⟩
            · obtain ⟨ha, hb⟩ := hq q' (List.mem_cons_of_mem _ h)
              exact ⟨List.mem_append_left _ ha, hb⟩
            · refine ⟨?_, adj_mem_nodes hwf h2⟩
              rw [h1]
              exact List.mem_append_right _ (List.mem_singleton.mpr rfl)
          · intro p hp
            rcases pushFrom_seen _ _ _ hp with h | ⟨u', h⟩
            · rcases hs p h with h' | h'
              · exact Or.inl (List.mem_append_left _ h')
              · exact Or.inr (List.mem_append_left _ h')
            · rcases normEdge_cases v u' with hc | hc
              · rw [h, hc]
                exact Or.inl
                  (List.mem_append_right _ (List.mem_singleton.mpr rfl))
              · rw [h, hc]
                exact Or.inr
                  (List.mem_append_right _ (List.mem_singleton.mpr rfl))
          · intro x y hadj hx hy
            have hynv : y ∉ visited :=
              fun h => hy (List.mem_append_left _ h)
            rcases List.mem_append.mp hx with hxo | hxv
            · obtain ⟨qq, hqq, hp⟩ := hcov x y hadj hxo hynv
              rcases List.mem_cons.mp hqq with h | h
              · exfalso
                rw [h] at hp
                have hp' : normEdge u v = normEdge x y := hp
                rcases normEdge_eq_iff.mp hp' with ⟨h1, h2⟩ | ⟨h1, h2⟩
                · exact hy (h2 ▸ List.mem_append_right _
                    (List.mem_singleton.mpr rfl))
                · have hu : u ∈ visited := (hq _ (List.mem_cons_self _ _)).1
                  exact hy (List.mem_append_left _ (h1 ▸ hu))
              · exact ⟨qq, pushFrom_mem_mono _ _ _ h, hp⟩
            · rw [List.mem_singleton] at hxv
              obtain ⟨e, he, ht⟩ := hadj
              simp only [touches, Bool.or_eq_true, Bool.and_eq_true,
                beq_iff_eq] at ht
              have hmemadj : (y, e.w) ∈ G.adj v := by
                rcases ht with ⟨h1, h2⟩ | ⟨h1, h2⟩
                · exact mem_adj.mpr ⟨e, he, rfl, Or.inl ⟨hxv ▸ h1, h2⟩⟩
                · exact mem_adj.mpr ⟨e, he, rfl, Or.inr ⟨hxv ▸ h2, h1⟩⟩
              have hpre : ∀ a b, (a, b) ∈ G.adj v → a ∉ visited ++ [v] →
                  normEdge v a ∈ seen →
                  ∃ q' ∈ rest, normEdge q'.2.1 q'.2.2 = normEdge v a := by
                intro a b hab hav hseen
                exfalso
                rcases hs _ hseen with h' | h'
                · rcases normEdge_cases v a with hc | hc
                  · rw [hc] at h'
                    exact hv h'
                  · rw [hc] at h'
                    exact hav (List.mem_append_left _ h')
                · rcases normEdge_cases v a with hc | hc
                  · rw [hc] at h'
                    exact hav (List.mem_append_left _ h')
                  · rw [hc] at h'
                    exact hv h'
              obtain ⟨qq, hqq, hp⟩ :=
                pushFrom_cover _ _ _ hpre y e.w hmemadj hy
              refine ⟨qq, hqq, ?_⟩
              rw [hp, hxv]
      · have hstep : primLoop G ((w, u, v) :: rest) visited seen mst
            total = (mst, total) := by
          conv_lhs => rw [primLoop]
          rw [dif_neg hg]
        rw [hstep]
        show mst.length = G.nodes.length - 1
        omega

/-- On a connected standard graph, Prim returns exactly `n - 1`
edges. -/
theorem prim_count {G : Graph} (hwf : G.WF) (hstd : G.Std)
    (hconn : is_connected G = true) :
    (prim_mst G).1.length = G.nodes.length - 1 := by
  cases hn : G.nodes with
  | nil => exact absurd hn hwf.2.1
  | cons n0 rest =>
    have hn0 : n0 = 0 := by
      have h : G.nodes = List.range G.nodes.length := hstd
      rw [hn, List.length_cons, List.range_succ_eq_map] at h
      injection h with h1
    have hreach : ∀ x ∈ G.nodes, Reach G.edges 0 x := by
      have h := (is_connected_iff hwf hn).mp hconn
      rw [hn0] at h
      exact h
    have h0node : 0 ∈ G.nodes := by
      rw [hn, ← hn0]
      exact List.mem_cons_self n0 rest
    rw [← hn]
    show (primLoop G (initPush 0 (G.adj 0) [] []).1 [0]
      (initPush 0 (G.adj 0) [] []).2 [] 0).1.length =
      G.nodes.length - 1
    rw [initPush_eq_pushFrom]
    refine primLoop_count_aux hwf hreach G.nodes.length _ [0] _ [] 0
      ?_ ?_ ?_ ?_ ?_ ?_ ?_ ?_
    · simp only [List.length_singleton]
      omega
    · exact List.mem_singleton.mpr rfl
    · exact List.nodup_singleton 0
    · intro x hx
      rw [List.mem_singleton] at hx
      exact hx ▸ h0node
    · rfl
    · intro q hq'
      rcases pushFrom_entries _ _ _ hq' with h | ⟨h1, w', h2⟩
      · exact absurd h (List.not_mem_nil q)
      · refine ⟨?_, adj_mem_nodes hwf h2⟩
        rw [h1]
        exact List.mem_singleton.mpr rfl
    · intro p hp
      rcases pushFrom_seen _ _ _ hp with h | ⟨u', h⟩
      · exact absurd h (List.not_mem_nil p)
      · rcases normEdge_cases 0 u' with hc | hc
        · rw [h, hc]
          exact Or.inl (List.mem_singleton.mpr rfl)
        · rw [h, hc]
          exact Or.inr (List.mem_singleton.mpr rfl)
    · intro x y hadj hx hy
      rw [List.mem_singleton] at hx
      obtain ⟨e, he, ht⟩ := hadj
      simp only [touches, Bool.or_eq_true, Bool.and_eq_true,
        beq_iff_eq] at ht
      have hmemadj : (y, e.w) ∈ G.adj 0 := by
        rcases ht with ⟨h1, h2⟩ | ⟨h1, h2⟩
        · exact mem_adj.mpr ⟨e, he, rfl, Or.inl ⟨hx ▸ h1, h2⟩⟩
        · exact mem_adj.mpr ⟨e, he, rfl, Or.inr ⟨hx ▸ h2, h1⟩⟩
      have hpre : ∀ a b, (a, b) ∈ G.adj 0 → a ∉ ([] : List Nat) →
          normEdge 0 a ∈ ([] : List (Nat × Nat)) →
          ∃ q ∈ ([] : List HeapEntry),
            normEdge q.2.1 q.2.2 = normEdge 0 a :=
        fun a b hab hav hseen => absurd hseen (List.not_mem_nil _)
      obtain ⟨qq, hqq, hp⟩ :=
        pushFrom_cover _ _ _ hpre y e.w hmemadj (List.not_mem_nil y)
      refine ⟨qq, hqq, ?_⟩
      rw [hp, hx]

/-! ## Borůvka returns `n - 1` edges on connected graphs -/

/-- The number of distinct component labels below `n`. -/
def numLabels (n : Nat) (comp : List Nat) : Nat :=
  (List.range n).countP (fun c => decide (c ∈ comp))

/-- The state invariant of the Borůvka round loop: the label list spans
the nodes, the component counter counts the distinct labels, and
accepted edges balance merged components. -/
def BorInv (n : Nat) (st : BorState) : Prop :=
  st.component.length = n ∧
  st.numComponents = numLabels n st.component ∧
  st.mst.length + st.numComponents = n ∧
  (∀ c ∈ st.component, c < n)

theorem std_head_zero {G : Graph} (hstd : G.Std) {n0 : Nat}
    {rest : List Nat} (hn : G.nodes = n0 :: rest) : n0 = 0 := by
  have h : G.nodes = List.range G.nodes.length := hstd
  rw [hn, List.length_cons, List.range_succ_eq_map] at h
  injection h with h1

theorem getD_of_mem {comp : List Nat} {c : Nat} (h : c ∈ comp) :
    ∃ k, k < comp.length ∧ comp.getD k 0 = c := by
  obtain ⟨k, hk⟩ := List.mem_iff_get.mp h
  refine ⟨k.val, k.isLt, ?_⟩
  rw [List.getD_eq_getElem _ _ k.isLt]
  exact hk

theorem mem_of_getD_some {l : List (Option Edge)} {i : Nat} {f : Edge}
    (h : l.getD i none = some f) : some f ∈ l := by
  by_cases hi : i < l.length
  · rw [List.getD_eq_getElem _ _ hi] at h
    rw [← h]
    exact List.getElem_mem _
  · rw [List.getD_eq_default _ _ (Nat.le_of_not_lt hi)] at h
    cases h

/-- Membership after the component relabel `oldC → newC`. -/
theorem mem_relabel {comp : List Nat} {oldC newC z : Nat}
    (hnew : newC ∈ comp) (hne : oldC ≠ newC) :
    (z ∈ comp.map (fun c => if c = oldC then newC else c)) ↔
    (z ∈ comp ∧ z ≠ oldC) := by
  rw [List.mem_map]
  constructor
  · rintro ⟨d, hd, hmap⟩
    by_cases hdo : d = oldC
    · rw [if_pos hdo] at hmap
      exact ⟨hmap ▸ hnew, fun h => hne (hmap.trans h).symm⟩
    · rw [if_neg hdo] at hmap
      exact ⟨hmap ▸ hd, hmap ▸ hdo⟩
  · rintro ⟨hz, hzo⟩
    exact ⟨z, hz, if_neg hzo⟩

/-- Relabelling one present label into another removes exactly one
distinct label. -/
theorem numLabels_relabel {n : Nat} {comp : List Nat} {oldC newC : Nat}
    (hold : oldC ∈ comp) (hnew : newC ∈ comp) (hne : oldC ≠ newC)
    (holdn : oldC < n) :
    numLabels n (comp.map (fun c => if c = oldC then newC else c)) + 1 =
      numLabels n comp := by
  refine countP_sub_one (List.nodup_range n) (List.mem_range.mpr holdn)
    _ _ ?_ ?_
  · intro z hz
    rw [Bool.eq_iff_iff]
    simp only [decide_eq_true_eq, Bool.and_eq_true, bne_iff_ne, ne_eq]
    exact mem_relabel hnew hne
  · exact decide_eq_true hold

theorem countP_eq_le_one {l : List Nat} (h : l.Nodup) (L : Nat) :
    l.countP (fun c => c == L) ≤ 1 := by
  rw [List.countP_eq_length_filter]
  have hnd : (l.filter (fun c => c == L)).Nodup := h.filter _
  have hall : ∀ x ∈ l.filter (fun c => c == L), x = L := by
    intro x hx
    exact beq_iff_eq.mp (List.mem_filter.mp hx).2
  rcases hf : l.filter (fun c => c == L) with _ | ⟨a, tl⟩
  · simp
  · rcases tl with _ | ⟨b, tl2⟩
    · simp
    · exfalso
      rw [hf] at hnd hall
      rw [List.nodup_cons] at hnd
      have ha := hall a (List.mem_cons_self _ _)
      have hb := hall b (List.mem_cons_of_mem _ (List.mem_cons_self _ _))
      refine hnd.1 ?_
      rw [ha, hb]
      exact List.mem_cons_self _ _

/-- On a connected label assignment that is not constant, some edge
crosses two different labels. -/
theorem exists_cross_edge {E : List Edge} {comp : List Nat} {i j : Nat}
    (hij : Reach E i j) (hne : comp.getD i 0 ≠ comp.getD j 0) :
    ∃ e ∈ E, comp.getD e.u 0 ≠ comp.getD e.v 0 := by
  induction hij with
  | refl => exact absurd rfl hne
  | tail hab hadj ih =>
    rename_i p q
    by_cases hip : comp.getD i 0 = comp.getD p 0
    · obtain ⟨e, he, ht⟩ := hadj
      simp only [touches, Bool.or_eq_true, Bool.and_eq_true, beq_iff_eq]
        at ht
      have hpq : comp.getD p 0 ≠ comp.getD q 0 :=
        fun h => hne (hip.trans h)
      rcases ht with ⟨h1, h2⟩ | ⟨h1, h2⟩
      · refine ⟨e, he, ?_⟩
        rw [h1, h2]
        exact hpq
      · refine ⟨e, he, ?_⟩
        rw [h1, h2]
        exact hpq.symm
    · exact ih hip

theorem updateCheapest1_length (ch : List (Option Edge)) (c : Nat)
    (e : Edge) : (updateCheapest1 ch c e).length = ch.length := by
  cases hm : ch.getD c none with
  | none =>
    simp only [updateCheapest1, hm, List.length_set]
  | some f =>
    simp only [updateCheapest1, hm]
    by_cases hw : f.w > e.w
    · rw [if_pos hw]
      exact List.length_set ch c _
    · rw [if_neg hw]

theorem updateCheapest1_entries {ch : List (Option Edge)} {c : Nat}
    {e : Edge} {oe : Option Edge} (h : oe ∈ updateCheapest1 ch c e) :
    oe ∈ ch ∨ oe = some e := by
  revert h
  cases hm : ch.getD c none with
  | none =>
    intro h
    simp only [updateCheapest1, hm] at h
    exact List.mem_or_eq_of_mem_set h
  | some f =>
    intro h
    simp only [updateCheapest1, hm] at h
    by_cases hw : f.w > e.w
    · rw [if_pos hw] at h
      exact List.mem_or_eq_of_mem_set h
    · rw [if_neg hw] at h
      exact Or.inl h

theorem updateCheapest1_sets {ch : List (Option Edge)} {c : Nat}
    (e : Edge) (hc : c < ch.length) :
    ∃ g, (updateCheapest1 ch c e).getD c none = some g := by
  cases hm : ch.getD c none with
  | none =>
    simp only [updateCheapest1, hm]
    exact ⟨e, getD_set_eq ch c (some e) none hc⟩
  | some f =>
    simp only [updateCheapest1, hm]
    by_cases hw : f.w > e.w
    · rw [if_pos hw]
      exact ⟨e, getD_set_eq ch c (some e) none hc⟩
    · rw [if_neg hw]
      exact ⟨f, hm⟩

theorem updateCheapest1_some_mono {ch : List (Option Edge)} {c : Nat}
    {f : Edge} (d : Nat) (e : Edge) (h : ch.getD c none = some f) :
    ∃ g, (updateCheapest1 ch d e).getD c none = some g := by
  have hc : c < ch.length := by
    by_contra hx
    rw [List.getD_eq_default _ _ (Nat.le_of_not_lt hx)] at h
    cases h
  by_cases hcc : d = c
  · rw [hcc]
    exact updateCheapest1_sets e hc
  · cases hm : ch.getD d none with
    | none =>
      simp only [updateCheapest1, hm]
      exact ⟨f, (getD_set_ne ch d c _ none hcc).trans h⟩
    | some g0 =>
      simp only [updateCheapest1, hm]
      by_cases hw : g0.w > e.w
      · rw [if_pos hw]
        exact ⟨f, (getD_set_ne ch d c _ none hcc).trans h⟩
      · rw [if_neg hw]
        exact ⟨f, h⟩

theorem scanCheapest_entries (comp : List Nat) (E : List Edge) :
    ∀ (es : List Edge) (ch : List (Option Edge)),
    (∀ e ∈ es, e ∈ E) →
    (∀ f, some f ∈ ch → f ∈ E ∧ comp.getD f.u 0 ≠ comp.getD f.v 0) →
    ∀ f, some f ∈ scanCheapest comp ch es →
      f ∈ E ∧ comp.getD f.u 0 ≠ comp.getD f.v 0 := by
  intro es
  induction es with
  | nil => intro ch hsub hch f hf; exact hch f hf
  | cons e es ih =>
    intro ch hsub hch f hf
    simp only [scanCheapest] at hf
    by_cases hc : comp.getD e.u 0 ≠ comp.getD e.v 0
    · rw [if_pos hc] at hf
      refine ih _ (fun x hx => hsub x (List.mem_cons_of_mem _ hx)) ?_ f hf
      intro g hg
      rcases updateCheapest1_entries hg with hg' | hg'
      · rcases updateCheapest1_entries hg' with hg'' | hg''
        · exact hch g hg''
        · injection hg'' with h'
          exact h'.symm ▸ ⟨hsub e (List.mem_cons_self _ _), hc⟩
      · injection hg' with h'
        exact h'.symm ▸ ⟨hsub e (List.mem_cons_self _ _), hc⟩
    · rw [if_neg hc] at hf
      exact ih _ (fun x hx => hsub x (List.mem_cons_of_mem _ hx)) hch f hf

theorem scanCheapest_some_mono (comp : List Nat) :
    ∀ (es : List Edge) (ch : List (Option Edge)) {c : Nat} {f : Edge},
    ch.getD c none = some f →
    ∃ g, (scanCheapest comp ch es).getD c none = some g := by
  intro es
  induction es with
  | nil => intro ch c f h; exact ⟨f, h⟩
  | cons e es ih =>
    intro ch c f h
    simp only [scanCheapest]
    by_cases hc : comp.getD e.u 0 ≠ comp.getD e.v 0
    · rw [if_pos hc]
      obtain ⟨g1, hg1⟩ := updateCheapest1_some_mono (comp.getD e.u 0) e h
      obtain ⟨g2, hg2⟩ := updateCheapest1_some_mono (comp.getD e.v 0) e hg1
      exact ih _ hg2
    · rw [if_neg hc]
      exact ih _ h

/-- A cross edge forces the scan to record a cheapest entry for its
first endpoint's component. -/
theorem scanCheapest_records (comp : List Nat) :
    ∀ (es : List Edge) (ch : List (Option Edge)) (e : Edge),
    e ∈ es → comp.getD e.u 0 ≠ comp.getD e.v 0 →
    comp.getD e.u 0 < ch.length →
    ∃ g, (scanCheapest comp ch es).getD (comp.getD e.u 0) none =
      some g := by
  intro es
  induction es with
  | nil =>
    intro ch e he hne hlt
    exact absurd he (List.not_mem_nil e)
  | cons e0 es ih =>
    intro ch e he hne hlt
    simp only [scanCheapest]
    rcases List.mem_cons.mp he with heq | he'
    · rw [heq] at hne hlt ⊢
      rw [if_pos hne]
      obtain ⟨g1, hg1⟩ := updateCheapest1_sets e0 hlt
      obtain ⟨g2, hg2⟩ := updateCheapest1_some_mono (comp.getD e0.v 0) e0 hg1
      exact scanCheapest_some_mono comp es _ hg2
    · by_cases hc : comp.getD e0.u 0 ≠ comp.getD e0.v 0
      · rw [if_pos hc]
        refine ih _ e he' hne ?_
        rw [updateCheapest1_length, updateCheapest1_length]
        exact hlt
      · rw [if_neg hc]
        exact ih _ e he' hne hlt

theorem mergePhase_le :
    ∀ (l : List (Option Edge)) (st : BorState),
    (mergePhase st l).numComponents ≤ st.numComponents := by
  intro l
  induction l with
  | nil => intro st; exact le_refl _
  | cons oe rest ih =>
    intro st
    cases oe with
    | none => exact ih st
    | some e =>
      simp only [mergePhase]
      by_cases hc : st.component.getD e.u 0 ≠ st.component.getD e.v 0
      · rw [if_pos hc]
        exact le_trans (ih _) (Nat.sub_le _ _)
      · rw [if_neg hc]
        exact ih st

theorem mergePhase_progress :
    ∀ (l : List (Option Edge)) (st : BorState),
    (∃ e, some e ∈ l ∧
      st.component.getD e.u 0 ≠ st.component.getD e.v 0) →
    (mergePhase st l).numComponents ≤ st.numComponents - 1 := by
  intro l
  induction l with
  | nil =>
    rintro st ⟨e, he, -⟩
    exact absurd he (List.not_mem_nil _)
  | cons oe rest ih =>
    rintro st ⟨e, he, hne⟩
    cases oe with
    | none =>
      refine ih st ⟨e, ?_, hne⟩
      rcases List.mem_cons.mp he with h | h
      · cases h
      · exact h
    | some f =>
      simp only [mergePhase]
      by_cases hc : st.component.getD f.u 0 ≠ st.component.getD f.v 0
      · rw [if_pos hc]
        exact mergePhase_le rest _
      · rw [if_neg hc]
        refine ih st ⟨e, ?_, hne⟩
        rcases List.mem_cons.mp he with h | h
        · exfalso
          injection h with h'
          exact hc (h' ▸ hne)
        · exact h

theorem mergePhase_inv {n : Nat} :
    ∀ (l : List (Option Edge)) (st : BorState),
    BorInv n st →
    (∀ e, some e ∈ l → e.u < n ∧ e.v < n) →
    BorInv n (mergePhase st l) := by
  intro l
  induction l with
  | nil => intro st hinv _; exact hinv
  | cons oe rest ih =>
    intro st hinv hl
    cases oe with
    | none =>
      exact ih st hinv (fun e he => hl e (List.mem_cons_of_mem _ he))
    | some f =>
      simp only [mergePhase]
      by_cases hc : st.component.getD f.u 0 ≠ st.component.getD f.v 0
      · rw [if_pos hc]
        refine ih _ ?_ (fun e he => hl e (List.mem_cons_of_mem _ he))
        obtain ⟨hlen, hnum, hsum, hran⟩ := hinv
        obtain ⟨hu, hv⟩ := hl f (List.mem_cons_self _ _)
        have hult : f.u < st.component.length := hlen ▸ hu
        have hvlt : f.v < st.component.length := hlen ▸ hv
        have hold : st.component.getD f.u 0 ∈ st.component := by
          rw [List.getD_eq_getElem _ _ hult]
          exact List.getElem_mem _
        have hnew : st.component.getD f.v 0 ∈ st.component := by
          rw [List.getD_eq_getElem _ _ hvlt]
          exact List.getElem_mem _
        have holdn : st.component.getD f.u 0 < n := hran _ hold
        have hnewn : st.component.getD f.v 0 < n := hran _ hnew
        have hrel : numLabels n (st.component.map
            (fun c => if c = st.component.getD f.u 0
              then st.component.getD f.v 0 else c)) + 1 =
            numLabels n st.component :=
          numLabels_relabel hold hnew hc holdn
        have hpos : 0 < numLabels n st.component :=
          List.countP_pos_iff.mpr
            ⟨_, List.mem_range.mpr holdn, decide_eq_true hold⟩
        refine ⟨?_, ?_, ?_, ?_⟩
        · show (st.component.map _).length = n
          rw [List.length_map]
          exact hlen
        · show st.numComponents - 1 = numLabels n (st.component.map _)
          omega
        · show (st.mst ++ [f]).length + (st.numComponents - 1) = n
          rw [List.length_append, List.length_singleton]
          omega
        · intro c hcm
          rw [List.mem_map] at hcm
          obtain ⟨d, hd, hmap⟩ := hcm
          by_cases hdo : d = st.component.getD f.u 0
          · rw [if_pos hdo] at hmap
            exact hmap ▸ hnewn
          · rw [if_neg hdo] at hmap
            exact hmap ▸ hran d hd
      · rw [if_neg hc]
        exact ih st hinv (fun e he => hl e (List.mem_cons_of_mem _ he))

theorem boruvkaRound_inv {G : Graph} (hwf : G.WF) (hstd : G.Std)
    {st : BorState} (hinv : BorInv G.nodes.length st) :
    BorInv G.nodes.length (boruvkaRound G st) := by
  refine mergePhase_inv _ _ hinv ?_
  intro e he
  have hch : ∀ f, some f ∈ List.replicate G.nodes.length
      (none : Option Edge) → f ∈ G.edges ∧
      st.component.getD f.u 0 ≠ st.component.getD f.v 0 := by
    intro f hf
    exact absurd (List.eq_of_mem_replicate hf) (by simp)
  have hent := scanCheapest_entries st.component G.edges G.edges _
    (fun x hx => hx) hch e he
  obtain ⟨h1, h2, -⟩ := hwf.2.2.1 e hent.1
  have hstd' : G.nodes = List.range G.nodes.length := hstd
  rw [hstd'] at h1 h2
  exact ⟨List.mem_range.mp h1, List.mem_range.mp h2⟩

/-- On a connected graph each round with at least two components merges
at least one pair of components. -/
theorem boruvkaRound_progress {G : Graph} (hwf : G.WF) (hstd : G.Std)
    (hconn : is_connected G = true) {st : BorState}
    (hinv : BorInv G.nodes.length st) (h2 : 2 ≤ st.numComponents) :
    (boruvkaRound G st).numComponents ≤ st.numComponents - 1 := by
  obtain ⟨hlen, hnum, hsum, hran⟩ := hinv
  have hdiff : ∃ k, k < G.nodes.length ∧
      st.component.getD k 0 ≠ st.component.getD 0 0 := by
    by_contra hall
    push_neg at hall
    have hle1 : numLabels G.nodes.length st.component ≤ 1 := by
      have hmono : (List.range G.nodes.length).countP
          (fun c => decide (c ∈ st.component)) ≤
          (List.range G.nodes.length).countP
          (fun c => c == st.component.getD 0 0) := by
        refine List.countP_mono_left ?_
        intro c hc hcc
        have hcm : c ∈ st.component := of_decide_eq_true hcc
        obtain ⟨k, hk, hgk⟩ := getD_of_mem hcm
        rw [hlen] at hk
        have hkk := hall k hk
        rw [hgk] at hkk
        exact beq_iff_eq.mpr hkk
      exact le_trans hmono (countP_eq_le_one (List.nodup_range _) _)
    omega
  obtain ⟨k, hk, hkdiff⟩ := hdiff
  cases hn : G.nodes with
  | nil => exact absurd hn hwf.2.1
  | cons n0 rest =>
    have hreach := (is_connected_iff hwf hn).mp hconn
    rw [std_head_zero hstd hn] at hreach
    have hkmem : k ∈ G.nodes := by
      have h : G.nodes = List.range G.nodes.length := hstd
      rw [h]
      exact List.mem_range.mpr hk
    have hr : Reach G.edges 0 k := hreach k hkmem
    obtain ⟨e, he, hcross⟩ := exists_cross_edge hr hkdiff.symm
    have heu : e.u < st.component.length := by
      obtain ⟨h1, -, -⟩ := hwf.2.2.1 e he
      have h : G.nodes = List.range G.nodes.length := hstd
      rw [h] at h1
      rw [hlen]
      exact List.mem_range.mp h1
    have hcu : st.component.getD e.u 0 <
        (List.replicate G.nodes.length (none : Option Edge)).length := by
      rw [List.length_replicate]
      refine hran _ ?_
      rw [List.getD_eq_getElem _ _ heu]
      exact List.getElem_mem _
    obtain ⟨g, hg⟩ := scanCheapest_records st.component G.edges
      (List.replicate G.nodes.length none) e he hcross hcu
    have hmem' : some g ∈ scanCheapest st.component
        (List.replicate G.nodes.length none) G.edges :=
      mem_of_getD_some hg
    have hch : ∀ f, some f ∈ List.replicate G.nodes.length
        (none : Option Edge) → f ∈ G.edges ∧
        st.component.getD f.u 0 ≠ st.component.getD f.v 0 := by
      intro f hf
      exact absurd (List.eq_of_mem_replicate hf) (by simp)
    have hgprop := scanCheapest_entries st.component G.edges G.edges _
      (fun x hx => hx) hch g hmem'
    exact mergePhase_progress _ st ⟨g, hmem', hgprop.2⟩

theorem boruvkaLoop_some_length {G : Graph} (hwf : G.WF) (hstd : G.Std) :
    ∀ (fuel : Nat) (st : BorState), BorInv G.nodes.length st →
    ∀ mst t, boruvkaLoop G fuel st = some (mst, t) →
    mst.length = G.nodes.length - 1 := by
  intro fuel
  induction fuel with
  | zero =>
    intro st hinv mst t h
    exact Option.noConfusion h
  | succ fuel ih =>
    intro st hinv mst t h
    simp only [boruvkaLoop] at h
    by_cases hg : st.numComponents > 1
    · rw [if_pos hg] at h
      exact ih _ (boruvkaRound_inv hwf hstd hinv) mst t h
    · rw [if_neg hg] at h
      injection h with h'
      injection h' with h1 h2
      obtain ⟨hlen, hnum, hsum, hran⟩ := hinv
      have hn1 : 1 ≤ G.nodes.length := List.length_pos.mpr hwf.2.1
      have hcomp_ne : st.component ≠ [] := by
        intro hcnil
        rw [hcnil] at hlen
        simp at hlen
        omega
      obtain ⟨c0, hc0⟩ := List.exists_mem_of_ne_nil st.component hcomp_ne
      have hpos : 0 < numLabels G.nodes.length st.component :=
        List.countP_pos_iff.mpr
          ⟨c0, List.mem_range.mpr (hran c0 hc0), decide_eq_true hc0⟩
      rw [← h1]
      omega

theorem boruvkaLoop_terminates {G : Graph} (hwf : G.WF) (hstd : G.Std)
    (hconn : is_connected G = true) :
    ∀ (fuel : Nat) (st : BorState), BorInv G.nodes.length st →
    st.numComponents ≤ fuel →
    ∃ r, boruvkaLoop G fuel st = some r := by
  intro fuel
  induction fuel with
  | zero =>
    intro st hinv hle
    exfalso
    obtain ⟨hlen, hnum, -, hran⟩ := hinv
    have hn1 : 0 < G.nodes.length := List.length_pos.mpr hwf.2.1
    have hcomp_ne : st.component ≠ [] := by
      intro hcnil
      rw [hcnil] at hlen
      simp at hlen
      omega
    obtain ⟨c0, hc0⟩ := List.exists_mem_of_ne_nil st.component hcomp_ne
    have hpos : 0 < numLabels G.nodes.length st.component :=
      List.countP_pos_iff.mpr
        ⟨c0, List.mem_range.mpr (hran c0 hc0), decide_eq_true hc0⟩
    omega
  | succ fuel ih =>
    intro st hinv hle
    simp only [boruvkaLoop]
    by_cases hg : st.numComponents > 1
    · rw [if_pos hg]
      refine ih _ (boruvkaRound_inv hwf hstd hinv) ?_
      have hprog := boruvkaRound_progress hwf hstd hconn hinv (by omega)
      omega
    · rw [if_neg hg]
      exact ⟨_, rfl⟩

/-- On a connected standard graph, every successful Borůvka run returns
exactly `n - 1` edges, and fuel `n` suffices for success. -/
theorem boruvka_count {G : Graph} (hwf : G.WF) (hstd : G.Std)
    (hconn : is_connected G = true) :
    (∀ fuel mstB tB, boruvka_mst G fuel = some (mstB, tB) →
      mstB.length = G.nodes.length - 1) ∧
    ∃ r, boruvka_mst G G.nodes.length = some r := by
  have hinv0 : BorInv G.nodes.length
      ⟨G.nodes.length, List.range G.nodes.length, [], 0⟩ := by
    refine ⟨List.length_range _, ?_, ?_, ?_⟩
    · show G.nodes.length =
        numLabels G.nodes.length (List.range G.nodes.length)
      have heq : numLabels G.nodes.length (List.range G.nodes.length) =
          (List.range G.nodes.length).length :=
        List.countP_eq_length.mpr (fun a ha => decide_eq_true ha)
      rw [heq, List.length_range]
    · show ([] : List Edge).length + G.nodes.length = G.nodes.length
      simp
    · intro c hc
      exact List.mem_range.mp hc
  constructor
  · intro fuel mstB tB h
    exact boruvkaLoop_some_length hwf hstd fuel _ hinv0 mstB tB h
  · exact boruvkaLoop_terminates hwf hstd hconn G.nodes.length _ hinv0
      (le_refl _)

/-- C4: on every connected graph with `n` nodes, the edge lists returned
by `kruskal_mst`, `prim_mst` and `reverse_delete_mst` have exactly
`n - 1` edges, and so does every successful `boruvka_mst` run (fuel `n`
sufficing for success). -/
theorem C4_mst_edge_count {G : Graph} (hwf : G.WF) (hstd : G.Std)
    (hconn : is_connected G = true) :
    (kruskal_mst G).1.length = G.nodes.length - 1 ∧
    (prim_mst G).1.length = G.nodes.length - 1 ∧
    (reverse_delete_mst G).1.length = G.nodes.length - 1 ∧
    (∀ fuel mstB tB, boruvka_mst G fuel = some (mstB, tB) →
      mstB.length = G.nodes.length - 1) ∧
    (∃ r, boruvka_mst G G.nodes.length = some r ∧
      r.1.length = G.nodes.length - 1) := by
  obtain ⟨hall, r, hr⟩ := boruvka_count hwf hstd hconn
  exact ⟨kruskal_count hwf hstd hconn, prim_count hwf hstd hconn,
    reverse_count hwf hstd hconn, hall, r, hr, hall _ r.1 r.2 hr⟩

/-- C4, witness: all four algorithms return exactly `2 = 3 - 1` edges
on the weighted triangle. -/
theorem C4_mst_edge_count_witness :
    (triangle.WF ∧ triangle.Std ∧ is_connected triangle = true) ∧
    ((kruskal_mst triangle).1.length = triangle.nodes.length - 1 ∧
     (prim_mst triangle).1.length = triangle.nodes.length - 1 ∧
     (reverse_delete_mst triangle).1.length =
       triangle.nodes.length - 1 ∧
     (∀ fuel mstB tB, boruvka_mst triangle fuel = some (mstB, tB) →
       mstB.length = triangle.nodes.length - 1) ∧
     (∃ r, boruvka_mst triangle triangle.nodes.length = some r ∧
       r.1.length = triangle.nodes.length - 1)) :=
  ⟨⟨by decide, by decide, by decide⟩,
   C4_mst_edge_count (by decide) (by decide) (by decide)⟩

/-! ## Minimum spanning trees: weights, spanning lists, extremality -/

/-- The total weight of an edge list. -/
def totalW (l : List Edge) : Int := (l.map Edge.w).sum

/-- A spanning tree of `G`, as an edge list: a duplicate-free selection
of `G`'s edges that connects all nodes with exactly `n - 1` edges. -/
def SpanTree (G : Graph) (T : List Edge) : Prop :=
  (∀ f ∈ T, f ∈ G.edges) ∧ T.Nodup ∧
  is_connected ⟨G.nodes, T⟩ = true ∧ T.length = G.nodes.length - 1

/-- A minimum spanning tree: a spanning tree of least total weight. -/
def IsMST (G : Graph) (T : List Edge) : Prop :=
  SpanTree G T ∧ ∀ T', SpanTree G T' → totalW T ≤ totalW T'

theorem totalW_perm {l1 l2 : List Edge} (h : l1.Perm l2) :
    totalW l1 = totalW l2 :=
  (h.map Edge.w).sum_eq

theorem totalW_append (l1 l2 : List Edge) :
    totalW (l1 ++ l2) = totalW l1 + totalW l2 := by
  simp [totalW]

theorem totalW_erase {l : List Edge} {f : Edge} (h : f ∈ l) :
    totalW (l.erase f) = totalW l - f.w := by
  have hp := totalW_perm (List.perm_cons_erase h)
  simp only [totalW, List.map_cons, List.sum_cons] at hp ⊢
  omega

theorem edges_nodup {G : Graph} (hwf : G.WF) : G.edges.Nodup := by
  refine hwf.2.2.2.imp ?_
  intro a b h hab
  refine h ?_
  rw [hab]
  exact touches_self b

/-- A duplicate-free selection of `G`'s edges inherits the pairwise
non-parallel property. -/
theorem pairwise_of_sub_nodup {G : Graph} (hwf : G.WF) {T : List Edge}
    (hsub : ∀ f ∈ T, f ∈ G.edges) (hnd : T.Nodup) :
    T.Pairwise (fun a b => ¬ (touches b a.u a.v = true)) := by
  induction T with
  | nil => exact List.Pairwise.nil
  | cons e es ih =>
    rw [List.nodup_cons] at hnd
    refine List.Pairwise.cons ?_
      (ih (fun f hf => hsub f (List.mem_cons_of_mem _ hf)) hnd.2)
    intro f hf
    have hne : e ≠ f := fun h => hnd.1 (h ▸ hf)
    exact List.Pairwise.forall pairwiseSymm hwf.2.2.2
      (hsub e (List.mem_cons_self _ _))
      (hsub f (List.mem_cons_of_mem _ hf)) hne

/-- Two distinct edges of a well-formed graph have distinct node
pairs. -/
theorem edge_pair_unique {G : Graph} (hwf : G.WF) {e f : Edge}
    (he : e ∈ G.edges) (hf : f ∈ G.edges)
    (ht : touches f e.u e.v = true) : e = f := by
  by_contra hne
  exact (List.Pairwise.forall pairwiseSymm hwf.2.2.2 he hf hne) ht

theorem reach_mono {E E' : List Edge} (hsub : ∀ g ∈ E, g ∈ E')
    {a b : Nat} (h : Reach E a b) : Reach E' a b :=
  Relation.ReflTransGen.mono
    (fun x y hxy => hxy.elim (fun e hx => ⟨e, hsub e hx.1, hx.2⟩)) h

/-- Generalized rerouting: any superset of the pruned list that
reconnects the removed pair preserves all reachability. -/
theorem reach_patch2 {W W' : List Edge} {u v : Nat}
    (hs : ∀ g ∈ removeEdge W u v, g ∈ W')
    (huv : Reach W' u v) {a b : Nat}
    (h : Reach W a b) : Reach W' a b := by
  induction h with
  | refl => exact Relation.ReflTransGen.refl
  | tail hab hadj ih =>
    rename_i x y
    obtain ⟨f, hf, ht⟩ := hadj
    cases hfp : touches f u v with
    | false =>
      exact Relation.ReflTransGen.tail ih
        ⟨f, hs f (mem_removeEdge.mpr ⟨hf, hfp⟩), ht⟩
    | true =>
      refine reach_trans ih ?_
      simp only [touches, Bool.or_eq_true, Bool.and_eq_true, beq_iff_eq]
        at ht hfp
      rcases ht with ⟨ht1, ht2⟩ | ⟨ht1, ht2⟩ <;>
        rcases hfp with ⟨hp1, hp2⟩ | ⟨hp1, hp2⟩
      · rw [← ht1, ← ht2, hp1, hp2]; exact huv
      · rw [← ht1, ← ht2, hp1, hp2]; exact reach_symm huv
      · rw [← ht2, ← ht1, hp1, hp2]; exact reach_symm huv
      · rw [← ht2, ← ht1, hp1, hp2]; exact huv

/-- Removing one pair from an edge list splits reachability from its
endpoints into (at most) two sides. -/
theorem reach_split {T : List Edge} {u v : Nat} :
    ∀ {x : Nat}, Reach T u x →
    Reach (removeEdge T u v) u x ∨ Reach (removeEdge T u v) v x := by
  intro x h
  induction h with
  | refl => exact Or.inl Relation.ReflTransGen.refl
  | tail hab hadj ih =>
    rename_i y z
    obtain ⟨f, hf, ht⟩ := hadj
    cases hfp : touches f u v with
    | false =>
      have hstep : adjRel (removeEdge T u v) y z :=
        ⟨f, mem_removeEdge.mpr ⟨hf, hfp⟩, ht⟩
      rcases ih with h' | h'
      · exact Or.inl (Relation.ReflTransGen.tail h' hstep)
      · exact Or.inr (Relation.ReflTransGen.tail h' hstep)
    | true =>
      simp only [touches, Bool.or_eq_true, Bool.and_eq_true, beq_iff_eq]
        at ht hfp
      have hz : z = u ∨ z = v := by
        rcases ht with ⟨ht1, ht2⟩ | ⟨ht1, ht2⟩ <;>
          rcases hfp with ⟨hp1, hp2⟩ | ⟨hp1, hp2⟩
        · exact Or.inr (ht2.symm.trans hp2)
        · exact Or.inl (ht2.symm.trans hp2)
        · exact Or.inl (ht1.symm.trans hp1)
        · exact Or.inr (ht1.symm.trans hp1)
      rcases hz with rfl | rfl
      · exact Or.inl Relation.ReflTransGen.refl
      · exact Or.inr Relation.ReflTransGen.refl

theorem kruskalScan_length_le :
    ∀ (es : List Edge) (d : DSU) (mst : List Edge) (t : Int),
    (kruskalScan es d mst t).1.length ≤ mst.length + es.length := by
  intro es
  induction es with
  | nil =>
    intro d mst t
    simp [kruskalScan]
  | cons e es ih =>
    intro d mst t
    simp only [kruskalScan]
    by_cases hb : (d.union e.u e.v).2 = true
    · rw [if_pos hb]
      have h := ih (d.union e.u e.v).1 (mst ++ [e]) (t + e.w)
      simp only [List.length_append, List.length_singleton,
        List.length_cons, List.length_nil] at h ⊢
      omega
    · rw [if_neg hb]
      have h := ih (d.union e.u e.v).1 mst t
      simp only [List.length_cons]
      omega

/-- A connected spanning edge list has at least `n - 1` edges. -/
theorem conn_lb {G : Graph} (hwf : G.WF) (hstd : G.Std)
    {W : List Edge} (hwfW : Graph.WF ⟨G.nodes, W⟩)
    (hconnW : is_connected ⟨G.nodes, W⟩ = true) :
    G.nodes.length - 1 ≤ W.length := by
  have hend : ∀ e ∈ W, e.u < G.nodes.length ∧ e.v < G.nodes.length := by
    intro e he
    obtain ⟨h1, h2, -⟩ := hwfW.2.2.1 e he
    have hstd' : G.nodes = List.range G.nodes.length := hstd
    rw [hstd'] at h1 h2
    exact ⟨List.mem_range.mp h1, List.mem_range.mp h2⟩
  obtain ⟨hinvF, hcount, hsameE, -⟩ :=
    kruskalScan_spec G.nodes.length W (DSU.init G.nodes.length) [] 0
      (DSUInv_init _) hend
  obtain ⟨m, hm⟩ : ∃ m, G.nodes.length = m + 1 := by
    have hp := List.length_pos.mpr hwf.2.1
    exact ⟨G.nodes.length - 1, by omega⟩
  obtain ⟨rest, hnodes⟩ : ∃ rest, G.nodes = 0 :: rest := by
    refine ⟨(List.range m).map Nat.succ, ?_⟩
    have hstd' : G.nodes = List.range G.nodes.length := hstd
    rw [hstd', hm]
    exact List.range_succ_eq_map m
  have hallreach := (is_connected_iff hwfW hnodes).mp hconnW
  have hreach_same : ∀ a b, Reach W a b →
      sameRoot (kruskalScanD W (DSU.init G.nodes.length)).parent a b := by
    intro a b h
    induction h with
    | refl =>
      obtain ⟨r, hr⟩ := hinvF.grounded a
      exact ⟨r, hr, hr⟩
    | tail h hadj ih =>
      obtain ⟨e, he, ht⟩ := hadj
      have hse := hsameE e he
      simp only [touches, Bool.or_eq_true, Bool.and_eq_true, beq_iff_eq]
        at ht
      rcases ht with ⟨h1, h2⟩ | ⟨h1, h2⟩
      · exact sameRoot_trans ih (h1 ▸ h2 ▸ hse)
      · exact sameRoot_trans ih (sameRoot_symm (h1 ▸ h2 ▸ hse))
  obtain ⟨r0, hr0⟩ := hinvF.grounded 0
  have hall : ∀ z, z < G.nodes.length →
      RootedAt (kruskalScanD W (DSU.init G.nodes.length)).parent z r0 := by
    intro z hz
    have hzmem : z ∈ G.nodes := by
      have hstd' : G.nodes = List.range G.nodes.length := hstd
      rw [hstd']
      exact List.mem_range.mpr hz
    obtain ⟨r, h0r, hzr⟩ := hreach_same 0 z (hallreach z hzmem)
    exact (hr0.unique h0r) ▸ hzr
  have hr0lt : r0 < G.nodes.length :=
    rootedAt_lt hinvF.inRange hr0 (by omega)
  have hnumF : numRoots (kruskalScanD W
      (DSU.init G.nodes.length)).parent = 1 := by
    simp only [numRoots, hinvF.plen]
    have hcongr : ∀ z ∈ List.range G.nodes.length,
        (decide ((kruskalScanD W
          (DSU.init G.nodes.length)).parent.getD z z = z) = true ↔
         (z == r0) = true) := by
      intro z hz
      rw [List.mem_range] at hz
      simp only [decide_eq_true_eq, beq_iff_eq]
      constructor
      · intro hroot
        exact ((hall z hz).unique (RootedAt.self z hroot)).symm
      · rintro rfl
        exact hr0.root_fix
    rw [List.countP_congr hcongr]
    rw [show (List.range G.nodes.length).countP (fun z => z == r0) =
      (List.range G.nodes.length).count r0 from rfl]
    rw [List.count_eq_one_of_mem (List.nodup_range _)
      (List.mem_range.mpr hr0lt)]
  have hlen := kruskalScan_length_le W (DSU.init G.nodes.length) [] 0
  rw [hnumF, numRoots_init] at hcount
  simp only [List.length_nil] at hcount hlen
  omega

/-- In a connected spanning list with `n - 1` edges, every edge is a
bridge. -/
theorem spantree_bridge {G : Graph} (hwf : G.WF) (hstd : G.Std)
    {T : List Edge} (hsub : ∀ f ∈ T, f ∈ G.edges) (hnd : T.Nodup)
    (hconnT : is_connected ⟨G.nodes, T⟩ = true)
    (hlenT : T.length = G.nodes.length - 1)
    {f : Edge} (hf : f ∈ T) :
    ¬ Reach (removeEdge T f.u f.v) f.u f.v := by
  intro hr
  have hpwT := pairwise_of_sub_nodup hwf hsub hnd
  have hwfT : Graph.WF ⟨G.nodes, T⟩ := WF_of_sub hwf hsub hpwT
  have hsubR : ∀ g ∈ removeEdge T f.u f.v, g ∈ T :=
    fun g hg => (mem_removeEdge.mp hg).1
  have hwfR : Graph.WF ⟨G.nodes, removeEdge T f.u f.v⟩ :=
    WF_of_sub hwf (fun g hg => hsub g (hsubR g hg))
      (hpwT.sublist (List.filter_sublist _))
  cases hn : G.nodes with
  | nil => exact hwf.2.1 hn
  | cons n0 rest =>
    have h1 := (is_connected_iff hwfT hn).mp hconnT
    have h2 : is_connected ⟨G.nodes, removeEdge T f.u f.v⟩ = true := by
      rw [is_connected_iff hwfR hn]
      intro x hx
      exact reach_patch hr (h1 x hx)
    have hlb := conn_lb hwf hstd hwfR h2
    have herase : removeEdge T f.u f.v = T.erase f :=
      removeEdge_eq_erase hpwT hf
    rw [herase, List.length_erase_of_mem hf, hlenT] at hlb
    have hpos : 0 < T.length :=
      List.length_pos.mpr (List.ne_nil_of_mem hf)
    omega

/-- An edge touching two node pairs identifies them as unordered
pairs. -/
theorem touches_sym2_eq {n : Nat} {g : Edge} {a b x y : Fin n}
    (h1 : touches g a.val b.val = true)
    (h2 : touches g x.val y.val = true) :
    s(a, b) = s(x, y) := by
  simp only [touches, Bool.or_eq_true, Bool.and_eq_true, beq_iff_eq]
    at h1 h2
  rw [Sym2.eq_iff]
  rcases h1 with ⟨p1, p2⟩ | ⟨p1, p2⟩ <;>
    rcases h2 with ⟨q1, q2⟩ | ⟨q1, q2⟩
  · exact Or.inl ⟨Fin.ext (p1 ▸ q1), Fin.ext (p2 ▸ q2)⟩
  · exact Or.inr ⟨Fin.ext (p1 ▸ q1), Fin.ext (p2 ▸ q2)⟩
  · exact Or.inr ⟨Fin.ext (p2 ▸ q2), Fin.ext (p1 ▸ q1)⟩
  · exact Or.inl ⟨Fin.ext (p2 ▸ q2), Fin.ext (p1 ▸ q1)⟩

/-- A walk avoiding one unordered pair descends to reachability over
the pruned edge list. -/
theorem walk_reach_avoid {n : Nat} {T : List Edge} {x y : Fin n} :
    ∀ {a b : Fin n} (p : (toSG n T).Walk a b),
    s(x, y) ∉ p.edges →
    Reach (removeEdge T x.val y.val) a.val b.val := by
  intro a b p
  induction p with
  | nil => exact fun _ => Relation.ReflTransGen.refl
  | cons hadj p ih =>
    intro h
    rw [SimpleGraph.Walk.edges_cons, List.mem_cons] at h
    push_neg at h
    obtain ⟨hne, g, hg, ht⟩ := hadj
    refine Relation.ReflTransGen.head
      ⟨g, mem_removeEdge.mpr ⟨hg, ?_⟩, ht⟩ (ih h.2)
    cases hcon : touches g x.val y.val with
    | false => rfl
    | true => exact absurd (touches_sym2_eq ht hcon).symm h.1

/-- A duplicate-free walk from inside a cut to outside it contains a
crossing step splitting it into two halves avoiding that step. -/
theorem walk_cross_split {n : Nat} {T : List Edge} (S : Nat → Prop) :
    ∀ {a b : Fin n} (p : (toSG n T).Walk a b),
    p.edges.Nodup → S a.val → ¬ S b.val →
    ∃ (x y : Fin n) (g : Edge), g ∈ T ∧ touches g x.val y.val = true ∧
      S x.val ∧ ¬ S y.val ∧ s(x, y) ∈ p.edges ∧
      Reach (removeEdge T x.val y.val) a.val x.val ∧
      Reach (removeEdge T x.val y.val) y.val b.val := by
  intro a b p
  induction p with
  | nil => exact fun _ hSa hSb => absurd hSa hSb
  | cons hadj p ih =>
    rename_i u v w
    intro hnd hSa hSb
    rw [SimpleGraph.Walk.edges_cons, List.nodup_cons] at hnd
    by_cases hSv : S v.val
    · obtain ⟨x, y, g, hgT, hgt, hSx, hSy, hmem, hpre, hsuf⟩ :=
        ih hnd.2 hSv hSb
      obtain ⟨hne, g', hg', ht'⟩ := hadj
      have hstep : adjRel (removeEdge T x.val y.val) u.val v.val := by
        refine ⟨g', mem_removeEdge.mpr ⟨hg', ?_⟩, ht'⟩
        cases hcon : touches g' x.val y.val with
        | false => rfl
        | true =>
          exfalso
          exact hnd.1 ((touches_sym2_eq ht' hcon) ▸ hmem)
      refine ⟨x, y, g, hgT, hgt, hSx, hSy, ?_, ?_, hsuf⟩
      · rw [SimpleGraph.Walk.edges_cons]
        exact List.mem_cons_of_mem _ hmem
      · exact Relation.ReflTransGen.head hstep hpre
    · obtain ⟨hne, g', hg', ht'⟩ := hadj
      refine ⟨u, v, g', hg', ht', hSa, hSv, ?_,
        Relation.ReflTransGen.refl, ?_⟩
      · rw [SimpleGraph.Walk.edges_cons]
        exact List.mem_cons_self _ _
      · exact walk_reach_avoid p hnd.1

/-- On a connected spanning edge list, between any node inside a cut
and any node outside it there is an edge crossing the cut whose removal
leaves both halves reachable. -/
theorem spantree_separator {G : Graph} (hwf : G.WF) (hstd : G.Std)
    {T : List Edge} (hsub : ∀ f ∈ T, f ∈ G.edges) (hnd : T.Nodup)
    (hconnT : is_connected ⟨G.nodes, T⟩ = true)
    (S : Nat → Prop) {a b : Nat} (ha : a ∈ G.nodes) (hb : b ∈ G.nodes)
    (hSa : S a) (hSb : ¬ S b) :
    ∃ g ∈ T, ∃ x y : Nat, touches g x y = true ∧ S x ∧ ¬ S y ∧
      Reach (removeEdge T x y) a x ∧ Reach (removeEdge T x y) y b := by
  have hmem : ∀ z : Nat, z ∈ G.nodes ↔ z < G.nodes.length := by
    intro z
    have hstd' : G.nodes = List.range G.nodes.length := hstd
    constructor
    · intro hx; rw [hstd'] at hx; exact List.mem_range.mp hx
    · intro hx; rw [hstd']; exact List.mem_range.mpr hx
  have hpwT := pairwise_of_sub_nodup hwf hsub hnd
  have hwfT : Graph.WF ⟨G.nodes, T⟩ := WF_of_sub hwf hsub hpwT
  have hendsT : ∀ e ∈ T, e.u < G.nodes.length ∧ e.v < G.nodes.length ∧
      e.u ≠ e.v := by
    intro e he
    obtain ⟨h1, h2, h3⟩ := hwf.2.2.1 e (hsub e he)
    exact ⟨(hmem _).mp h1, (hmem _).mp h2, h3⟩
  cases hn : G.nodes with
  | nil => exact absurd hn hwf.2.1
  | cons n0 rest =>
    have hreachAll := (is_connected_iff hwfT hn).mp hconnT
    have hab : Reach T a b :=
      reach_trans (reach_symm (hreachAll a ha)) (hreachAll b hb)
    have halt : a < G.nodes.length := (hmem a).mp ha
    have hblt : b < G.nodes.length := (hmem b).mp hb
    have hreach := reach_toSG hendsT hab halt hblt
    obtain ⟨p0⟩ := hreach
    obtain ⟨x, y, g, hgT, hgt, hSx, hSy, -, hpre, hsuf⟩ :=
      walk_cross_split S p0.toPath.1 p0.toPath.2.edges_nodup hSa hSb
    exact ⟨g, hgT, x.val, y.val, hgt, hSx, hSy, hpre, hsuf⟩

/-- The cut-exchange step: a minimum crossing edge of a cut that no
edge of `F` crosses can be traded into any spanning tree containing `F`
without raising the weight. -/
theorem exchange_cut {G : Graph} (hwf : G.WF) (hstd : G.Std)
    {T : List Edge} (hT : SpanTree G T)
    (S : Nat → Prop) {e : Edge} (heG : e ∈ G.edges)
    (hcr : (S e.u ∧ ¬ S e.v) ∨ (S e.v ∧ ¬ S e.u))
    (hmin : ∀ g ∈ G.edges, ((S g.u ∧ ¬ S g.v) ∨ (S g.v ∧ ¬ S g.u)) →
      e.w ≤ g.w)
    {F : List Edge} (hF : ∀ f ∈ F, f ∈ T)
    (hFnc : ∀ f ∈ F, (S f.u ↔ S f.v)) :
    ∃ T', SpanTree G T' ∧ totalW T' ≤ totalW T ∧
      (∀ f ∈ F, f ∈ T') ∧ e ∈ T' := by
  by_cases heT : e ∈ T
  · exact ⟨T, hT, le_refl _, hF, heT⟩
  obtain ⟨hTsub, hTnd, hTconn, hTlen⟩ := hT
  obtain ⟨heu, hev, -⟩ := hwf.2.2.1 e heG
  obtain ⟨a, b, habt, hSa, hSb, haN, hbN⟩ :
      ∃ a b, touches e a b = true ∧ S a ∧ ¬ S b ∧
        a ∈ G.nodes ∧ b ∈ G.nodes := by
    rcases hcr with ⟨h1, h2⟩ | ⟨h1, h2⟩
    · exact ⟨e.u, e.v, touches_self e, h1, h2, heu, hev⟩
    · exact ⟨e.v, e.u,
        (touches_symm e e.v e.u).trans (touches_self e), h1, h2, hev, heu⟩
  obtain ⟨g, hgT, x, y, hgt, hSx, hSy, hpre, hsuf⟩ :=
    spantree_separator hwf hstd hTsub hTnd hTconn S haN hbN hSa hSb
  have hpwT := pairwise_of_sub_nodup hwf hTsub hTnd
  have herase : removeEdge T x y = T.erase g := by
    have hcongr : removeEdge T x y = removeEdge T g.u g.v := by
      simp only [removeEdge]
      exact List.filter_congr (fun f hf => by rw [touches_congr hgt f])
    rw [hcongr]
    exact removeEdge_eq_erase hpwT hgT
  have hgcross : (S g.u ∧ ¬ S g.v) ∨ (S g.v ∧ ¬ S g.u) := by
    simp only [touches, Bool.or_eq_true, Bool.and_eq_true, beq_iff_eq]
      at hgt
    rcases hgt with ⟨h1, h2⟩ | ⟨h1, h2⟩
    · exact Or.inl ⟨h1 ▸ hSx, h2 ▸ hSy⟩
    · exact Or.inr ⟨h2 ▸ hSx, h1 ▸ hSy⟩
  have hgF : g ∉ F := by
    intro hgf
    rcases hgcross with ⟨h1, h2⟩ | ⟨h1, h2⟩
    · exact h2 ((hFnc g hgf).mp h1)
    · exact h2 ((hFnc g hgf).mpr h1)
  have hesub : ∀ f ∈ removeEdge T x y, f ∈ T :=
    fun f hf => (mem_removeEdge.mp hf).1
  have heR : e ∉ removeEdge T x y := fun h => heT (hesub e h)
  have hsub' : ∀ f ∈ removeEdge T x y ++ [e], f ∈ G.edges := by
    intro f hf
    rcases List.mem_append.mp hf with h | h
    · exact hTsub f (hesub f h)
    · rw [List.mem_singleton] at h
      exact h ▸ heG
  have hnd' : (removeEdge T x y ++ [e]).Nodup := by
    rw [List.nodup_append]
    refine ⟨?_, List.nodup_singleton e, ?_⟩
    · rw [herase]
      exact hTnd.erase g
    · intro f hf hfe
      rw [List.mem_singleton] at hfe
      exact heR (hfe ▸ hf)
  have hTxy : Reach (removeEdge T x y ++ [e]) x y := by
    have h1 : Reach (removeEdge T x y ++ [e]) x a :=
      reach_symm (reach_mono (fun f hf => List.mem_append_left _ hf) hpre)
    have h2 : adjRel (removeEdge T x y ++ [e]) a b :=
      ⟨e, List.mem_append_right _ (List.mem_singleton.mpr rfl), habt⟩
    have h3 : Reach (removeEdge T x y ++ [e]) b y :=
      reach_symm (reach_mono (fun f hf => List.mem_append_left _ hf) hsuf)
    exact reach_trans (reach_trans h1
      (Relation.ReflTransGen.single h2)) h3
  have hpw' := pairwise_of_sub_nodup hwf hsub' hnd'
  have hwf' : Graph.WF ⟨G.nodes, removeEdge T x y ++ [e]⟩ :=
    WF_of_sub hwf hsub' hpw'
  have hwfT : Graph.WF ⟨G.nodes, T⟩ := WF_of_sub hwf hTsub hpwT
  have hconn' : is_connected ⟨G.nodes, removeEdge T x y ++ [e]⟩ = true := by
    obtain ⟨n0, rest, hn⟩ : ∃ n0 rest, G.nodes = n0 :: rest := by
      cases h : G.nodes with
      | nil => exact absurd h hwf.2.1
      | cons c l => exact ⟨c, l, rfl⟩
    rw [is_connected_iff hwf' hn]
    intro z hz
    have hz0 := (is_connected_iff hwfT hn).mp hTconn z hz
    exact reach_patch2 (fun f hf => List.mem_append_left _ hf) hTxy hz0
  have hlen' : (removeEdge T x y ++ [e]).length = G.nodes.length - 1 := by
    rw [List.length_append, List.length_singleton, herase,
      List.length_erase_of_mem hgT, hTlen]
    have hpos : 0 < T.length :=
      List.length_pos.mpr (List.ne_nil_of_mem hgT)
    omega
  have htot : totalW (removeEdge T x y ++ [e]) = totalW T - g.w + e.w := by
    rw [totalW_append, herase, totalW_erase hgT]
    simp [totalW]
  refine ⟨removeEdge T x y ++ [e], ⟨hsub', hnd', hconn', hlen'⟩, ?_, ?_, ?_⟩
  · rw [htot]
    have hle := hmin g (hTsub g hgT) hgcross
    omega
  · intro f hfF
    refine List.mem_append_left _ ?_
    rw [herase]
    have hne : f ≠ g := fun h => hgF (h ▸ hfF)
    exact (List.mem_erase_of_ne hne).mpr (hF f hfF)
  · exact List.mem_append_right _ (List.mem_singleton.mpr rfl)

/-- Every nonempty list has an element of minimal value. -/
theorem exists_min_by {α : Type} (f : α → Int) :
    ∀ (l : List α), l ≠ [] → ∃ a ∈ l, ∀ b ∈ l, f a ≤ f b := by
  intro l
  induction l with
  | nil => intro h; exact absurd rfl h
  | cons x xs ih =>
    intro _
    by_cases hxs : xs = []
    · refine ⟨x, List.mem_cons_self _ _, ?_⟩
      intro b hb
      rcases List.mem_cons.mp hb with rfl | hb
      · exact le_refl _
      · rw [hxs] at hb
        exact absurd hb (List.not_mem_nil b)
    · obtain ⟨a, ha, hmin⟩ := ih hxs
      by_cases hc : f x ≤ f a
      · refine ⟨x, List.mem_cons_self _ _, fun b hb => ?_⟩
        rcases List.mem_cons.mp hb with rfl | hb
        · exact le_refl _
        · exact le_trans hc (hmin b hb)
      · refine ⟨a, List.mem_cons_of_mem _ ha, fun b hb => ?_⟩
        rcases List.mem_cons.mp hb with rfl | hb
        · omega
        · exact hmin b hb

theorem nodup_of_pairwise {T : List Edge}
    (h : T.Pairwise (fun a b => ¬ (touches b a.u a.v = true))) :
    T.Nodup := by
  refine h.imp ?_
  intro a b hab heq
  refine hab ?_
  rw [heq]
  exact touches_self b

/-- The finite pool of spanning-tree candidates. -/
def spanCands (G : Graph) : List (List Edge) :=
  G.edges.sublists.filter
    (fun T => is_connected ⟨G.nodes, T⟩ &&
      (T.length == G.nodes.length - 1))

theorem mem_spanCands {G : Graph} {T : List Edge} :
    T ∈ spanCands G ↔ T.Sublist G.edges ∧
      is_connected ⟨G.nodes, T⟩ = true ∧
      T.length = G.nodes.length - 1 := by
  simp only [spanCands, List.mem_filter, List.mem_sublists,
    Bool.and_eq_true, beq_iff_eq]

theorem spanCand_SpanTree {G : Graph} (hwf : G.WF) {T : List Edge}
    (h : T ∈ spanCands G) : SpanTree G T := by
  obtain ⟨hsl, hconn, hlen⟩ := mem_spanCands.mp h
  exact ⟨fun f hf => hsl.subset hf, (edges_nodup hwf).sublist hsl,
    hconn, hlen⟩

/-- Connected standard graphs have a minimum spanning tree. -/
theorem exists_IsMST {G : Graph} (hwf : G.WF) (hstd : G.Std)
    (hconn : is_connected G = true) : ∃ T, IsMST G T := by
  obtain ⟨hp, hsubW, hpwW, hconnW, -⟩ :=
    reverseLoop_spec G hwf (sortEdgesDesc G.edges) G.edges [] 0
      (fun f hf => hf) hwf.2.2.2
      (by rw [List.append_nil]; exact (sortEdgesDesc_perm G.edges).symm)
      hconn (fun e he => absurd he (List.not_mem_nil e))
  have hlenW : (reverseLoopW G.nodes G.edges
      (sortEdgesDesc G.edges)).length = G.nodes.length - 1 := by
    rw [hp.length_eq]
    exact reverse_count hwf hstd hconn
  have hndW := nodup_of_pairwise hpwW
  obtain ⟨w0, hw1, hw2⟩ := hndW.subperm (fun x hx => hsubW x hx)
  have hcand : w0 ∈ spanCands G := by
    rw [mem_spanCands]
    refine ⟨hw2, ?_, ?_⟩
    · have hwfa : Graph.WF ⟨G.nodes, reverseLoopW G.nodes G.edges
          (sortEdgesDesc G.edges)⟩ := WF_of_sub hwf hsubW hpwW
      have hwfb : Graph.WF ⟨G.nodes, w0⟩ :=
        WF_of_sub hwf (fun f hf => hw2.subset hf)
          (hwf.2.2.2.sublist hw2)
      rw [is_connected_congr hwfb hwfa (fun f => hw1.mem_iff)]
      exact hconnW
    · rw [hw1.length_eq]
      exact hlenW
  obtain ⟨C, hC, hCmin⟩ :=
    exists_min_by totalW (spanCands G) (List.ne_nil_of_mem hcand)
  refine ⟨C, spanCand_SpanTree hwf hC, ?_⟩
  intro T' hT'
  obtain ⟨hsub', hnd', hconn', hlen'⟩ := hT'
  obtain ⟨l, hl1, hl2⟩ := hnd'.subperm (fun x hx => hsub' x hx)
  have hlcand : l ∈ spanCands G := by
    rw [mem_spanCands]
    refine ⟨hl2, ?_, ?_⟩
    · have hwf1 : Graph.WF ⟨G.nodes, T'⟩ :=
        WF_of_sub hwf hsub' (pairwise_of_sub_nodup hwf hsub' hnd')
      have hsubl : ∀ f ∈ l, f ∈ G.edges := fun f hf => hl2.subset hf
      have hwf2 : Graph.WF ⟨G.nodes, l⟩ :=
        WF_of_sub hwf hsubl (hwf.2.2.2.sublist hl2)
      rw [is_connected_congr hwf2 hwf1 (fun f => hl1.mem_iff)]
      exact hconn'
    · rw [hl1.length_eq]
      exact hlen'
  have h1 := hCmin l hlcand
  rw [totalW_perm hl1] at h1
  exact h1

theorem perm_of_sub_nodup_length {F T : List Edge} (hnd : F.Nodup)
    (hsub : ∀ x ∈ F, x ∈ T) (hlen : T.length ≤ F.length) : F.Perm T := by
  obtain ⟨l, hl1, hl2⟩ := hnd.subperm (fun x hx => hsub x hx)
  have hleq : l = T := hl2.eq_of_length_le (by rw [hl1.length_eq]; omega)
  rw [← hleq]
  exact hl1.symm

theorem IsMST_totalW_eq {G : Graph} {T1 T2 : List Edge}
    (h1 : IsMST G T1) (h2 : IsMST G T2) : totalW T1 = totalW T2 :=
  le_antisymm (h1.2 T2 h2.1) (h2.2 T1 h1.1)

/-- A duplicate-free sub-forest of an MST with `n - 1` edges carries
exactly the MST's weight. -/
theorem forest_complete {G : Graph} {F T : List Edge}
    (hT : IsMST G T) (hnd : F.Nodup) (hsub : ∀ x ∈ F, x ∈ T)
    (hlen : G.nodes.length - 1 ≤ F.length) :
    totalW F = totalW T := by
  refine totalW_perm (perm_of_sub_nodup_length hnd hsub ?_)
  rw [hT.1.2.2.2]
  exact hlen

/-- A chain from inside a cut to outside it crosses at some edge. -/
theorem reach_cross {E : List Edge} (S : Nat → Prop) :
    ∀ {a b : Nat}, Reach E a b → S a → ¬ S b →
    ∃ f ∈ E, (S f.u ∧ ¬ S f.v) ∨ (S f.v ∧ ¬ S f.u) := by
  intro a b h
  induction h with
  | refl => exact fun hSa hSb => absurd hSa hSb
  | tail hab hadj ih =>
    rename_i p q
    intro hSa hSq
    by_cases hSp : S p
    · obtain ⟨f, hf, ht⟩ := hadj
      simp only [touches, Bool.or_eq_true, Bool.and_eq_true, beq_iff_eq]
        at ht
      rcases ht with ⟨h1, h2⟩ | ⟨h1, h2⟩
      · exact ⟨f, hf, Or.inl ⟨h1.symm ▸ hSp, h2.symm ▸ hSq⟩⟩
      · exact ⟨f, hf, Or.inr ⟨h2.symm ▸ hSp, h1.symm ▸ hSq⟩⟩
    · exact ih hSa hSp

/-! ## Reverse-Delete computes a minimum spanning tree -/

/-- Non-increasing weight order. -/
def wge (a b : Edge) : Prop := b.w ≤ a.w

theorem insertDesc_sorted (e : Edge) (l : List Edge)
    (h : l.Sorted wge) : (insertDesc e l).Sorted wge := by
  induction l with
  | nil => simp [insertDesc, List.Sorted]
  | cons f fs ih =>
    simp only [insertDesc]
    rcases List.sorted_cons.mp h with ⟨hf, hfs⟩
    split
    · rename_i hlt
      refine List.sorted_cons.mpr ⟨?_, ih hfs⟩
      intro b hb
      rcases List.mem_cons.mp ((insertDesc_perm e fs).mem_iff.mp hb)
        with rfl | hb
      · exact le_of_lt hlt
      · exact hf b hb
    · rename_i hnlt
      refine List.sorted_cons.mpr ⟨?_, h⟩
      intro b hb
      rcases List.mem_cons.mp hb with rfl | hb
      · exact le_of_not_lt hnlt
      · exact le_trans (hf b hb) (le_of_not_lt hnlt)

theorem sortEdgesDesc_sorted (l : List Edge) :
    (sortEdgesDesc l).Sorted wge := by
  induction l with
  | nil => simp [sortEdgesDesc, List.Sorted]
  | cons e es ih => exact insertDesc_sorted e (sortEdgesDesc es) ih

/-- The Reverse-Delete accumulator tracks the weight of the accepted
list. -/
theorem reverseLoop_total (nodes : List Nat) :
    ∀ (queue work mst : List Edge),
    (reverseLoop nodes work queue mst (totalW mst)).2 =
      totalW (reverseLoop nodes work queue mst (totalW mst)).1 := by
  intro queue
  induction queue with
  | nil => intro work mst; rfl
  | cons e rest ih =>
    intro work mst
    simp only [reverseLoop]
    by_cases hc : is_connected ⟨nodes, removeEdge work e.u e.v⟩ = true
    · rw [if_pos hc]
      exact ih _ mst
    · rw [if_neg hc]
      have h : totalW mst + e.w = totalW (mst ++ [e]) := by
        rw [totalW_append]
        simp [totalW]
      rw [h]
      exact ih _ (mst ++ [e])

/-- Reverse-Delete's working graph always contains a minimum spanning
tree. -/
theorem reverseLoop_opt {G : Graph} (hwf : G.WF) (hstd : G.Std) :
    ∀ (queue work mst : List Edge),
    (∀ f ∈ work, f ∈ G.edges) →
    work.Pairwise (fun a b => ¬ (touches b a.u a.v = true)) →
    work.Perm (queue ++ mst) →
    is_connected ⟨G.nodes, work⟩ = true →
    (∀ e ∈ mst, is_connected ⟨G.nodes, removeEdge work e.u e.v⟩ = false) →
    queue.Sorted wge →
    (∃ T, IsMST G T ∧ ∀ f ∈ T, f ∈ work) →
    ∃ T, IsMST G T ∧ ∀ f ∈ T, f ∈ reverseLoopW G.nodes work queue := by
  intro queue
  induction queue with
  | nil =>
    intro work mst hsub hpw hperm hconn hess hsort hT
    exact hT
  | cons e rest ih =>
    intro work mst hsub hpw hperm hconn hess hsort hT
    obtain ⟨T, hTmst, hTsub⟩ := hT
    have hework : e ∈ work :=
      hperm.mem_iff.mpr (List.mem_append_left _ (List.mem_cons_self e rest))
    have heG : e ∈ G.edges := hsub e hework
    have herase : removeEdge work e.u e.v = work.erase e :=
      removeEdge_eq_erase hpw hework
    have hrsub : ∀ f ∈ removeEdge work e.u e.v, f ∈ work :=
      fun f hf => (mem_removeEdge.mp hf).1
    have hrsubG : ∀ f ∈ removeEdge work e.u e.v, f ∈ G.edges :=
      fun f hf => hsub f (hrsub f hf)
    have hrpw : (removeEdge work e.u e.v).Pairwise
        (fun a b => ¬ (touches b a.u a.v = true)) :=
      hpw.sublist (List.filter_sublist work)
    have hrperm : (removeEdge work e.u e.v).Perm (rest ++ mst) := by
      rw [herase]
      have h1 : (work.erase e).Perm (((e :: rest) ++ mst).erase e) :=
        hperm.erase e
      rwa [show (e :: rest) ++ mst = e :: (rest ++ mst) from rfl,
        List.erase_cons_head] at h1
    have hsort' : rest.Sorted wge := (List.sorted_cons.mp hsort).2
    have hwfW : Graph.WF ⟨G.nodes, work⟩ := WF_of_sub hwf hsub hpw
    have heta : (⟨e.u, e.v, e.w⟩ : Edge) = e := rfl
    simp only [reverseLoopW]
    by_cases hc : is_connected ⟨G.nodes, removeEdge work e.u e.v⟩ = true
    · rw [if_pos hc]
      have hess' : ∀ e0 ∈ mst, is_connected
          ⟨G.nodes, removeEdge (removeEdge work e.u e.v) e0.u e0.v⟩ =
          false := by
        intro e0 he0
        have hsub0 : ∀ f ∈ removeEdge (removeEdge work e.u e.v) e0.u e0.v,
            f ∈ removeEdge work e0.u e0.v := by
          intro f hf
          obtain ⟨hf1, hf2⟩ := mem_removeEdge.mp hf
          exact mem_removeEdge.mpr ⟨hrsub f hf1, hf2⟩
        by_contra hcontra
        rw [Bool.not_eq_false] at hcontra
        have hmono := is_connected_mono
          (WF_of_sub hwf (fun f hf => hrsubG f (mem_removeEdge.mp hf).1)
            (hrpw.sublist (List.filter_sublist _)))
          (WF_of_sub hwf (fun f hf => hsub f (mem_removeEdge.mp hf).1)
            (hpw.sublist (List.filter_sublist _)))
          hsub0 hcontra
        rw [hess e0 he0] at hmono
        exact Bool.false_ne_true hmono
      by_cases heT : e ∈ T
      · -- swap `e` out of the MST for a lighter surviving crossing edge
        obtain ⟨hTsubG, hTnd, hTconn, hTlen⟩ := hTmst.1
        have hTpw := pairwise_of_sub_nodup hwf hTsubG hTnd
        have hwfT : Graph.WF ⟨G.nodes, T⟩ := WF_of_sub hwf hTsubG hTpw
        have hTerase : removeEdge T e.u e.v = T.erase e :=
          removeEdge_eq_erase hTpw heT
        have hbr : ¬ Reach (removeEdge T e.u e.v) e.u e.v :=
          spantree_bridge hwf hstd hTsubG hTnd hTconn hTlen heT
        have hwfR : Graph.WF ⟨G.nodes, removeEdge work e.u e.v⟩ :=
          WF_of_sub hwf hrsubG hrpw
        obtain ⟨n0, rest0, hn⟩ : ∃ n0 rest0, G.nodes = n0 :: rest0 := by
          cases h : G.nodes with
          | nil => exact absurd h hwf.2.1
          | cons c l => exact ⟨c, l, rfl⟩
        have hreachR := (is_connected_iff hwfR hn).mp hc
        have hTreach := (is_connected_iff hwfT hn).mp hTconn
        have heuN : e.u ∈ G.nodes := (hwf.2.2.1 e heG).1
        have hevN : e.v ∈ G.nodes := (hwf.2.2.1 e heG).2.1
        have hRuv : Reach (removeEdge work e.u e.v) e.u e.v :=
          reach_trans (reach_symm (hreachR e.u heuN)) (hreachR e.v hevN)
        obtain ⟨f, hfR, hfcr⟩ := reach_cross
          (fun z => Reach (removeEdge T e.u e.v) e.u z) hRuv
          Relation.ReflTransGen.refl hbr
        have hfG : f ∈ G.edges := hrsubG f hfR
        -- edges surviving in `T` minus `e` never cross the cut
        have hclosed : ∀ g ∈ removeEdge T e.u e.v,
            (Reach (removeEdge T e.u e.v) e.u g.u ↔
             Reach (removeEdge T e.u e.v) e.u g.v) := by
          intro g hg
          constructor
          · intro h
            exact Relation.ReflTransGen.tail h ⟨g, hg, touches_self g⟩
          · intro h
            refine Relation.ReflTransGen.tail h ⟨g, hg, ?_⟩
            exact (touches_symm g g.v g.u).trans (touches_self g)
        have hfneq : f ≠ e := by
          intro hfe
          have := (mem_removeEdge.mp hfR).2
          rw [hfe] at this
          rw [touches_self e] at this
          cases this
        have hfT : f ∉ T := by
          intro hfT
          have hfTe : f ∈ removeEdge T e.u e.v := by
            rw [hTerase]
            exact (List.mem_erase_of_ne hfneq).mpr hfT
          rcases hfcr with ⟨h1, h2⟩ | ⟨h1, h2⟩
          · exact h2 ((hclosed f hfTe).mp h1)
          · exact h2 ((hclosed f hfTe).mpr h1)
        -- f is still in the descending queue, so it is not heavier
        have hfwork : f ∈ work := hrsub f hfR
        have hfle : f.w ≤ e.w := by
          rcases List.mem_append.mp (hperm.mem_iff.mp hfwork) with hf1 | hf1
          · rcases List.mem_cons.mp hf1 with hfe | hf1
            · exact absurd hfe hfneq
            · exact (List.sorted_cons.mp hsort).1 f hf1
          · -- an accepted edge is in every MST of the working graph
            exfalso
            apply hfT
            by_contra hfT'
            have hTsubR : ∀ g ∈ T, g ∈ removeEdge work f.u f.v := by
              intro g hg
              refine mem_removeEdge.mpr ⟨hTsub g hg, ?_⟩
              cases hgt : touches g f.u f.v with
              | false => rfl
              | true =>
                exfalso
                exact hfT' ((edge_pair_unique hwf hfG
                  (hTsubG g hg) hgt).symm ▸ hg)
            have hmono := is_connected_mono hwfT
              (WF_of_sub hwf (fun g hg => hsub g (mem_removeEdge.mp hg).1)
                (hpw.sublist (List.filter_sublist _)))
              hTsubR hTconn
            rw [hess f hf1] at hmono
            exact Bool.false_ne_true hmono
        -- the swapped tree
        obtain ⟨p, q, hpq, hSp, hSq⟩ :
            ∃ p q, touches f p q = true ∧
              Reach (removeEdge T e.u e.v) e.u p ∧
              ¬ Reach (removeEdge T e.u e.v) e.u q := by
          rcases hfcr with ⟨h1, h2⟩ | ⟨h1, h2⟩
          · exact ⟨f.u, f.v, touches_self f, h1, h2⟩
          · exact ⟨f.v, f.u,
              (touches_symm f f.v f.u).trans (touches_self f), h1, h2⟩
        have hqN : q ∈ G.nodes := by
          have h1 := hwf.2.2.1 f hfG
          simp only [touches, Bool.or_eq_true, Bool.and_eq_true,
            beq_iff_eq] at hpq
          rcases hpq with ⟨-, h2⟩ | ⟨h2, -⟩
          · exact h2 ▸ h1.2.1
          · exact h2 ▸ h1.1
        have hsplitq : Reach (removeEdge T e.u e.v) e.v q := by
          have hq0 : Reach T e.u q :=
            reach_trans (reach_symm (hTreach e.u heuN)) (hTreach q hqN)
          rcases reach_split hq0 with h | h
          · exact absurd h hSq
          · exact h
        have hT'sub : ∀ g ∈ removeEdge T e.u e.v ++ [f], g ∈ G.edges := by
          intro g hg
          rcases List.mem_append.mp hg with h | h
          · exact hTsubG g ((mem_removeEdge.mp h).1)
          · rw [List.mem_singleton.mp h]
            exact hfG
        have hT'nd : (removeEdge T e.u e.v ++ [f]).Nodup := by
          rw [List.nodup_append]
          refine ⟨?_, List.nodup_singleton f, ?_⟩
          · rw [hTerase]
            exact hTnd.erase e
          · intro g hg hgf
            rw [List.mem_singleton] at hgf
            exact hfT (hgf ▸ (mem_removeEdge.mp hg).1)
        have hT'pw := pairwise_of_sub_nodup hwf hT'sub hT'nd
        have hwfT' : Graph.WF ⟨G.nodes, removeEdge T e.u e.v ++ [f]⟩ :=
          WF_of_sub hwf hT'sub hT'pw
        have hTxy : Reach (removeEdge T e.u e.v ++ [f]) e.u e.v := by
          have h1 : Reach (removeEdge T e.u e.v ++ [f]) e.u p :=
            reach_mono (fun g hg => List.mem_append_left _ hg) hSp
          have h2 : adjRel (removeEdge T e.u e.v ++ [f]) p q :=
            ⟨f, List.mem_append_right _ (List.mem_singleton.mpr rfl), hpq⟩
          have h3 : Reach (removeEdge T e.u e.v ++ [f]) q e.v :=
            reach_symm (reach_mono
              (fun g hg => List.mem_append_left _ hg) hsplitq)
          exact reach_trans (reach_trans h1
            (Relation.ReflTransGen.single h2)) h3
        have hT'conn : is_connected
            ⟨G.nodes, removeEdge T e.u e.v ++ [f]⟩ = true := by
          rw [is_connected_iff hwfT' hn]
          intro z hz
          exact reach_patch2 (fun g hg => List.mem_append_left _ hg)
            hTxy (hTreach z hz)
        have hT'len : (removeEdge T e.u e.v ++ [f]).length =
            G.nodes.length - 1 := by
          rw [List.length_append, List.length_singleton, hTerase,
            List.length_erase_of_mem heT, hTlen]
          have hpos : 0 < T.length :=
            List.length_pos.mpr (List.ne_nil_of_mem heT)
          omega
        have hT'tot : totalW (removeEdge T e.u e.v ++ [f]) =
            totalW T - e.w + f.w := by
          rw [totalW_append, hTerase, totalW_erase heT]
          simp [totalW]
        have hT'min : IsMST G (removeEdge T e.u e.v ++ [f]) := by
          refine ⟨⟨hT'sub, hT'nd, hT'conn, hT'len⟩, ?_⟩
          intro T'' hT''
          have h1 := hTmst.2 T'' hT''
          rw [hT'tot]
          omega
        refine ih (removeEdge work e.u e.v) mst hrsubG hrpw hrperm hc
          hess' hsort' ⟨removeEdge T e.u e.v ++ [f], hT'min, ?_⟩
        intro g hg
        rcases List.mem_append.mp hg with h | h
        · obtain ⟨hg1, hg2⟩ := mem_removeEdge.mp h
          exact mem_removeEdge.mpr ⟨hTsub g hg1, hg2⟩
        · rw [List.mem_singleton.mp h]
          exact hfR
      · -- the MST avoids `e`; it survives the deletion untouched
        refine ih (removeEdge work e.u e.v) mst hrsubG hrpw hrperm hc
          hess' hsort' ⟨T, hTmst, ?_⟩
        intro g hgT
        refine mem_removeEdge.mpr ⟨hTsub g hgT, ?_⟩
        cases hgt : touches g e.u e.v with
        | false => rfl
        | true =>
          exfalso
          exact heT ((edge_pair_unique hwf heG
            (hTmst.1.1 g hgT) hgt).symm ▸ hgT)
    · rw [if_neg hc, heta]
      -- kept branch: working members unchanged
      have hsub' : ∀ f ∈ removeEdge work e.u e.v ++ [e], f ∈ G.edges := by
        intro f hf
        rcases List.mem_append.mp hf with hf | hf
        · exact hrsubG f hf
        · rw [List.mem_singleton.mp hf]
          exact heG
      have hpw' : (removeEdge work e.u e.v ++ [e]).Pairwise
          (fun a b => ¬ (touches b a.u a.v = true)) := by
        rw [List.pairwise_append]
        refine ⟨hrpw, List.pairwise_singleton _ _, ?_⟩
        intro f hf g hg
        rw [List.mem_singleton.mp hg]
        intro hcon
        exact absurd ((touches_flip e f) ▸ hcon)
          (by simpa using (mem_removeEdge.mp hf).2)
      have hperm' : (removeEdge work e.u e.v ++ [e]).Perm
          (rest ++ (mst ++ [e])) := by
        have h1 := hrperm.append_right [e]
        rwa [List.append_assoc] at h1
      have hmemiff : ∀ f, f ∈ removeEdge work e.u e.v ++ [e] ↔
          f ∈ work := by
        intro f
        constructor
        · intro hf
          rcases List.mem_append.mp hf with hf | hf
          · exact hrsub f hf
          · rw [List.mem_singleton.mp hf]
            exact hework
        · intro hf
          by_cases ht : touches f e.u e.v = true
          · have hfe : f = e := by
              by_contra hne
              exact (hpw.forall pairwiseSymm hework hf
                (fun hh => hne hh.symm)) ((touches_flip f e) ▸ ht)
            rw [hfe]
            exact List.mem_append_right _ (List.mem_singleton_self e)
          · exact List.mem_append_left _
              (mem_removeEdge.mpr ⟨hf, Bool.not_eq_true _ ▸
                (Bool.eq_false_iff.mpr (fun h => ht h))⟩)
      have hwfW' : Graph.WF ⟨G.nodes, removeEdge work e.u e.v ++ [e]⟩ :=
        WF_of_sub hwf hsub' hpw'
      have hconn' : is_connected
          ⟨G.nodes, removeEdge work e.u e.v ++ [e]⟩ = true := by
        rw [is_connected_congr hwfW' hwfW hmemiff]
        exact hconn
      have hess' : ∀ e0 ∈ mst ++ [e],
          is_connected ⟨G.nodes,
            removeEdge (removeEdge work e.u e.v ++ [e]) e0.u e0.v⟩ =
            false := by
        intro e0 he0
        have hiff0 : ∀ f, f ∈ removeEdge (removeEdge work e.u e.v ++ [e])
            e0.u e0.v ↔ f ∈ removeEdge work e0.u e0.v := by
          intro f
          rw [mem_removeEdge, mem_removeEdge, hmemiff f]
        rw [is_connected_congr
          (WF_of_sub hwf (fun f hf => hsub' f (mem_removeEdge.mp hf).1)
            (hpw'.sublist (List.filter_sublist _)))
          (WF_of_sub hwf (fun f hf => hsub f (mem_removeEdge.mp hf).1)
            (hpw.sublist (List.filter_sublist _)))
          hiff0]
        rcases List.mem_append.mp he0 with he0 | he0
        · exact hess e0 he0
        · rw [List.mem_singleton.mp he0]
          exact Bool.not_eq_true _ ▸ (Bool.eq_false_iff.mpr (fun h => hc h))
      refine ih (removeEdge work e.u e.v ++ [e]) (mst ++ [e])
        hsub' hpw' hperm' hconn' hess' hsort' ⟨T, hTmst, ?_⟩
      intro g hg
      exact (hmemiff g).mpr (hTsub g hg)

/-- Reverse-Delete returns a minimum spanning tree together with its
weight. -/
theorem reverse_delete_opt {G : Graph} (hwf : G.WF) (hstd : G.Std)
    (hconn : is_connected G = true) :
    ∃ T, IsMST G T ∧ (reverse_delete_mst G).1.Perm T ∧
      (reverse_delete_mst G).2 = totalW T := by
  obtain ⟨T0, hT0⟩ := exists_IsMST hwf hstd hconn
  have hwfG : Graph.WF ⟨G.nodes, G.edges⟩ := hwf
  have hconnG : is_connected ⟨G.nodes, G.edges⟩ = true := hconn
  have hperm0 : G.edges.Perm (sortEdgesDesc G.edges ++ []) := by
    rw [List.append_nil]
    exact (sortEdgesDesc_perm G.edges).symm
  obtain ⟨T, hTmst, hTsub⟩ := reverseLoop_opt hwf hstd
    (sortEdgesDesc G.edges) G.edges [] (fun f hf => hf) hwf.2.2.2
    hperm0 hconnG (fun e he => absurd he (List.not_mem_nil e))
    (sortEdgesDesc_sorted G.edges) ⟨T0, hT0, hT0.1.1⟩
  obtain ⟨hp, -, -, -, -⟩ := reverseLoop_spec G hwf
    (sortEdgesDesc G.edges) G.edges [] 0 (fun f hf => hf) hwf.2.2.2
    hperm0 hconnG (fun e he => absurd he (List.not_mem_nil e))
  have hres : reverse_delete_mst G =
      reverseLoop G.nodes G.edges (sortEdgesDesc G.edges) [] 0 := rfl
  have hlenW : (reverseLoopW G.nodes G.edges (sortEdgesDesc G.edges)).length
      = G.nodes.length - 1 := by
    rw [hp.length_eq]
    rw [← hres]
    exact reverse_count hwf hstd hconn
  have hpermT : (reverseLoopW G.nodes G.edges
      (sortEdgesDesc G.edges)).Perm T := by
    refine (perm_of_sub_nodup_length hTmst.1.2.1 hTsub ?_).symm
    rw [hlenW, hTmst.1.2.2.2]
  refine ⟨T, hTmst, hp.symm.trans hpermT, ?_⟩
  have htot : (reverseLoop G.nodes G.edges (sortEdgesDesc G.edges)
      [] (totalW [])).2 = totalW (reverseLoop G.nodes G.edges
      (sortEdgesDesc G.edges) [] (totalW [])).1 :=
    reverseLoop_total G.nodes (sortEdgesDesc G.edges) G.edges []
  have hzero : totalW ([] : List Edge) = 0 := rfl
  rw [hzero] at htot
  rw [hres, htot]
  exact totalW_perm (hp.symm.trans hpermT)

/-! ## Kruskal computes a minimum spanning tree -/

/-- `union` reports a merge exactly when the endpoints were in distinct
classes. -/
theorem union_merge_iff {n : Nat} (d : DSU) (x y : Nat)
    (hInv : DSUInv n d) :
    ((d.union x y).2 = true ↔ ¬ sameRoot d.parent x y) := by
  obtain ⟨hfx_root, hfx_inv, hfx_pres, hfx_iff, hfx_len, hfx_rank⟩ :=
    find_spec d x hInv
  obtain ⟨hfy_root0, hfy_inv, hfy_pres, hfy_iff, hfy_len, hfy_rank⟩ :=
    find_spec (d.find x).1 y hfx_inv
  obtain ⟨s, hs⟩ := hInv.grounded y
  have hyroot : RootedAt d.parent y ((d.find x).1.find y).2 :=
    ((hfx_pres y s hs).unique hfy_root0) ▸ hs
  have hsr : sameRoot d.parent x y ↔
      (d.find x).2 = ((d.find x).1.find y).2 := by
    constructor
    · rintro ⟨r, h1, h2⟩
      rw [← h1.unique hfx_root, ← h2.unique hyroot]
    · intro h
      exact ⟨(d.find x).2, hfx_root, h ▸ hyroot⟩
  rw [hsr]
  by_cases hne : (d.find x).2 = ((d.find x).1.find y).2
  · have hu : (d.union x y).2 = false := by
      simp only [DSU.union]
      rw [if_neg (by simpa using hne)]
    rw [hu]
    simp [hne]
  · have hu : (d.union x y).2 = true := by
      simp only [DSU.union]
      rw [if_pos (by simpa using hne)]
      split
      · rfl
      · split <;> rfl
    rw [hu]
    simp [hne]

/-- The Kruskal scan keeps a forest extendable to a minimum spanning
tree, with the accumulator tracking its weight. -/
theorem kruskalScan_opt {G : Graph} (hwf : G.WF) (hstd : G.Std) :
    ∀ (es : List Edge) (d : DSU) (F : List Edge),
    DSUInv G.nodes.length d →
    es.Sorted wle →
    (∀ e ∈ es, e ∈ G.edges) →
    (∀ g ∈ G.edges, g ∈ es ∨ sameRoot d.parent g.u g.v) →
    (∀ f ∈ F, sameRoot d.parent f.u f.v) →
    F.Nodup →
    (∃ T, IsMST G T ∧ ∀ f ∈ F, f ∈ T) →
    ∃ T, IsMST G T ∧
      (∀ f ∈ (kruskalScan es d F (totalW F)).1, f ∈ T) ∧
      (kruskalScan es d F (totalW F)).1.Nodup ∧
      (kruskalScan es d F (totalW F)).2 =
        totalW (kruskalScan es d F (totalW F)).1 := by
  have hendn : ∀ e ∈ G.edges,
      e.u < G.nodes.length ∧ e.v < G.nodes.length := by
    intro e he
    obtain ⟨h1, h2, -⟩ := hwf.2.2.1 e he
    have h : G.nodes = List.range G.nodes.length := hstd
    rw [h] at h1 h2
    exact ⟨List.mem_range.mp h1, List.mem_range.mp h2⟩
  intro es
  induction es with
  | nil =>
    intro d F hInv hsort hsub hcov hFsame hFnd hT
    obtain ⟨T, hT1, hT2⟩ := hT
    exact ⟨T, hT1, hT2, hFnd, rfl⟩
  | cons e es ih =>
    intro d F hInv hsort hsub hcov hFsame hFnd hT
    have heG : e ∈ G.edges := hsub e (List.mem_cons_self e es)
    obtain ⟨hu, hv⟩ := hendn e heG
    obtain ⟨hInv', hpres, hsame, -⟩ := union_spec d e.u e.v hInv hu hv
    have hsort' : es.Sorted wle := (List.sorted_cons.mp hsort).2
    have hsub' : ∀ f ∈ es, f ∈ G.edges :=
      fun f hf => hsub f (List.mem_cons_of_mem e hf)
    have hcov' : ∀ g ∈ G.edges, g ∈ es ∨
        sameRoot (d.union e.u e.v).1.parent g.u g.v := by
      intro g hg
      rcases hcov g hg with hg' | hg'
      · rcases List.mem_cons.mp hg' with rfl | hg''
        · exact Or.inr hsame
        · exact Or.inl hg''
      · exact Or.inr (hpres _ _ hg')
    by_cases hb : (d.union e.u e.v).2 = true
    · have hnots : ¬ sameRoot d.parent e.u e.v :=
        (union_merge_iff d e.u e.v hInv).mp hb
      have hFsame' : ∀ f ∈ F ++ [e],
          sameRoot (d.union e.u e.v).1.parent f.u f.v := by
        intro f hf
        rcases List.mem_append.mp hf with hf | hf
        · exact hpres _ _ (hFsame f hf)
        · rw [List.mem_singleton.mp hf]
          exact hsame
      have heF : e ∉ F := fun heF => hnots (hFsame e heF)
      have hFnd' : (F ++ [e]).Nodup := by
        rw [List.nodup_append]
        refine ⟨hFnd, List.nodup_singleton e, ?_⟩
        intro g hg hge
        rw [List.mem_singleton] at hge
        exact heF (hge ▸ hg)
      obtain ⟨T, hT1, hT2⟩ := hT
      obtain ⟨r0, hr0⟩ := hInv.grounded e.u
      have hmin : ∀ g ∈ G.edges,
          ((sameRoot d.parent g.u e.u ∧ ¬ sameRoot d.parent g.v e.u) ∨
           (sameRoot d.parent g.v e.u ∧ ¬ sameRoot d.parent g.u e.u)) →
          e.w ≤ g.w := by
        intro g hg hcrg
        have hng : ¬ sameRoot d.parent g.u g.v := by
          intro hsg
          rcases hcrg with ⟨h1, h2⟩ | ⟨h1, h2⟩
          · exact h2 (sameRoot_trans (sameRoot_symm hsg) h1)
          · exact h2 (sameRoot_trans hsg h1)
        rcases hcov g hg with hg' | hg'
        · rcases List.mem_cons.mp hg' with rfl | hg''
          · exact le_refl _
          · exact (List.sorted_cons.mp hsort).1 g hg''
        · exact absurd hg' hng
      obtain ⟨T', hT'span, hT'le, hT'F, hT'e⟩ := exchange_cut hwf hstd
        hT1.1 (fun z => sameRoot d.parent z e.u) heG
        (Or.inl ⟨⟨r0, hr0, hr0⟩, fun h => hnots (sameRoot_symm h)⟩)
        hmin hT2
        (fun f hf =>
          ⟨fun h => sameRoot_trans (sameRoot_symm (hFsame f hf)) h,
           fun h => sameRoot_trans (hFsame f hf) h⟩)
      have hT'mst : IsMST G T' :=
        ⟨hT'span, fun C hC => le_trans hT'le (hT1.2 C hC)⟩
      have hT'sub : ∀ f ∈ F ++ [e], f ∈ T' := by
        intro f hf
        rcases List.mem_append.mp hf with hf | hf
        · exact hT'F f hf
        · rw [List.mem_singleton.mp hf]
          exact hT'e
      have hscan : kruskalScan (e :: es) d F (totalW F) =
          kruskalScan es (d.union e.u e.v).1 (F ++ [e])
            (totalW (F ++ [e])) := by
        simp only [kruskalScan]
        rw [if_pos hb, totalW_append]
        simp [totalW]
      rw [hscan]
      exact ih (d.union e.u e.v).1 (F ++ [e]) hInv' hsort' hsub' hcov'
        hFsame' hFnd' ⟨T', hT'mst, hT'sub⟩
    · have hFsame' : ∀ f ∈ F,
          sameRoot (d.union e.u e.v).1.parent f.u f.v :=
        fun f hf => hpres _ _ (hFsame f hf)
      have hscan : kruskalScan (e :: es) d F (totalW F) =
          kruskalScan es (d.union e.u e.v).1 F (totalW F) := by
        simp only [kruskalScan]
        rw [if_neg hb]
      rw [hscan]
      exact ih (d.union e.u e.v).1 F hInv' hsort' hsub' hcov'
        hFsame' hFnd hT

/-- Kruskal returns a minimum spanning tree together with its weight. -/
theorem kruskal_opt {G : Graph} (hwf : G.WF) (hstd : G.Std)
    (hconn : is_connected G = true) :
    ∃ T, IsMST G T ∧ (kruskal_mst G).1.Perm T ∧
      (kruskal_mst G).2 = totalW T := by
  obtain ⟨T0, hT0⟩ := exists_IsMST hwf hstd hconn
  obtain ⟨T, hTmst, hTsub, hTnd, hTtot⟩ := kruskalScan_opt hwf hstd
    (sortEdgesAsc G.edges) (DSU.init G.nodes.length) []
    (DSUInv_init _) (sortEdgesAsc_sorted G.edges)
    (fun e he => (sortEdgesAsc_perm G.edges).mem_iff.mp he)
    (fun g hg => Or.inl ((sortEdgesAsc_perm G.edges).mem_iff.mpr hg))
    (fun f hf => absurd hf (List.not_mem_nil f))
    List.nodup_nil ⟨T0, hT0, fun f hf => absurd hf (List.not_mem_nil f)⟩
  have h0 : totalW ([] : List Edge) = 0 := rfl
  rw [h0] at hTsub hTnd hTtot
  have hk : kruskal_mst G = kruskalScan (sortEdgesAsc G.edges)
      (DSU.init G.nodes.length) [] 0 := rfl
  rw [← hk] at hTsub hTnd hTtot
  have hperm : (kruskal_mst G).1.Perm T := by
    refine perm_of_sub_nodup_length hTnd hTsub ?_
    have h1 := kruskal_count hwf hstd hconn
    have h2 := hTmst.1.2.2.2
    omega
  exact ⟨T, hTmst, hperm, by rw [hTtot]; exact totalW_perm hperm⟩

/-! ## Prim computes a minimum spanning tree -/

theorem entryLe_total (a b : HeapEntry) :
    entryLe a b = true ∨ entryLe b a = true := by
  simp only [entryLe, decide_eq_true_eq]
  omega

theorem entryLe_trans {a b c : HeapEntry} (h1 : entryLe a b = true)
    (h2 : entryLe b c = true) : entryLe a c = true := by
  simp only [entryLe, decide_eq_true_eq] at h1 h2 ⊢
  omega

theorem entryLe_w {a b : HeapEntry} (h : entryLe a b = true) :
    a.1 ≤ b.1 := by
  simp only [entryLe, decide_eq_true_eq] at h
  omega

theorem heapPush_sorted {h : List HeapEntry} {e : HeapEntry}
    (hs : h.Sorted (fun a b => entryLe a b = true)) :
    (heapPush h e).Sorted (fun a b => entryLe a b = true) := by
  induction h with
  | nil => simp [heapPush, List.Sorted]
  | cons f fs ih =>
    simp only [heapPush]
    rcases List.sorted_cons.mp hs with ⟨hf, hfs⟩
    by_cases hc : entryLe f e = true
    · rw [if_pos hc]
      refine List.sorted_cons.mpr ⟨?_, ih hfs⟩
      intro b hb
      rcases mem_heapPush.mp hb with hb | rfl
      · exact hf b hb
      · exact hc
    · rw [if_neg hc]
      refine List.sorted_cons.mpr ⟨?_, hs⟩
      intro b hb
      have he : entryLe e f = true := (entryLe_total e f).resolve_right hc
      rcases List.mem_cons.mp hb with rfl | hb
      · exact he
      · exact entryLe_trans he (hf b hb)

theorem pushFrom_sorted {v : Nat} {vis : List Nat} :
    ∀ (adj : List (Nat × Int)) (heap : List HeapEntry)
      (seen : List (Nat × Nat)),
    heap.Sorted (fun a b => entryLe a b = true) →
    (pushFrom v vis adj heap seen).1.Sorted
      (fun a b => entryLe a b = true) := by
  intro adj
  induction adj with
  | nil => intro heap seen hs; exact hs
  | cons p tl ih =>
    intro heap seen hs
    obtain ⟨u, w⟩ := p
    simp only [pushFrom]
    by_cases h1 : u ∈ vis
    · rw [if_pos h1]; exact ih _ _ hs
    · rw [if_neg h1]
      by_cases h2 : normEdge v u ∈ seen
      · rw [if_pos h2]; exact ih _ _ hs
      · rw [if_neg h2]; exact ih _ _ (heapPush_sorted hs)

/-- Every queue entry produced by `pushFrom` carries its weight from the
adjacency list. -/
theorem pushFrom_entries2 {v : Nat} {vis : List Nat} :
    ∀ (adj : List (Nat × Int)) (heap : List HeapEntry)
      (seen : List (Nat × Nat)) {q : HeapEntry},
    q ∈ (pushFrom v vis adj heap seen).1 →
    q ∈ heap ∨ (q.2.1 = v ∧ (q.2.2, q.1) ∈ adj) := by
  intro adj
  induction adj with
  | nil => intro heap seen q hq; exact Or.inl hq
  | cons p tl ih =>
    intro heap seen q hq
    obtain ⟨u, w⟩ := p
    simp only [pushFrom] at hq
    by_cases h1 : u ∈ vis
    · rw [if_pos h1] at hq
      rcases ih _ _ hq with h | ⟨h2, h3⟩
      · exact Or.inl h
      · exact Or.inr ⟨h2, List.mem_cons_of_mem _ h3⟩
    · rw [if_neg h1] at hq
      by_cases h2 : normEdge v u ∈ seen
      · rw [if_pos h2] at hq
        rcases ih _ _ hq with h | ⟨h3, h4⟩
        · exact Or.inl h
        · exact Or.inr ⟨h3, List.mem_cons_of_mem _ h4⟩
      · rw [if_neg h2] at hq
        rcases ih _ _ hq with h | ⟨h3, h4⟩
        · rcases mem_heapPush.mp h with h' | h'
          · exact Or.inl h'
          · refine Or.inr ⟨?_, ?_⟩
            · rw [h']
            · rw [h']
              show (u, w) ∈ (u, w) :: tl
              exact List.mem_cons_self _ _
        · exact Or.inr ⟨h3, List.mem_cons_of_mem _ h4⟩

/-- The output tuples of Prim shadow actual graph edges of the same
weight on the same node pair. -/
def shadows (m g : Edge) : Prop :=
  m.w = g.w ∧ touches g m.u m.v = true

theorem forall2_shadows_append {ms gs : List Edge}
    (h : List.Forall₂ shadows ms gs) {m g : Edge} (hmg : shadows m g) :
    List.Forall₂ shadows (ms ++ [m]) (gs ++ [g]) := by
  induction h with
  | nil => exact List.Forall₂.cons hmg List.Forall₂.nil
  | cons h1 h2 ih => exact List.Forall₂.cons h1 ih

theorem forall2_totalW {ms gs : List Edge}
    (h : List.Forall₂ shadows ms gs) : totalW ms = totalW gs := by
  induction h with
  | nil => rfl
  | cons h1 h2 ih =>
    simp only [totalW, List.map_cons, List.sum_cons] at ih ⊢
    rw [h1.1, ih]

/-- Invariant-carrying induction for `primLoop` optimality: the accepted
tuples shadow a forest inside some minimum spanning tree, and the
accumulator tracks the accepted weight. -/
theorem primLoop_opt_aux {G : Graph} (hwf : G.WF)
    (hreach : ∀ x ∈ G.nodes, Reach G.edges 0 x) (hstd : G.Std) :
    ∀ (k : Nat) (heap : List HeapEntry) (visited : List Nat)
      (seen : List (Nat × Nat)) (mst F2 : List Edge),
    G.nodes.length - visited.length ≤ k →
    0 ∈ visited →
    visited.Nodup →
    (∀ x ∈ visited, x ∈ G.nodes) →
    (∀ q ∈ heap, q.2.1 ∈ visited ∧ q.2.2 ∈ G.nodes) →
    (∀ p ∈ seen, p.1 ∈ visited ∨ p.2 ∈ visited) →
    (∀ x y, adjRel G.edges x y → x ∈ visited → y ∉ visited →
      ∃ q ∈ heap, normEdge q.2.1 q.2.2 = normEdge x y) →
    heap.Sorted (fun a b => entryLe a b = true) →
    (∀ q ∈ heap, ∃ g ∈ G.edges, g.w = q.1 ∧
      touches g q.2.1 q.2.2 = true) →
    List.Forall₂ shadows mst F2 →
    F2.Nodup →
    (∀ f ∈ F2, f.u ∈ visited ∧ f.v ∈ visited) →
    (∃ T, IsMST G T ∧ ∀ f ∈ F2, f ∈ T) →
    ∃ T Fr, IsMST G T ∧ (∀ f ∈ Fr, f ∈ T) ∧ Fr.Nodup ∧
      List.Forall₂ shadows
        (primLoop G heap visited seen mst (totalW mst)).1 Fr ∧
      (primLoop G heap visited seen mst (totalW mst)).2 =
        totalW (primLoop G heap visited seen mst (totalW mst)).1 := by
  intro k
  induction k with
  | zero =>
    intro heap visited seen mst F2 hk h0 hnd hsub hq hs hcov hsort hval
      hshadow hFnd hFvis hT
    obtain ⟨T, hT1, hT2⟩ := hT
    have hle : visited.length ≤ G.nodes.length :=
      (hnd.subperm (fun _ h => hsub _ h)).length_le
    cases heap with
    | nil =>
      have hstep : primLoop G [] visited seen mst (totalW mst) =
          (mst, totalW mst) := by
        simp only [primLoop]
      rw [hstep]
      exact ⟨T, F2, hT1, hT2, hFnd, hshadow, rfl⟩
    | cons q rest =>
      obtain ⟨w, u, v⟩ := q
      have hstep : primLoop G ((w, u, v) :: rest) visited seen mst
          (totalW mst) = (mst, totalW mst) := by
        conv_lhs => rw [primLoop]
        rw [dif_neg (by omega : ¬ (visited.length < G.nodes.length))]
      rw [hstep]
      exact ⟨T, F2, hT1, hT2, hFnd, hshadow, rfl⟩
  | succ k ihk =>
    intro heap visited seen mst F2 hk h0 hnd hsub hq hs hcov hsort hval
      hshadow hFnd hFvis hT
    have hle : visited.length ≤ G.nodes.length :=
      (hnd.subperm (fun _ h => hsub _ h)).length_le
    revert hq hcov hsort hval
    induction heap with
    | nil =>
      intro hq hcov hsort hval
      obtain ⟨T, hT1, hT2⟩ := hT
      have hstep : primLoop G [] visited seen mst (totalW mst) =
          (mst, totalW mst) := by
        simp only [primLoop]
      rw [hstep]
      exact ⟨T, F2, hT1, hT2, hFnd, hshadow, rfl⟩
    | cons q rest ihh =>
      intro hq hcov hsort hval
      obtain ⟨w, u, v⟩ := q
      by_cases hg : visited.length < G.nodes.length
      · by_cases hv : v ∈ visited
        · -- lazy deletion: stale entry, both endpoints visited
          have hstep : primLoop G ((w, u, v) :: rest) visited seen mst
              (totalW mst) = primLoop G rest visited seen mst
              (totalW mst) := by
            conv_lhs => rw [primLoop]
            rw [dif_pos hg, if_pos hv]
          rw [hstep]
          refine ihh ?_ ?_ ?_ ?_
          · exact fun q' hq' => hq q' (List.mem_cons_of_mem _ hq')
          · intro x y hadj hx hy
            obtain ⟨qq, hqq, hp⟩ := hcov x y hadj hx hy
            rcases List.mem_cons.mp hqq with h | h
            · exfalso
              rw [h] at hp
              have hp' : normEdge u v = normEdge x y := hp
              rcases normEdge_eq_iff.mp hp' with ⟨h1, h2⟩ | ⟨h1, h2⟩
              · exact hy (h2 ▸ hv)
              · have hu : u ∈ visited := (hq _ (List.mem_cons_self _ _)).1
                exact hy (h1 ▸ hu)
            · exact ⟨qq, h, hp⟩
          · exact (List.sorted_cons.mp hsort).2
          · exact fun q' hq' => hval q' (List.mem_cons_of_mem _ hq')
        · -- accept the popped minimum edge, visit v, push its frontier
          have hstep : primLoop G ((w, u, v) :: rest) visited seen mst
              (totalW mst) = primLoop G
                (pushFrom v (visited ++ [v]) (G.adj v) rest seen).1
                (visited ++ [v])
                (pushFrom v (visited ++ [v]) (G.adj v) rest seen).2
                (mst ++ [⟨u, v, w⟩]) (totalW mst + w) := by
            conv_lhs => rw [primLoop]
            rw [dif_pos hg, if_neg hv]
          have haccum : totalW mst + w = totalW (mst ++ [⟨u, v, w⟩]) := by
            rw [totalW_append]
            simp [totalW]
          rw [hstep, haccum]
          have hvnode : v ∈ G.nodes := (hq _ (List.mem_cons_self _ _)).2
          have hu_vis : u ∈ visited := (hq _ (List.mem_cons_self _ _)).1
          -- the real graph edge shadowed by the popped entry
          obtain ⟨g, hgG, hgw, hgt⟩ := hval _ (List.mem_cons_self _ _)
          have hgtc := hgt
          simp only [touches, Bool.or_eq_true, Bool.and_eq_true,
            beq_iff_eq] at hgtc
          have hcr : (g.u ∈ visited ∧ g.v ∉ visited) ∨
              (g.v ∈ visited ∧ g.u ∉ visited) := by
            rcases hgtc with ⟨h1, h2⟩ | ⟨h1, h2⟩
            · exact Or.inl ⟨h1.symm ▸ hu_vis, fun hc => hv (h2 ▸ hc)⟩
            · exact Or.inr ⟨h2.symm ▸ hu_vis, fun hc => hv (h1 ▸ hc)⟩
          -- minimality of the popped entry over the visited cut
          have hmin : ∀ g' ∈ G.edges,
              ((g'.u ∈ visited ∧ g'.v ∉ visited) ∨
               (g'.v ∈ visited ∧ g'.u ∉ visited)) → g.w ≤ g'.w := by
            intro g' hg' hcrg
            have hkey : ∀ x y, touches g' x y = true → x ∈ visited →
                y ∉ visited → g.w ≤ g'.w := by
              intro x y hxyt hx hy
              obtain ⟨qq, hqq, hp⟩ := hcov x y ⟨g', hg', hxyt⟩ hx hy
              obtain ⟨g2, hg2G, hg2w, hg2t⟩ := hval qq hqq
              have ht2 : touches g2 x y = true := by
                rcases normEdge_eq_iff.mp hp with ⟨h1, h2⟩ | ⟨h1, h2⟩
                · exact h1 ▸ h2 ▸ hg2t
                · exact (touches_symm g2 x y).trans (h1 ▸ h2 ▸ hg2t)
              have ht3 : touches g2 g'.u g'.v = true := by
                have hxyt' := hxyt
                simp only [touches, Bool.or_eq_true, Bool.and_eq_true,
                  beq_iff_eq] at hxyt'
                rcases hxyt' with ⟨h1, h2⟩ | ⟨h1, h2⟩
                · exact h1 ▸ h2 ▸ ht2
                · exact (touches_symm g2 g'.u g'.v).trans (h1 ▸ h2 ▸ ht2)
              have hg'g2 : g' = g2 := edge_pair_unique hwf hg' hg2G ht3
              have hw3 : g'.w = g2.w := congrArg Edge.w hg'g2
              rcases List.mem_cons.mp hqq with hh | hqr
              · have hw4 : g2.w = w := by rw [hh] at hg2w; exact hg2w
                omega
              · have hle' : entryLe (w, u, v) qq = true :=
                  (List.sorted_cons.mp hsort).1 qq hqr
                have h4 : (w : Int) ≤ qq.1 := entryLe_w hle'
                have h2 := hg2w
                omega
            rcases hcrg with ⟨hx, hy⟩ | ⟨hx, hy⟩
            · exact hkey g'.u g'.v (touches_self g') hx hy
            · exact hkey g'.v g'.u
                ((touches_symm g' g'.v g'.u).trans (touches_self g'))
                hx hy
          obtain ⟨T, hT1, hT2⟩ := hT
          obtain ⟨T', hT'span, hT'le, hT'F, hT'e⟩ := exchange_cut hwf hstd
            hT1.1 (fun z => z ∈ visited) hgG hcr hmin hT2
            (fun f hf => ⟨fun _ => (hFvis f hf).2, fun _ => (hFvis f hf).1⟩)
          have hT'mst : IsMST G T' :=
            ⟨hT'span, fun C hC => le_trans hT'le (hT1.2 C hC)⟩
          have hgvis : g.u ∈ visited ++ [v] ∧ g.v ∈ visited ++ [v] := by
            rcases hgtc with ⟨h1, h2⟩ | ⟨h1, h2⟩
            · constructor
              · exact List.mem_append_left _ (h1.symm ▸ hu_vis)
              · rw [h2]
                exact List.mem_append_right _ (List.mem_singleton.mpr rfl)
            · constructor
              · rw [h1]
                exact List.mem_append_right _ (List.mem_singleton.mpr rfl)
              · exact List.mem_append_left _ (h2.symm ▸ hu_vis)
          have hgF : g ∉ F2 := by
            intro hgf
            rcases hgtc with ⟨h1, h2⟩ | ⟨h1, h2⟩
            · exact hv (h2 ▸ (hFvis g hgf).2)
            · exact hv (h1 ▸ (hFvis g hgf).1)
          have hFnd' : (F2 ++ [g]).Nodup := by
            rw [List.nodup_append]
            refine ⟨hFnd, List.nodup_singleton g, ?_⟩
            intro a ha hag
            rw [List.mem_singleton] at hag
            exact hgF (hag ▸ ha)
          have hT'sub : ∀ f ∈ F2 ++ [g], f ∈ T' := by
            intro f hf
            rcases List.mem_append.mp hf with hf | hf
            · exact hT'F f hf
            · rw [List.mem_singleton.mp hf]
              exact hT'e
          have hshadow' : List.Forall₂ shadows (mst ++ [⟨u, v, w⟩])
              (F2 ++ [g]) :=
            forall2_shadows_append hshadow ⟨hgw.symm, hgt⟩
          have hFvis' : ∀ f ∈ F2 ++ [g],
              f.u ∈ visited ++ [v] ∧ f.v ∈ visited ++ [v] := by
            intro f hf
            rcases List.mem_append.mp hf with hf | hf
            · exact ⟨List.mem_append_left _ (hFvis f hf).1,
                List.mem_append_left _ (hFvis f hf).2⟩
            · rw [List.mem_singleton.mp hf]
              exact hgvis
          refine ihk (pushFrom v (visited ++ [v]) (G.adj v) rest seen).1
            (visited ++ [v])
            (pushFrom v (visited ++ [v]) (G.adj v) rest seen).2
            (mst ++ [⟨u, v, w⟩]) (F2 ++ [g]) ?_ ?_ ?_ ?_ ?_ ?_ ?_ ?_ ?_
            hshadow' hFnd' hFvis' ⟨T', hT'mst, hT'sub⟩
          · simp only [List.length_append, List.length_singleton]
            omega
          · exact List.mem_append_left _ h0
          · rw [List.nodup_append]
            exact ⟨hnd, List.nodup_singleton v,
              fun a ha hav => hv ((List.mem_singleton.mp hav) ▸ ha)⟩
          · intro x hx
            rcases List.mem_append.mp hx with h | h
            · exact hsub x h
            · rw [List.mem_singleton] at h
              exact h ▸ hvnode
          · intro q' hq'
            rcases pushFrom_entries _ _ _ hq' with h | ⟨h1, w', h2⟩
            · obtain ⟨ha, hb⟩ := hq q' (List.mem_cons_of_mem _ h)
              exact ⟨List.mem_append_left _ ha, hb⟩
            · refine ⟨?_, adj_mem_nodes hwf h2⟩
              rw [h1]
              exact List.mem_append_right _ (List.mem_singleton.mpr rfl)
          · intro p hp
            rcases pushFrom_seen _ _ _ hp with h | ⟨u', h⟩
            · rcases hs p h with h' | h'
              · exact Or.inl (List.mem_append_left _ h')
              · exact Or.inr (List.mem_append_left _ h')
            · rcases normEdge_cases v u' with hc | hc
              · rw [h, hc]
                exact Or.inl
                  (List.mem_append_right _ (List.mem_singleton.mpr rfl))
              · rw [h, hc]
                exact Or.inr
                  (List.mem_append_right _ (List.mem_singleton.mpr rfl))
          · intro x y hadj hx hy
            have hynv : y ∉ visited :=
              fun h => hy (List.mem_append_left _ h)
            rcases List.mem_append.mp hx with hxo | hxv
            · obtain ⟨qq, hqq, hp⟩ := hcov x y hadj hxo hynv
              rcases List.mem_cons.mp hqq with h | h
              · exfalso
                rw [h] at hp
                have hp' : normEdge u v = normEdge x y := hp
                rcases normEdge_eq_iff.mp hp' with ⟨h1, h2⟩ | ⟨h1, h2⟩
                · exact hy (h2 ▸ List.mem_append_right _
                    (List.mem_singleton.mpr rfl))
                · exact hy (List.mem_append_left _ (h1 ▸ hu_vis))
              · exact ⟨qq, pushFrom_mem_mono _ _ _ h, hp⟩
            · rw [List.mem_singleton] at hxv
              obtain ⟨e, he, ht⟩ := hadj
              simp only [touches, Bool.or_eq_true, Bool.and_eq_true,
                beq_iff_eq] at ht
              have hmemadj : (y, e.w) ∈ G.adj v := by
                rcases ht with ⟨h1, h2⟩ | ⟨h1, h2⟩
                · exact mem_adj.mpr ⟨e, he, rfl, Or.inl ⟨hxv ▸ h1, h2⟩⟩
                · exact mem_adj.mpr ⟨e, he, rfl, Or.inr ⟨hxv ▸ h2, h1⟩⟩
              have hpre : ∀ a b, (a, b) ∈ G.adj v → a ∉ visited ++ [v] →
                  normEdge v a ∈ seen →
                  ∃ q' ∈ rest, normEdge q'.2.1 q'.2.2 = normEdge v a := by
                intro a b hab hav hseen
                exfalso
                rcases hs _ hseen with h' | h'
                · rcases normEdge_cases v a with hc | hc
                  · rw [hc] at h'
                    exact hv h'
                  · rw [hc] at h'
                    exact hav (List.mem_append_left _ h')
                · rcases normEdge_cases v a with hc | hc
                  · rw [hc] at h'
                    exact hav (List.mem_append_left _ h')
                  · rw [hc] at h'
                    exact hv h'
              obtain ⟨qq, hqq, hp⟩ :=
                pushFrom_cover _ _ _ hpre y e.w hmemadj hy
              refine ⟨qq, hqq, ?_⟩
              rw [hp, hxv]
          · exact pushFrom_sorted _ _ _ (List.sorted_cons.mp hsort).2
          · intro q' hq'
            rcases pushFrom_entries2 _ _ _ hq' with h | ⟨h1, h2⟩
            · exact hval q' (List.mem_cons_of_mem _ h)
            · obtain ⟨e, he, hw', hor⟩ := mem_adj.mp h2
              refine ⟨e, he, hw', ?_⟩
              rw [h1]
              rcases hor with ⟨ha, hb⟩ | ⟨ha, hb⟩
              · simp [touches, ha, hb]
              · simp [touches, ha, hb]
      · have hstep : primLoop G ((w, u, v) :: rest) visited seen mst
            (totalW mst) = (mst, totalW mst) := by
          conv_lhs => rw [primLoop]
          rw [dif_neg hg]
        rw [hstep]
        obtain ⟨T, hT1, hT2⟩ := hT
        exact ⟨T, F2, hT1, hT2, hFnd, hshadow, rfl⟩

/-- Prim returns tuples shadowing a minimum spanning tree, with the
matching total weight. -/
theorem prim_opt {G : Graph} (hwf : G.WF) (hstd : G.Std)
    (hconn : is_connected G = true) :
    ∃ T Fr, IsMST G T ∧ List.Forall₂ shadows (prim_mst G).1 Fr ∧
      Fr.Perm T ∧ (prim_mst G).2 = totalW T := by
  obtain ⟨n0, rest0, hn⟩ : ∃ n0 rest0, G.nodes = n0 :: rest0 := by
    cases h : G.nodes with
    | nil => exact absurd h hwf.2.1
    | cons c l => exact ⟨c, l, rfl⟩
  have hn0 : n0 = 0 := std_head_zero hstd hn
  have hreach : ∀ x ∈ G.nodes, Reach G.edges 0 x := by
    have h := (is_connected_iff hwf hn).mp hconn
    rw [hn0] at h
    exact h
  obtain ⟨T0, hT0⟩ := exists_IsMST hwf hstd hconn
  obtain ⟨T, Fr, hT1, hT2, hFnd, hshadow, htot⟩ :=
    primLoop_opt_aux hwf hreach hstd G.nodes.length
      (pushFrom 0 [] (G.adj 0) [] []).1 [0]
      (pushFrom 0 [] (G.adj 0) [] []).2 [] []
      (by simp only [List.length_singleton]; omega)
      (List.mem_singleton.mpr rfl)
      (List.nodup_singleton 0)
      (by
        intro x hx
        rw [List.mem_singleton] at hx
        rw [hx, hn, ← hn0]
        exact List.mem_cons_self n0 rest0)
      (by
        intro q hq'
        rcases pushFrom_entries _ _ _ hq' with h | ⟨h1, w', h2⟩
        · exact absurd h (List.not_mem_nil q)
        · refine ⟨?_, adj_mem_nodes hwf h2⟩
          rw [h1]
          exact List.mem_singleton.mpr rfl)
      (by
        intro p hp
        rcases pushFrom_seen _ _ _ hp with h | ⟨u', h⟩
        · exact absurd h (List.not_mem_nil p)
        · rcases normEdge_cases 0 u' with hc | hc
          · rw [h, hc]
            exact Or.inl (List.mem_singleton.mpr rfl)
          · rw [h, hc]
            exact Or.inr (List.mem_singleton.mpr rfl))
      (by
        intro x y hadj hx hy
        rw [List.mem_singleton] at hx
        obtain ⟨e, he, ht⟩ := hadj
        simp only [touches, Bool.or_eq_true, Bool.and_eq_true,
          beq_iff_eq] at ht
        have hmemadj : (y, e.w) ∈ G.adj 0 := by
          rcases ht with ⟨h1, h2⟩ | ⟨h1, h2⟩
          · exact mem_adj.mpr ⟨e, he, rfl, Or.inl ⟨hx ▸ h1, h2⟩⟩
          · exact mem_adj.mpr ⟨e, he, rfl, Or.inr ⟨hx ▸ h2, h1⟩⟩
        have hpre : ∀ a b, (a, b) ∈ G.adj 0 → a ∉ ([] : List Nat) →
            normEdge 0 a ∈ ([] : List (Nat × Nat)) →
            ∃ q ∈ ([] : List HeapEntry),
              normEdge q.2.1 q.2.2 = normEdge 0 a :=
          fun a b hab hav hseen => absurd hseen (List.not_mem_nil _)
        obtain ⟨qq, hqq, hp⟩ :=
          pushFrom_cover _ _ _ hpre y e.w hmemadj (List.not_mem_nil y)
        refine ⟨qq, hqq, ?_⟩
        rw [hp, hx])
      (pushFrom_sorted _ _ _ (List.sorted_nil))
      (by
        intro q hq'
        rcases pushFrom_entries2 _ _ _ hq' with h | ⟨h1, h2⟩
        · exact absurd h (List.not_mem_nil q)
        · obtain ⟨e, he, hw', hor⟩ := mem_adj.mp h2
          refine ⟨e, he, hw', ?_⟩
          rw [h1]
          rcases hor with ⟨ha, hb⟩ | ⟨ha, hb⟩
          · simp [touches, ha, hb]
          · simp [touches, ha, hb])
      List.Forall₂.nil
      List.nodup_nil
      (fun f hf => absurd hf (List.not_mem_nil f))
      ⟨T0, hT0, fun f hf => absurd hf (List.not_mem_nil f)⟩
  have hpm : prim_mst G = primLoop G (pushFrom 0 [] (G.adj 0) [] []).1
      [0] (pushFrom 0 [] (G.adj 0) [] []).2 [] 0 := by
    show primLoop G (initPush 0 (G.adj 0) [] []).1 [0]
      (initPush 0 (G.adj 0) [] []).2 [] 0 = _
    rw [initPush_eq_pushFrom]
  have h0 : totalW ([] : List Edge) = 0 := rfl
  rw [h0] at hshadow htot
  rw [← hpm] at hshadow htot
  have hlen : (prim_mst G).1.length = G.nodes.length - 1 :=
    prim_count hwf hstd hconn
  have hperm : Fr.Perm T := by
    refine perm_of_sub_nodup_length hFnd hT2 ?_
    rw [← hshadow.length_eq, hlen, hT1.1.2.2.2]
  refine ⟨T, Fr, hT1, hshadow, hperm, ?_⟩
  rw [htot, forall2_totalW hshadow, totalW_perm hperm]

/-! ## Borůvka computes a minimum spanning tree -/

/-- An edge is offered to component slot `c` during a Borůvka scan
round: its endpoints lie in different components and one of them is
labelled `c`. -/
def BorOffer (comp : List Nat) (c : Nat) (g : Edge) : Prop :=
  comp.getD g.u 0 ≠ comp.getD g.v 0 ∧
  (comp.getD g.u 0 = c ∨ comp.getD g.v 0 = c)

theorem updateCheapest1_getD_ne (ch : List (Option Edge)) (c d : Nat)
    (e : Edge) (hne : d ≠ c) :
    (updateCheapest1 ch d e).getD c none = ch.getD c none := by
  cases hm : ch.getD d none with
  | none =>
    simp only [updateCheapest1, hm]
    exact getD_set_ne ch d c (some e) none hne
  | some f =>
    simp only [updateCheapest1, hm]
    by_cases hw : f.w > e.w
    · rw [if_pos hw]
      exact getD_set_ne ch d c (some e) none hne
    · rw [if_neg hw]

theorem updateCheapest1_getD_none (ch : List (Option Edge)) (c : Nat)
    (e : Edge) (hm : ch.getD c none = none) (hc : c < ch.length) :
    (updateCheapest1 ch c e).getD c none = some e := by
  simp only [updateCheapest1, hm]
  exact getD_set_eq ch c (some e) none hc

theorem updateCheapest1_getD_improve (ch : List (Option Edge)) (c : Nat)
    {f : Edge} (e : Edge) (hm : ch.getD c none = some f)
    (hw : f.w > e.w) :
    (updateCheapest1 ch c e).getD c none = some e := by
  have hc : c < ch.length := by
    by_contra hx
    rw [List.getD_eq_default _ _ (Nat.le_of_not_lt hx)] at hm
    cases hm
  simp only [updateCheapest1, hm]
  rw [if_pos hw]
  exact getD_set_eq ch c (some e) none hc

theorem updateCheapest1_getD_keep (ch : List (Option Edge)) (c : Nat)
    {f : Edge} (e : Edge) (hm : ch.getD c none = some f)
    (hw : ¬ f.w > e.w) :
    (updateCheapest1 ch c e).getD c none = some f := by
  simp only [updateCheapest1, hm]
  rw [if_neg hw]
  exact hm

/-- The Borůvka scan computes, at every slot, the first minimum-weight
offered edge: strictly cheaper than every earlier offer, no heavier
than any later one. -/
theorem scanCheapest_min (comp : List Nat) :
    ∀ (es : List Edge) (ch : List (Option Edge)) (done : List Edge),
    (∀ g ∈ es, comp.getD g.u 0 < ch.length ∧
      comp.getD g.v 0 < ch.length) →
    (∀ c, ch.getD c none = none → ∀ g ∈ done, ¬ BorOffer comp c g) →
    (∀ c e, ch.getD c none = some e → BorOffer comp c e ∧
      ∃ pre post, done = pre ++ e :: post ∧
        (∀ g ∈ pre, BorOffer comp c g → e.w < g.w) ∧
        (∀ g ∈ post, BorOffer comp c g → e.w ≤ g.w)) →
    ∀ c e, (scanCheapest comp ch es).getD c none = some e →
      BorOffer comp c e ∧
      ∃ pre post, done ++ es = pre ++ e :: post ∧
        (∀ g ∈ pre, BorOffer comp c g → e.w < g.w) ∧
        (∀ g ∈ post, BorOffer comp c g → e.w ≤ g.w) := by
  intro es
  induction es with
  | nil =>
    intro ch done hlab hnone hsome c e h
    obtain ⟨h1, pre, post, h2, h3, h4⟩ := hsome c e h
    exact ⟨h1, pre, post, by rw [List.append_nil]; exact h2, h3, h4⟩
  | cons e0 es ih =>
    intro ch done hlab hnone hsome c e h
    simp only [scanCheapest] at h
    have hrw : done ++ e0 :: es = (done ++ [e0]) ++ es := by
      rw [List.append_assoc]
      rfl
    rw [hrw]
    by_cases hc : comp.getD e0.u 0 ≠ comp.getD e0.v 0
    · rw [if_pos hc] at h
      obtain ⟨hu0, hv0⟩ := hlab e0 (List.mem_cons_self _ _)
      refine ih _ (done ++ [e0]) ?_ ?_ ?_ c e h
      · intro g hg
        rw [updateCheapest1_length, updateCheapest1_length]
        exact hlab g (List.mem_cons_of_mem _ hg)
      · intro c' hc' g hg
        have hcu : c' ≠ comp.getD e0.u 0 := by
          intro hq
          obtain ⟨g1, hg1⟩ := updateCheapest1_sets e0 hu0
          obtain ⟨g2, hg2⟩ := updateCheapest1_some_mono
            (comp.getD e0.v 0) e0 hg1
          rw [hq] at hc'
          rw [hc'] at hg2
          cases hg2
        have hcv : c' ≠ comp.getD e0.v 0 := by
          intro hq
          have hlt : comp.getD e0.v 0 <
              (updateCheapest1 ch (comp.getD e0.u 0) e0).length := by
            rw [updateCheapest1_length]
            exact hv0
          obtain ⟨g2, hg2⟩ := updateCheapest1_sets e0 hlt
          rw [hq] at hc'
          rw [hc'] at hg2
          cases hg2
        have holdch : ch.getD c' none = none := by
          have h1 := updateCheapest1_getD_ne
            (updateCheapest1 ch (comp.getD e0.u 0) e0) c'
            (comp.getD e0.v 0) e0 (fun hx => hcv hx.symm)
          have h2 := updateCheapest1_getD_ne ch c'
            (comp.getD e0.u 0) e0 (fun hx => hcu hx.symm)
          rw [← h2, ← h1]
          exact hc'
        rcases List.mem_append.mp hg with hg | hg
        · exact hnone c' holdch g hg
        · rw [List.mem_singleton.mp hg]
          intro hoff
          rcases hoff.2 with h' | h'
          · exact hcu h'.symm
          · exact hcv h'.symm
      · intro c' e' hsome'
        by_cases hccv : c' = comp.getD e0.v 0
        · subst hccv
          have hfst : (updateCheapest1 ch (comp.getD e0.u 0) e0).getD
              (comp.getD e0.v 0) none =
              ch.getD (comp.getD e0.v 0) none :=
            updateCheapest1_getD_ne ch (comp.getD e0.v 0)
              (comp.getD e0.u 0) e0 hc
          cases hold : ch.getD (comp.getD e0.v 0) none with
          | none =>
            have hval : (updateCheapest1 (updateCheapest1 ch
                (comp.getD e0.u 0) e0) (comp.getD e0.v 0) e0).getD
                (comp.getD e0.v 0) none = some e0 :=
              updateCheapest1_getD_none _ _ e0 (hfst.trans hold)
                (by rw [updateCheapest1_length]; exact hv0)
            rw [hval] at hsome'
            injection hsome' with he'
            subst he'
            refine ⟨⟨hc, Or.inr rfl⟩, done, [], rfl, ?_, ?_⟩
            · intro g hg hoff
              exact absurd hoff (hnone _ hold g hg)
            · intro g hg
              exact absurd hg (List.not_mem_nil g)
          | some f =>
            by_cases hw : f.w > e0.w
            · have hval : (updateCheapest1 (updateCheapest1 ch
                  (comp.getD e0.u 0) e0) (comp.getD e0.v 0) e0).getD
                  (comp.getD e0.v 0) none = some e0 :=
                updateCheapest1_getD_improve _ _ e0
                  (hfst.trans hold) hw
              rw [hval] at hsome'
              injection hsome' with he'
              subst he'
              obtain ⟨hOf, pre, post, hdec, hpre, hpost⟩ :=
                hsome _ f hold
              refine ⟨⟨hc, Or.inr rfl⟩, done, [], rfl, ?_, ?_⟩
              · intro g hg hoff
                rw [hdec] at hg
                rcases List.mem_append.mp hg with hg | hg
                · exact lt_trans hw (hpre g hg hoff)
                · rcases List.mem_cons.mp hg with rfl | hg
                  · exact hw
                  · exact lt_of_lt_of_le hw (hpost g hg hoff)
              · intro g hg
                exact absurd hg (List.not_mem_nil g)
            · have hval : (updateCheapest1 (updateCheapest1 ch
                  (comp.getD e0.u 0) e0) (comp.getD e0.v 0) e0).getD
                  (comp.getD e0.v 0) none = some f :=
                updateCheapest1_getD_keep _ _ e0 (hfst.trans hold) hw
              rw [hval] at hsome'
              injection hsome' with he'
              subst he'
              obtain ⟨hOf, pre, post, hdec, hpre, hpost⟩ :=
                hsome _ f hold
              refine ⟨hOf, pre, post ++ [e0], ?_, hpre, ?_⟩
              · rw [hdec]
                exact List.append_assoc pre (f :: post) [e0]
              · intro g hg hoff
                rcases List.mem_append.mp hg with hg | hg
                · exact hpost g hg hoff
                · rw [List.mem_singleton.mp hg]
                  exact le_of_not_lt hw
        · by_cases hccu : c' = comp.getD e0.u 0
          · subst hccu
            have hsnd : (updateCheapest1 (updateCheapest1 ch
                (comp.getD e0.u 0) e0) (comp.getD e0.v 0) e0).getD
                (comp.getD e0.u 0) none =
                (updateCheapest1 ch (comp.getD e0.u 0) e0).getD
                (comp.getD e0.u 0) none :=
              updateCheapest1_getD_ne _ (comp.getD e0.u 0)
                (comp.getD e0.v 0) e0 (fun hx => hc hx.symm)
            cases hold : ch.getD (comp.getD e0.u 0) none with
            | none =>
              have hval := hsnd.trans
                (updateCheapest1_getD_none ch _ e0 hold hu0)
              rw [hval] at hsome'
              injection hsome' with he'
              subst he'
              refine ⟨⟨hc, Or.inl rfl⟩, done, [], rfl, ?_, ?_⟩
              · intro g hg hoff
                exact absurd hoff (hnone _ hold g hg)
              · intro g hg
                exact absurd hg (List.not_mem_nil g)
            | some f =>
              by_cases hw : f.w > e0.w
              · have hval := hsnd.trans
                  (updateCheapest1_getD_improve ch _ e0 hold hw)
                rw [hval] at hsome'
                injection hsome' with he'
                subst he'
                obtain ⟨hOf, pre, post, hdec, hpre, hpost⟩ :=
                  hsome _ f hold
                refine ⟨⟨hc, Or.inl rfl⟩, done, [], rfl, ?_, ?_⟩
                · intro g hg hoff
                  rw [hdec] at hg
                  rcases List.mem_append.mp hg with hg | hg
                  · exact lt_trans hw (hpre g hg hoff)
                  · rcases List.mem_cons.mp hg with rfl | hg
                    · exact hw
                    · exact lt_of_lt_of_le hw (hpost g hg hoff)
                · intro g hg
                  exact absurd hg (List.not_mem_nil g)
              · have hval := hsnd.trans
                  (updateCheapest1_getD_keep ch _ e0 hold hw)
                rw [hval] at hsome'
                injection hsome' with he'
                subst he'
                obtain ⟨hOf, pre, post, hdec, hpre, hpost⟩ :=
                  hsome _ f hold
                refine ⟨hOf, pre, post ++ [e0], ?_, hpre, ?_⟩
                · rw [hdec]
                  exact List.append_assoc pre (f :: post) [e0]
                · intro g hg hoff
                  rcases List.mem_append.mp hg with hg | hg
                  · exact hpost g hg hoff
                  · rw [List.mem_singleton.mp hg]
                    exact le_of_not_lt hw
          · have hval : (updateCheapest1 (updateCheapest1 ch
                (comp.getD e0.u 0) e0) (comp.getD e0.v 0) e0).getD
                c' none = ch.getD c' none := by
              rw [updateCheapest1_getD_ne _ c' (comp.getD e0.v 0) e0
                  (fun hx => hccv hx.symm),
                updateCheapest1_getD_ne ch c' (comp.getD e0.u 0) e0
                  (fun hx => hccu hx.symm)]
            rw [hval] at hsome'
            obtain ⟨hOf, pre, post, hdec, hpre, hpost⟩ :=
              hsome c' e' hsome'
            refine ⟨hOf, pre, post ++ [e0], ?_, hpre, ?_⟩
            · rw [hdec]
              exact List.append_assoc pre (e' :: post) [e0]
            · intro g hg hoff
              rcases List.mem_append.mp hg with hg | hg
              · exact hpost g hg hoff
              · rw [List.mem_singleton.mp hg] at hoff
                rcases hoff.2 with h' | h'
                · exact absurd h'.symm hccu
                · exact absurd h'.symm hccv
    · rw [if_neg hc] at h
      refine ih _ (done ++ [e0])
        (fun g hg => hlab g (List.mem_cons_of_mem _ hg)) ?_ ?_ c e h
      · intro c' hc' g hg
        rcases List.mem_append.mp hg with hg | hg
        · exact hnone c' hc' g hg
        · rw [List.mem_singleton.mp hg]
          intro hoff
          exact hc hoff.1
      · intro c' e' hsome'
        obtain ⟨hOf, pre, post, hdec, hpre, hpost⟩ :=
          hsome c' e' hsome'
        refine ⟨hOf, pre, post ++ [e0], ?_, hpre, ?_⟩
        · rw [hdec]
          exact List.append_assoc pre (e' :: post) [e0]
        · intro g hg hoff
          rcases List.mem_append.mp hg with hg | hg
          · exact hpost g hg hoff
          · rw [List.mem_singleton.mp hg] at hoff
            exact absurd hoff.1 hc

/-- The index of the first occurrence of an edge in a list. -/
def posIn : List Edge → Edge → Nat
  | [], _ => 0
  | f :: fs, e => if f = e then 0 else posIn fs e + 1

theorem posIn_append_self {pre post : List Edge} {e : Edge}
    (hpre : e ∉ pre) : posIn (pre ++ e :: post) e = pre.length := by
  induction pre with
  | nil => simp [posIn]
  | cons a l ih =>
    simp only [List.cons_append, posIn, List.append_eq]
    rw [if_neg (fun h => hpre (by rw [← h]; exact List.mem_cons_self a l))]
    rw [ih (fun h => hpre (List.mem_cons_of_mem a h))]
    rfl

theorem posIn_append_later {pre post : List Edge} {e g : Edge}
    (hgpre : g ∉ pre) (hge : g ≠ e) :
    posIn (pre ++ e :: post) g = pre.length + 1 + posIn post g := by
  induction pre with
  | nil =>
    simp only [List.nil_append, posIn, List.length_nil]
    rw [if_neg (fun h => hge h.symm)]
    omega
  | cons a l ih =>
    simp only [List.cons_append, posIn, List.append_eq]
    rw [if_neg (fun h => hgpre (by rw [← h]; exact List.mem_cons_self a l))]
    rw [ih (fun h => hgpre (List.mem_cons_of_mem a h))]
    simp only [List.length_cons]
    omega

theorem posIn_lt_of_post {es pre post : List Edge} {e g : Edge}
    (hnd : es.Nodup) (hdec : es = pre ++ e :: post) (hg : g ∈ post) :
    posIn es e < posIn es g := by
  subst hdec
  obtain ⟨hp, hcp, hdisj⟩ := List.nodup_append.mp hnd
  have hepre : e ∉ pre := fun h => hdisj h (List.mem_cons_self e post)
  have hgpre : g ∉ pre := fun h => hdisj h (List.mem_cons_of_mem e hg)
  have hge : g ≠ e := by
    intro h
    exact (List.nodup_cons.mp hcp).1 (h ▸ hg)
  rw [posIn_append_self hepre, posIn_append_later hgpre hge]
  omega

/-- Every nonempty record list has a member maximal in the
(weight, position) lexicographic order. -/
theorem exists_lexmax (pos : Edge → Nat) :
    ∀ (l : List (Nat × Edge)), l ≠ [] →
    ∃ m ∈ l, ∀ x ∈ l, x.2.w < m.2.w ∨
      (x.2.w = m.2.w ∧ pos x.2 ≤ pos m.2) := by
  intro l
  induction l with
  | nil => intro h; exact absurd rfl h
  | cons a tl ih =>
    intro _
    cases tl with
    | nil =>
      refine ⟨a, List.mem_cons_self _ _, ?_⟩
      intro x hx
      rw [List.mem_singleton.mp hx]
      exact Or.inr ⟨rfl, le_refl _⟩
    | cons b tl2 =>
      obtain ⟨m, hm, hmax⟩ := ih (by simp)
      by_cases hc : a.2.w < m.2.w ∨ (a.2.w = m.2.w ∧ pos a.2 ≤ pos m.2)
      · refine ⟨m, List.mem_cons_of_mem _ hm, ?_⟩
        intro x hx
        rcases List.mem_cons.mp hx with rfl | hx
        · exact hc
        · exact hmax x hx
      · have hma : m.2.w ≤ a.2.w := by
          by_contra hx
          exact hc (Or.inl (lt_of_not_le hx))
        refine ⟨a, List.mem_cons_self _ _, ?_⟩
        intro x hx
        rcases List.mem_cons.mp hx with rfl | hx
        · exact Or.inr ⟨rfl, le_refl _⟩
        · rcases hmax x hx with h1 | ⟨h1, h2⟩
          · exact Or.inl (lt_of_lt_of_le h1 hma)
          · by_cases heq : m.2.w = a.2.w
            · have hpm : pos m.2 < pos a.2 := by
                by_contra hpx
                exact hc (Or.inr ⟨heq.symm, le_of_not_lt hpx⟩)
              exact Or.inr ⟨h1.trans heq, le_of_lt (lt_of_le_of_lt h2 hpm)⟩
            · exact Or.inl (h1.symm ▸ (lt_of_le_of_ne hma heq))

theorem snd_inj_of_map_nodup {l : List (Nat × Edge)}
    (h : (l.map Prod.snd).Nodup) :
    ∀ p ∈ l, ∀ q ∈ l, p.2 = q.2 → p = q := by
  induction l with
  | nil => intro p hp; exact absurd hp (List.not_mem_nil p)
  | cons a tl ih =>
    simp only [List.map_cons, List.nodup_cons] at h
    intro p hp q hq hpq
    rcases List.mem_cons.mp hp with hpa | hp
    · rcases List.mem_cons.mp hq with hqa | hq
      · rw [hpa, hqa]
      · exfalso
        apply h.1
        rw [hpa] at hpq
        rw [hpq]
        exact List.mem_map_of_mem Prod.snd hq
    · rcases List.mem_cons.mp hq with hqa | hq
      · exfalso
        apply h.1
        rw [hqa] at hpq
        rw [← hpq]
        exact List.mem_map_of_mem Prod.snd hp
      · exact ih h.2 p hp q hq hpq

/-- A set of distinct edges, each the first minimum across the cut of a
component class, can be traded into any minimum spanning tree
containing a class-respecting forest. -/
theorem justify_cut_set {G : Graph} (hwf : G.WF) (hstd : G.Std)
    (comp : List Nat) :
    ∀ (k : Nat) (M : List (Nat × Edge)) (F : List Edge),
    M.length ≤ k →
    (∀ p ∈ M, BorOffer comp p.1 p.2 ∧
      ∃ pre post, G.edges = pre ++ p.2 :: post ∧
        (∀ g ∈ pre, BorOffer comp p.1 g → p.2.w < g.w) ∧
        (∀ g ∈ post, BorOffer comp p.1 g → p.2.w ≤ g.w)) →
    (M.map Prod.snd).Nodup →
    (∀ f ∈ F, comp.getD f.u 0 = comp.getD f.v 0) →
    (∃ T, IsMST G T ∧ ∀ f ∈ F, f ∈ T) →
    ∃ T, IsMST G T ∧ (∀ f ∈ F, f ∈ T) ∧ (∀ p ∈ M, p.2 ∈ T) := by
  intro k
  induction k with
  | zero =>
    intro M F hk hrec hmapnd hFsame hT
    have hMnil : M = [] := List.eq_nil_of_length_eq_zero (by omega)
    subst hMnil
    obtain ⟨T, hT1, hT2⟩ := hT
    exact ⟨T, hT1, hT2, fun p hp => absurd hp (List.not_mem_nil p)⟩
  | succ k ih =>
    intro M F hk hrec hmapnd hFsame hT
    by_cases hMnil : M = []
    · subst hMnil
      obtain ⟨T, hT1, hT2⟩ := hT
      exact ⟨T, hT1, hT2, fun p hp => absurd hp (List.not_mem_nil p)⟩
    · obtain ⟨L, hLmem, hLmax⟩ := exists_lexmax (posIn G.edges) M hMnil
      have hMnd : M.Nodup := hmapnd.of_map
      have hMpos : 0 < M.length :=
        List.length_pos.mpr (List.ne_nil_of_mem hLmem)
      have hlen' : (M.erase L).length ≤ k := by
        rw [List.length_erase_of_mem hLmem]
        omega
      obtain ⟨T, hT1, hTF, hTM⟩ := ih (M.erase L) F hlen'
        (fun p hp => hrec p (List.mem_of_mem_erase hp))
        (hmapnd.sublist (List.Sublist.map Prod.snd (M.erase_sublist L)))
        hFsame hT
      obtain ⟨hOff, pre, post, hdec, hpre, hpost⟩ := hrec L hLmem
      have hcr : ((comp.getD L.2.u 0 = L.1) ∧
          ¬ (comp.getD L.2.v 0 = L.1)) ∨
          ((comp.getD L.2.v 0 = L.1) ∧
          ¬ (comp.getD L.2.u 0 = L.1)) := by
        rcases hOff.2 with h' | h'
        · exact Or.inl ⟨h', fun hv => hOff.1 (h'.trans hv.symm)⟩
        · exact Or.inr ⟨h', fun hu => hOff.1 (hu.trans h'.symm)⟩
      have hL2G : L.2 ∈ G.edges := by
        rw [hdec]
        exact List.mem_append_right _ (List.mem_cons_self _ _)
      have hmin : ∀ g ∈ G.edges,
          ((comp.getD g.u 0 = L.1 ∧ ¬ comp.getD g.v 0 = L.1) ∨
           (comp.getD g.v 0 = L.1 ∧ ¬ comp.getD g.u 0 = L.1)) →
          L.2.w ≤ g.w := by
        intro g hg hcrg
        have hOffg : BorOffer comp L.1 g := by
          rcases hcrg with ⟨h1, h2⟩ | ⟨h1, h2⟩
          · exact ⟨fun hx => h2 (hx ▸ h1), Or.inl h1⟩
          · exact ⟨fun hx => h2 (hx.symm ▸ h1), Or.inr h1⟩
        rw [hdec] at hg
        rcases List.mem_append.mp hg with hg | hg
        · exact le_of_lt (hpre g hg hOffg)
        · rcases List.mem_cons.mp hg with rfl | hg
          · exact le_refl _
          · exact hpost g hg hOffg
      have hkept : ∀ f ∈ F ++ (M.erase L).map Prod.snd, f ∈ T := by
        intro f hf
        rcases List.mem_append.mp hf with hf | hf
        · exact hTF f hf
        · obtain ⟨p, hp, hps⟩ := List.mem_map.mp hf
          exact hps ▸ hTM p hp
      have hkeptnc : ∀ f ∈ F ++ (M.erase L).map Prod.snd,
          ((comp.getD f.u 0 = L.1) ↔ (comp.getD f.v 0 = L.1)) := by
        intro f hf
        rcases List.mem_append.mp hf with hf | hf
        · rw [hFsame f hf]
        · obtain ⟨p, hp, hps⟩ := List.mem_map.mp hf
          have hpM : p ∈ M := List.mem_of_mem_erase hp
          have hpneL : p ≠ L := ((hMnd.mem_erase_iff).mp hp).1
          subst hps
          have hOffp := (hrec p hpM).1
          have hnotouch : ¬ BorOffer comp L.1 p.2 := by
            intro hB
            have hp2neL2 : p.2 ≠ L.2 := by
              intro h
              exact hpneL (snd_inj_of_map_nodup hmapnd p hpM L hLmem h)
            have hp2G : p.2 ∈ G.edges := by
              obtain ⟨-, pre', post', hdec', -, -⟩ := hrec p hpM
              rw [hdec']
              exact List.mem_append_right _ (List.mem_cons_self _ _)
            have hmax := hLmax p hpM
            have hp2mem : p.2 ∈ pre ∨ p.2 ∈ post := by
              rw [hdec] at hp2G
              rcases List.mem_append.mp hp2G with h | h
              · exact Or.inl h
              · rcases List.mem_cons.mp h with h | h
                · exact absurd h hp2neL2
                · exact Or.inr h
            rcases hp2mem with h | h
            · have hlt := hpre p.2 h hB
              rcases hmax with h1 | ⟨h1, h2⟩
              · omega
              · omega
            · have hle := hpost p.2 h hB
              have hposlt := posIn_lt_of_post (edges_nodup hwf) hdec h
              rcases hmax with h1 | ⟨h1, h2⟩
              · omega
              · omega
          constructor
          · intro h
            exact absurd ⟨hOffp.1, Or.inl h⟩ hnotouch
          · intro h
            exact absurd ⟨hOffp.1, Or.inr h⟩ hnotouch
      obtain ⟨T', hT'span, hT'le, hT'F, hT'e⟩ := exchange_cut hwf hstd
        hT1.1 (fun z => comp.getD z 0 = L.1) hL2G hcr hmin hkept hkeptnc
      have hT'mst : IsMST G T' :=
        ⟨hT'span, fun C hC => le_trans hT'le (hT1.2 C hC)⟩
      refine ⟨T', hT'mst, ?_, ?_⟩
      · intro f hf
        exact hT'F f (List.mem_append_left _ hf)
      · intro p hp
        by_cases hpL : p = L
        · rw [hpL]
          exact hT'e
        · refine hT'F p.2 (List.mem_append_right _ ?_)
          exact List.mem_map_of_mem Prod.snd
            ((hMnd.mem_erase_iff).mpr ⟨hpL, hp⟩)

theorem getD_map_of_lt (q : Nat → Nat) (l : List Nat) (x : Nat)
    (h : x < l.length) : (l.map q).getD x 0 = q (l.getD x 0) := by
  rw [List.getD_eq_getElem _ _ (by rw [List.length_map]; exact h),
    List.getD_eq_getElem _ _ h, List.getElem_map]

theorem getD_some_of_mem {l : List (Option Edge)} {e : Edge}
    (h : some e ∈ l) : ∃ c, l.getD c none = some e := by
  obtain ⟨k, hk⟩ := List.mem_iff_get.mp h
  refine ⟨k.val, ?_⟩
  rw [List.getD_eq_getElem _ _ k.isLt]
  exact hk

/-- The merge phase of a Borůvka round: accepted edges all come from the
cheapest map, the accumulator tracks the accepted weight, the list stays
duplicate-free, and accepted edges end with equal component labels. -/
theorem mergePhase_opt {G : Graph} (hwf : G.WF) (hstd : G.Std)
    (ch0 : List (Option Edge)) (hch0 : ∀ f, some f ∈ ch0 → f ∈ G.edges) :
    ∀ (ch : List (Option Edge)) (st : BorState),
    (∀ oe ∈ ch, oe ∈ ch0) →
    st.component.length = G.nodes.length →
    (∀ f ∈ st.mst, f ∈ G.edges) →
    st.mst.Nodup →
    (∀ f ∈ st.mst, st.component.getD f.u 0 = st.component.getD f.v 0) →
    st.total = totalW st.mst →
    ∃ A, (mergePhase st ch).mst = st.mst ++ A ∧
      (∀ e ∈ A, some e ∈ ch0) ∧
      (mergePhase st ch).component.length = G.nodes.length ∧
      (∀ f ∈ (mergePhase st ch).mst, f ∈ G.edges) ∧
      (mergePhase st ch).mst.Nodup ∧
      (∀ f ∈ (mergePhase st ch).mst,
        (mergePhase st ch).component.getD f.u 0 =
        (mergePhase st ch).component.getD f.v 0) ∧
      (mergePhase st ch).total = totalW (mergePhase st ch).mst := by
  intro ch
  induction ch with
  | nil =>
    intro st hchsub hclen hsub hnd hsame htot
    exact ⟨[], (List.append_nil st.mst).symm,
      fun e he => absurd he (List.not_mem_nil e),
      hclen, hsub, hnd, hsame, htot⟩
  | cons oe rest ih =>
    intro st hchsub hclen hsub hnd hsame htot
    cases oe with
    | none =>
      have hstep : mergePhase st (none :: rest) = mergePhase st rest :=
        rfl
      rw [hstep]
      exact ih st (fun x hx => hchsub x (List.mem_cons_of_mem _ hx))
        hclen hsub hnd hsame htot
    | some f =>
      simp only [mergePhase]
      by_cases hc : st.component.getD f.u 0 ≠ st.component.getD f.v 0
      · rw [if_pos hc]
        have hfc : some f ∈ ch0 :=
          hchsub (some f) (List.mem_cons_self _ _)
        have hfG : f ∈ G.edges := hch0 f hfc
        have hfu : f.u < st.component.length := by
          obtain ⟨h1, -, -⟩ := hwf.2.2.1 f hfG
          have hstd' : G.nodes = List.range G.nodes.length := hstd
          rw [hstd'] at h1
          rw [hclen]
          exact List.mem_range.mp h1
        have hfv : f.v < st.component.length := by
          obtain ⟨-, h2, -⟩ := hwf.2.2.1 f hfG
          have hstd' : G.nodes = List.range G.nodes.length := hstd
          rw [hstd'] at h2
          rw [hclen]
          exact List.mem_range.mp h2
        have hrelabel : ∀ a b, a < st.component.length →
            b < st.component.length →
            st.component.getD a 0 = st.component.getD b 0 →
            (st.component.map (fun c =>
              if c = st.component.getD f.u 0
              then st.component.getD f.v 0 else c)).getD a 0 =
            (st.component.map (fun c =>
              if c = st.component.getD f.u 0
              then st.component.getD f.v 0 else c)).getD b 0 := by
          intro a b ha hb h
          rw [getD_map_of_lt _ _ _ ha, getD_map_of_lt _ _ _ hb, h]
        have hmerged : (st.component.map (fun c =>
            if c = st.component.getD f.u 0
            then st.component.getD f.v 0 else c)).getD f.u 0 =
            (st.component.map (fun c =>
              if c = st.component.getD f.u 0
              then st.component.getD f.v 0 else c)).getD f.v 0 := by
          rw [getD_map_of_lt _ _ _ hfu, getD_map_of_lt _ _ _ hfv]
          rw [if_pos rfl]
          split
          · rfl
          · rfl
        have hfnotin : f ∉ st.mst := fun hx => hc (hsame f hx)
        obtain ⟨A, hA1, hA2, hA3, hA4, hA5, hA6, hA7⟩ :=
          ih ⟨st.numComponents - 1,
              st.component.map (fun c =>
                if c = st.component.getD f.u 0
                then st.component.getD f.v 0 else c),
              st.mst ++ [f], st.total + f.w⟩
            (fun x hx => hchsub x (List.mem_cons_of_mem _ hx))
            (by
              show (st.component.map _).length = G.nodes.length
              rw [List.length_map]
              exact hclen)
            (by
              intro g hg
              rcases List.mem_append.mp hg with hg | hg
              · exact hsub g hg
              · rw [List.mem_singleton.mp hg]
                exact hfG)
            (by
              rw [List.nodup_append]
              exact ⟨hnd, List.nodup_singleton f,
                fun a ha haf =>
                  hfnotin ((List.mem_singleton.mp haf) ▸ ha)⟩)
            (by
              intro g hg
              rcases List.mem_append.mp hg with hg | hg
              · show (st.component.map _).getD g.u 0 =
                  (st.component.map _).getD g.v 0
                have hgu : g.u < st.component.length := by
                  obtain ⟨h1, -, -⟩ := hwf.2.2.1 g (hsub g hg)
                  have hstd' : G.nodes = List.range G.nodes.length := hstd
                  rw [hstd'] at h1
                  rw [hclen]
                  exact List.mem_range.mp h1
                have hgv : g.v < st.component.length := by
                  obtain ⟨-, h2, -⟩ := hwf.2.2.1 g (hsub g hg)
                  have hstd' : G.nodes = List.range G.nodes.length := hstd
                  rw [hstd'] at h2
                  rw [hclen]
                  exact List.mem_range.mp h2
                exact hrelabel g.u g.v hgu hgv (hsame g hg)
              · rw [List.mem_singleton.mp hg]
                exact hmerged)
            (by
              show st.total + f.w = totalW (st.mst ++ [f])
              rw [totalW_append, htot]
              simp [totalW])
        refine ⟨f :: A, ?_, ?_, hA3, hA4, hA5, hA6, hA7⟩
        · rw [hA1]
          show st.mst ++ [f] ++ A = st.mst ++ (f :: A)
          rw [List.append_assoc]
          rfl
        · intro e he
          rcases List.mem_cons.mp he with rfl | he
          · exact hfc
          · exact hA2 e he
      · rw [if_neg hc]
        exact ih st (fun x hx => hchsub x (List.mem_cons_of_mem _ hx))
          hclen hsub hnd hsame htot

theorem choose_slots {ch0 : List (Option Edge)} :
    ∀ (A : List Edge), (∀ e ∈ A, some e ∈ ch0) →
    ∃ M : List (Nat × Edge), M.map Prod.snd = A ∧
      ∀ p ∈ M, ch0.getD p.1 none = some p.2 := by
  intro A
  induction A with
  | nil =>
    exact fun _ => ⟨[], rfl, fun p hp => absurd hp (List.not_mem_nil p)⟩
  | cons e A ih =>
    intro h
    obtain ⟨M, hM1, hM2⟩ := ih (fun x hx => h x (List.mem_cons_of_mem _ hx))
    obtain ⟨c, hc⟩ := getD_some_of_mem (h e (List.mem_cons_self _ _))
    refine ⟨(c, e) :: M, ?_, ?_⟩
    · rw [List.map_cons, hM1]
    · intro p hp
      rcases List.mem_cons.mp hp with rfl | hp
      · exact hc
      · exact hM2 p hp

/-- One Borůvka round preserves the optimality invariant: the accepted
list extends to a minimum spanning tree, stays duplicate-free, and the
accumulator tracks its weight. -/
theorem boruvkaRound_opt {G : Graph} (hwf : G.WF) (hstd : G.Std)
    {st : BorState} (hinv : BorInv G.nodes.length st)
    (hsub : ∀ f ∈ st.mst, f ∈ G.edges)
    (hnd : st.mst.Nodup)
    (hsame : ∀ f ∈ st.mst,
      st.component.getD f.u 0 = st.component.getD f.v 0)
    (htot : st.total = totalW st.mst)
    (hT : ∃ T, IsMST G T ∧ ∀ f ∈ st.mst, f ∈ T) :
    (∀ f ∈ (boruvkaRound G st).mst, f ∈ G.edges) ∧
    (boruvkaRound G st).mst.Nodup ∧
    (∀ f ∈ (boruvkaRound G st).mst,
      (boruvkaRound G st).component.getD f.u 0 =
      (boruvkaRound G st).component.getD f.v 0) ∧
    (boruvkaRound G st).total = totalW (boruvkaRound G st).mst ∧
    (∃ T, IsMST G T ∧ ∀ f ∈ (boruvkaRound G st).mst, f ∈ T) := by
  obtain ⟨hclen, hncomp, hsum, hran⟩ := hinv
  have hn0 : 0 < G.nodes.length := List.length_pos.mpr hwf.2.1
  have hrep : ∀ c, (List.replicate G.nodes.length
      (none : Option Edge)).getD c none = none := by
    intro c
    by_cases hc : c < G.nodes.length
    · rw [List.getD_eq_getElem _ _
        (by rw [List.length_replicate]; exact hc)]
      simp
    · exact List.getD_eq_default _ _ (by rw [List.length_replicate]; omega)
  have hch0 : ∀ f, some f ∈ scanCheapest st.component
      (List.replicate G.nodes.length none) G.edges → f ∈ G.edges := by
    intro f hf
    have hch : ∀ g, some g ∈ List.replicate G.nodes.length
        (none : Option Edge) → g ∈ G.edges ∧
        st.component.getD g.u 0 ≠ st.component.getD g.v 0 := by
      intro g hg
      exact absurd (List.eq_of_mem_replicate hg) (by simp)
    exact (scanCheapest_entries st.component G.edges G.edges _
      (fun x hx => hx) hch f hf).1
  have hclsb : ∀ x, st.component.getD x 0 < G.nodes.length := by
    intro x
    by_cases hx : x < st.component.length
    · rw [List.getD_eq_getElem _ _ hx]
      exact hran _ (List.getElem_mem _)
    · rw [List.getD_eq_default _ _ (Nat.le_of_not_lt hx)]
      exact hn0
  have hBest := scanCheapest_min st.component G.edges
    (List.replicate G.nodes.length none) []
    (by
      intro g hg
      rw [List.length_replicate]
      exact ⟨hclsb g.u, hclsb g.v⟩)
    (fun c hc g hg => absurd hg (List.not_mem_nil g))
    (fun c e hce => absurd (hrep c ▸ hce) (by simp))
  obtain ⟨A, hA1, hA2, hA3, hA4, hA5, hA6, hA7⟩ :=
    mergePhase_opt hwf hstd
      (scanCheapest st.component
        (List.replicate G.nodes.length none) G.edges) hch0
      (scanCheapest st.component
        (List.replicate G.nodes.length none) G.edges) st
      (fun x hx => hx) hclen hsub hnd hsame htot
  have hAnodup : A.Nodup := (List.nodup_append.mp (hA1 ▸ hA5)).2.1
  obtain ⟨M, hM1, hM2⟩ := choose_slots A hA2
  have hMrec : ∀ p ∈ M, BorOffer st.component p.1 p.2 ∧
      ∃ pre post, G.edges = pre ++ p.2 :: post ∧
        (∀ g ∈ pre, BorOffer st.component p.1 g → p.2.w < g.w) ∧
        (∀ g ∈ post, BorOffer st.component p.1 g → p.2.w ≤ g.w) := by
    intro p hp
    obtain ⟨h1, pre, post, h2, h3, h4⟩ := hBest p.1 p.2 (hM2 p hp)
    rw [List.nil_append] at h2
    exact ⟨h1, pre, post, h2, h3, h4⟩
  have hmapnd : (M.map Prod.snd).Nodup := by
    rw [hM1]
    exact hAnodup
  obtain ⟨T', hT'1, hT'F, hT'M⟩ := justify_cut_set hwf hstd st.component
    M.length M st.mst (le_refl _) hMrec hmapnd hsame hT
  rw [show boruvkaRound G st = mergePhase st (scanCheapest st.component
    (List.replicate G.nodes.length none) G.edges) from rfl]
  refine ⟨hA4, hA5, hA6, hA7, T', hT'1, ?_⟩
  intro f hf
  rw [hA1] at hf
  rcases List.mem_append.mp hf with hf | hf
  · exact hT'F f hf
  · rw [← hM1] at hf
    obtain ⟨p, hp, hps⟩ := List.mem_map.mp hf
    exact hps ▸ hT'M p hp

/-- The Borůvka round loop preserves optimality to its final state. -/
theorem boruvkaLoop_opt {G : Graph} (hwf : G.WF) (hstd : G.Std) :
    ∀ (fuel : Nat) (st : BorState),
    BorInv G.nodes.length st →
    (∀ f ∈ st.mst, f ∈ G.edges) →
    st.mst.Nodup →
    (∀ f ∈ st.mst,
      st.component.getD f.u 0 = st.component.getD f.v 0) →
    st.total = totalW st.mst →
    (∃ T, IsMST G T ∧ ∀ f ∈ st.mst, f ∈ T) →
    ∀ mst t, boruvkaLoop G fuel st = some (mst, t) →
    ∃ T, IsMST G T ∧ (∀ f ∈ mst, f ∈ T) ∧ mst.Nodup ∧
      t = totalW mst := by
  intro fuel
  induction fuel with
  | zero =>
    intro st _ _ _ _ _ _ mst t h
    exact Option.noConfusion h
  | succ fuel ih =>
    intro st hinv hsub hnd hsame htot hT mst t h
    simp only [boruvkaLoop] at h
    by_cases hg : st.numComponents > 1
    · rw [if_pos hg] at h
      obtain ⟨hc1, hc2, hc3, hc4, hc5⟩ :=
        boruvkaRound_opt hwf hstd hinv hsub hnd hsame htot hT
      exact ih _ (boruvkaRound_inv hwf hstd hinv) hc1 hc2 hc3 hc4 hc5
        mst t h
    · rw [if_neg hg] at h
      injection h with h'
      injection h' with h1 h2
      subst h1
      subst h2
      obtain ⟨T, hT1, hT2⟩ := hT
      exact ⟨T, hT1, hT2, hnd, htot⟩

/-- Borůvka returns a minimum spanning tree together with its weight on
every successful run. -/
theorem boruvka_opt {G : Graph} (hwf : G.WF) (hstd : G.Std)
    (hconn : is_connected G = true) :
    ∀ fuel mst t, boruvka_mst G fuel = some (mst, t) →
    ∃ T, IsMST G T ∧ mst.Perm T ∧ t = totalW T := by
  intro fuel mst t h
  obtain ⟨T0, hT0⟩ := exists_IsMST hwf hstd hconn
  have hinv0 : BorInv G.nodes.length
      ⟨G.nodes.length, List.range G.nodes.length, [], 0⟩ := by
    refine ⟨List.length_range _, ?_, ?_, ?_⟩
    · show G.nodes.length =
        numLabels G.nodes.length (List.range G.nodes.length)
      have heq : numLabels G.nodes.length (List.range G.nodes.length) =
          (List.range G.nodes.length).length :=
        List.countP_eq_length.mpr (fun a ha => decide_eq_true ha)
      rw [heq, List.length_range]
    · show ([] : List Edge).length + G.nodes.length = G.nodes.length
      simp
    · intro c hc
      exact List.mem_range.mp hc
  obtain ⟨T, hT1, hT2, hnd, htot⟩ := boruvkaLoop_opt hwf hstd fuel _
    hinv0 (fun f hf => absurd hf (List.not_mem_nil f)) List.nodup_nil
    (fun f hf => absurd hf (List.not_mem_nil f)) rfl
    ⟨T0, hT0, fun f hf => absurd hf (List.not_mem_nil f)⟩ mst t h
  have hlen := (boruvka_count hwf hstd hconn).1 fuel mst t h
  have hperm : mst.Perm T := by
    refine perm_of_sub_nodup_length hnd hT2 ?_
    rw [hT1.1.2.2.2, hlen]
  exact ⟨T, hT1, hperm, by rw [htot]; exact totalW_perm hperm⟩

/-- With pairwise-distinct edge weights the minimum spanning tree is
unique up to permutation. -/
theorem IsMST_unique_of_distinct {G : Graph} (hwf : G.WF) (hstd : G.Std)
    (hdist : G.edges.Pairwise (fun a b => ¬ a.w = b.w))
    {T1 T2 : List Edge} (h1 : IsMST G T1) (h2 : IsMST G T2) :
    T1.Perm T2 := by
  have hsub : ∀ e ∈ T1, e ∈ T2 := by
    intro e heT1
    by_contra heT2
    obtain ⟨hT1sub, hT1nd, hT1conn, hT1len⟩ := h1.1
    obtain ⟨hT2sub, hT2nd, hT2conn, hT2len⟩ := h2.1
    have hT1pw := pairwise_of_sub_nodup hwf hT1sub hT1nd
    have hwfT1 : Graph.WF ⟨G.nodes, T1⟩ := WF_of_sub hwf hT1sub hT1pw
    have hT2pw := pairwise_of_sub_nodup hwf hT2sub hT2nd
    have hwfT2 : Graph.WF ⟨G.nodes, T2⟩ := WF_of_sub hwf hT2sub hT2pw
    have heG : e ∈ G.edges := hT1sub e heT1
    have heuN : e.u ∈ G.nodes := (hwf.2.2.1 e heG).1
    have hevN : e.v ∈ G.nodes := (hwf.2.2.1 e heG).2.1
    have hbr : ¬ Reach (removeEdge T1 e.u e.v) e.u e.v :=
      spantree_bridge hwf hstd hT1sub hT1nd hT1conn hT1len heT1
    obtain ⟨g, hgT2, x, y, hgt, hSx, hSy, hRx, hRy⟩ :=
      spantree_separator hwf hstd hT2sub hT2nd hT2conn
        (fun z => Reach (removeEdge T1 e.u e.v) e.u z) heuN hevN
        Relation.ReflTransGen.refl hbr
    have hgG : g ∈ G.edges := hT2sub g hgT2
    have hgne : g ≠ e := fun hge => heT2 (hge ▸ hgT2)
    have hsymm : Symmetric (fun a b : Edge => ¬ a.w = b.w) :=
      fun a b hab hba => hab hba.symm
    have hwne : ¬ e.w = g.w :=
      List.Pairwise.forall hsymm hdist heG hgG (fun hx => hgne hx.symm)
    have hgtc := hgt
    simp only [touches, Bool.or_eq_true, Bool.and_eq_true,
      beq_iff_eq] at hgtc
    have hT1erase : removeEdge T1 e.u e.v = T1.erase e :=
      removeEdge_eq_erase hT1pw heT1
    have hclosed : ∀ f0 ∈ removeEdge T1 e.u e.v,
        (Reach (removeEdge T1 e.u e.v) e.u f0.u ↔
         Reach (removeEdge T1 e.u e.v) e.u f0.v) := by
      intro f0 hf0
      constructor
      · intro h
        exact Relation.ReflTransGen.tail h ⟨f0, hf0, touches_self f0⟩
      · intro h
        refine Relation.ReflTransGen.tail h ⟨f0, hf0, ?_⟩
        exact (touches_symm f0 f0.v f0.u).trans (touches_self f0)
    have hgT1 : g ∉ T1 := by
      intro hgT1'
      have hgR : g ∈ removeEdge T1 e.u e.v := by
        rw [hT1erase]
        exact (List.mem_erase_of_ne hgne).mpr hgT1'
      rcases hgtc with ⟨hx1, hy1⟩ | ⟨hx1, hy1⟩
      · exact hSy (hy1 ▸ (hclosed g hgR).mp (hx1.symm ▸ hSx))
      · exact hSy (hx1 ▸ (hclosed g hgR).mpr (hy1.symm ▸ hSx))
    obtain ⟨n0, rest0, hn⟩ : ∃ n0 rest0, G.nodes = n0 :: rest0 := by
      cases h : G.nodes with
      | nil => exact absurd h hwf.2.1
      | cons c l => exact ⟨c, l, rfl⟩
    have hT1reach := (is_connected_iff hwfT1 hn).mp hT1conn
    have hT2reach := (is_connected_iff hwfT2 hn).mp hT2conn
    have hyN : y ∈ G.nodes := by
      have hend := hwf.2.2.1 g hgG
      rcases hgtc with ⟨-, hy1⟩ | ⟨hy1, -⟩
      · exact hy1 ▸ hend.2.1
      · exact hy1 ▸ hend.1
    rcases lt_or_gt_of_ne (fun hx : e.w = g.w => hwne hx) with hlt | hgt2
    · -- e is lighter than g: trade g out of T2 for e
      have hre : removeEdge T2 x y = removeEdge T2 g.u g.v := by
        refine List.filter_congr ?_
        intro f hf
        rw [touches_congr hgt f]
      have hT2erase : removeEdge T2 x y = T2.erase g := by
        rw [hre]
        exact removeEdge_eq_erase hT2pw hgT2
      have hsub2 : ∀ f ∈ removeEdge T2 x y ++ [e], f ∈ G.edges := by
        intro f hf
        rcases List.mem_append.mp hf with hf | hf
        · exact hT2sub f (mem_removeEdge.mp hf).1
        · rw [List.mem_singleton.mp hf]
          exact heG
      have hnd2 : (removeEdge T2 x y ++ [e]).Nodup := by
        rw [List.nodup_append]
        refine ⟨?_, List.nodup_singleton e, ?_⟩
        · rw [hT2erase]
          exact hT2nd.erase g
        · intro a ha hae
          rw [List.mem_singleton] at hae
          exact heT2 (hae ▸ (mem_removeEdge.mp ha).1)
      have hpw2 := pairwise_of_sub_nodup hwf hsub2 hnd2
      have hwf2 : Graph.WF ⟨G.nodes, removeEdge T2 x y ++ [e]⟩ :=
        WF_of_sub hwf hsub2 hpw2
      have hxy2 : Reach (removeEdge T2 x y ++ [e]) x y := by
        have ha1 : Reach (removeEdge T2 x y ++ [e]) x e.u :=
          reach_symm (reach_mono
            (fun f hf => List.mem_append_left _ hf) hRx)
        have ha2 : adjRel (removeEdge T2 x y ++ [e]) e.u e.v :=
          ⟨e, List.mem_append_right _ (List.mem_singleton.mpr rfl),
            touches_self e⟩
        have ha3 : Reach (removeEdge T2 x y ++ [e]) e.v y :=
          reach_symm (reach_mono
            (fun f hf => List.mem_append_left _ hf) hRy)
        exact reach_trans (reach_trans ha1
          (Relation.ReflTransGen.single ha2)) ha3
      have hconn2 : is_connected ⟨G.nodes, removeEdge T2 x y ++ [e]⟩ =
          true := by
        rw [is_connected_iff hwf2 hn]
        intro z hz
        exact reach_patch2 (fun f hf => List.mem_append_left _ hf)
          hxy2 (hT2reach z hz)
      have hlen2 : (removeEdge T2 x y ++ [e]).length =
          G.nodes.length - 1 := by
        rw [List.length_append, List.length_singleton, hT2erase,
          List.length_erase_of_mem hgT2, hT2len]
        have hpos : 0 < T2.length :=
          List.length_pos.mpr (List.ne_nil_of_mem hgT2)
        omega
      have htot2 : totalW (removeEdge T2 x y ++ [e]) =
          totalW T2 - g.w + e.w := by
        rw [totalW_append, hT2erase, totalW_erase hgT2]
        simp [totalW]
      have hmin2 := h2.2 (removeEdge T2 x y ++ [e])
        ⟨hsub2, hnd2, hconn2, hlen2⟩
      rw [htot2] at hmin2
      omega
    · -- g is lighter than e: trade e out of T1 for g
      have hsub1 : ∀ f ∈ removeEdge T1 e.u e.v ++ [g], f ∈ G.edges := by
        intro f hf
        rcases List.mem_append.mp hf with hf | hf
        · exact hT1sub f (mem_removeEdge.mp hf).1
        · rw [List.mem_singleton.mp hf]
          exact hgG
      have hnd1 : (removeEdge T1 e.u e.v ++ [g]).Nodup := by
        rw [List.nodup_append]
        refine ⟨?_, List.nodup_singleton g, ?_⟩
        · rw [hT1erase]
          exact hT1nd.erase e
        · intro a ha hag
          rw [List.mem_singleton] at hag
          exact hgT1 (hag ▸ (mem_removeEdge.mp ha).1)
      have hpw1 := pairwise_of_sub_nodup hwf hsub1 hnd1
      have hwf1 : Graph.WF ⟨G.nodes, removeEdge T1 e.u e.v ++ [g]⟩ :=
        WF_of_sub hwf hsub1 hpw1
      have hyv : Reach (removeEdge T1 e.u e.v) e.v y := by
        have hy0 : Reach T1 e.u y :=
          reach_trans (reach_symm (hT1reach e.u heuN)) (hT1reach y hyN)
        rcases reach_split hy0 with hs | hs
        · exact absurd hs hSy
        · exact hs
      have hxy1 : Reach (removeEdge T1 e.u e.v ++ [g]) e.u e.v := by
        have ha1 : Reach (removeEdge T1 e.u e.v ++ [g]) e.u x :=
          reach_mono (fun f hf => List.mem_append_left _ hf) hSx
        have ha2 : adjRel (removeEdge T1 e.u e.v ++ [g]) x y :=
          ⟨g, List.mem_append_right _ (List.mem_singleton.mpr rfl), hgt⟩
        have ha3 : Reach (removeEdge T1 e.u e.v ++ [g]) y e.v :=
          reach_symm (reach_mono
            (fun f hf => List.mem_append_left _ hf) hyv)
        exact reach_trans (reach_trans ha1
          (Relation.ReflTransGen.single ha2)) ha3
      have hconn1 : is_connected
          ⟨G.nodes, removeEdge T1 e.u e.v ++ [g]⟩ = true := by
        rw [is_connected_iff hwf1 hn]
        intro z hz
        exact reach_patch2 (fun f hf => List.mem_append_left _ hf)
          hxy1 (hT1reach z hz)
      have hlen1 : (removeEdge T1 e.u e.v ++ [g]).length =
          G.nodes.length - 1 := by
        rw [List.length_append, List.length_singleton, hT1erase,
          List.length_erase_of_mem heT1, hT1len]
        have hpos : 0 < T1.length :=
          List.length_pos.mpr (List.ne_nil_of_mem heT1)
        omega
      have htot1 : totalW (removeEdge T1 e.u e.v ++ [g]) =
          totalW T1 - e.w + g.w := by
        rw [totalW_append, hT1erase, totalW_erase heT1]
        simp [totalW]
      have hmin1 := h1.2 (removeEdge T1 e.u e.v ++ [g])
        ⟨hsub1, hnd1, hconn1, hlen1⟩
      rw [htot1] at hmin1
      omega
  refine perm_of_sub_nodup_length h1.1.2.1 hsub ?_
  rw [h1.1.2.2.2, h2.1.2.2.2]

/-- C5: on every connected standard graph the four MST algorithms agree
on the total MST weight; with pairwise-distinct edge weights their edge
sets also coincide up to order (Prim's output tuples naming the same
weighted node pairs); and on the weighted triangle each algorithm
returns total weight 3. -/
theorem C5_cross_algorithm_weights {G : Graph} (hwf : G.WF)
    (hstd : G.Std) (hconn : is_connected G = true) :
    ((prim_mst G).2 = (kruskal_mst G).2 ∧
     (reverse_delete_mst G).2 = (kruskal_mst G).2 ∧
     (∀ fuel mst t, boruvka_mst G fuel = some (mst, t) →
        t = (kruskal_mst G).2)) ∧
    (G.edges.Pairwise (fun a b => ¬ a.w = b.w) →
      ((reverse_delete_mst G).1.Perm (kruskal_mst G).1 ∧
       (∀ fuel mst t, boruvka_mst G fuel = some (mst, t) →
          mst.Perm (kruskal_mst G).1) ∧
       (∃ Fr, List.Forall₂ shadows (prim_mst G).1 Fr ∧
          Fr.Perm (kruskal_mst G).1))) ∧
    ((kruskal_mst triangle).2 = 3 ∧ (prim_mst triangle).2 = 3 ∧
     (reverse_delete_mst triangle).2 = 3 ∧
     (boruvka_mst triangle 3).map Prod.snd = some 3) := by
  obtain ⟨Tk, hTk, hpk, hwk⟩ := kruskal_opt hwf hstd hconn
  obtain ⟨Tp, Frp, hTp, hshp, hfrp, hwp⟩ := prim_opt hwf hstd hconn
  obtain ⟨Tr, hTr, hpr, hwr⟩ := reverse_delete_opt hwf hstd hconn
  refine ⟨⟨?_, ?_, ?_⟩, ?_, ?_, ?_, ?_, ?_⟩
  · rw [hwp, hwk]
    exact IsMST_totalW_eq hTp hTk
  · rw [hwr, hwk]
    exact IsMST_totalW_eq hTr hTk
  · intro fuel mst t h
    obtain ⟨Tb, hTb, hpb, hwb⟩ := boruvka_opt hwf hstd hconn fuel mst t h
    rw [hwb, hwk]
    exact IsMST_totalW_eq hTb hTk
  · intro hdist
    refine ⟨?_, ?_, ?_⟩
    · exact hpr.trans ((IsMST_unique_of_distinct hwf hstd hdist
        hTr hTk).trans hpk.symm)
    · intro fuel mst t h
      obtain ⟨Tb, hTb, hpb, hwb⟩ :=
        boruvka_opt hwf hstd hconn fuel mst t h
      exact hpb.trans ((IsMST_unique_of_distinct hwf hstd hdist
        hTb hTk).trans hpk.symm)
    · exact ⟨Frp, hshp, hfrp.trans ((IsMST_unique_of_distinct hwf hstd
        hdist hTp hTk).trans hpk.symm)⟩
  · decide
  · obtain ⟨Tk3, hTk3, hpk3, hwk3⟩ :=
      kruskal_opt (show triangle.WF by decide) (by decide) (by decide)
    obtain ⟨Tp3, Frp3, hTp3, hshp3, hfrp3, hwp3⟩ :=
      prim_opt (show triangle.WF by decide) (by decide) (by decide)
    rw [hwp3, ← IsMST_totalW_eq hTk3 hTp3, ← hwk3]
    decide
  · decide
  · decide

/-- C5, witness: the cross-algorithm weight agreement instantiated on
the weighted triangle, whose hypotheses hold by computation. -/
theorem C5_cross_algorithm_weights_witness :
    (triangle.WF ∧ triangle.Std ∧ is_connected triangle = true) ∧
    (((prim_mst triangle).2 = (kruskal_mst triangle).2 ∧
      (reverse_delete_mst triangle).2 = (kruskal_mst triangle).2 ∧
      (∀ fuel mst t, boruvka_mst triangle fuel = some (mst, t) →
         t = (kruskal_mst triangle).2)) ∧
     (triangle.edges.Pairwise (fun a b => ¬ a.w = b.w) →
       ((reverse_delete_mst triangle).1.Perm (kruskal_mst triangle).1 ∧
        (∀ fuel mst t, boruvka_mst triangle fuel = some (mst, t) →
           mst.Perm (kruskal_mst triangle).1) ∧
        (∃ Fr, List.Forall₂ shadows (prim_mst triangle).1 Fr ∧
           Fr.Perm (kruskal_mst triangle).1))) ∧
     ((kruskal_mst triangle).2 = 3 ∧ (prim_mst triangle).2 = 3 ∧
      (reverse_delete_mst triangle).2 = 3 ∧
      (boruvka_mst triangle 3).map Prod.snd = some 3)) :=
  ⟨⟨by decide, by decide, by decide⟩,
   C5_cross_algorithm_weights (by decide) (by decide) (by decide)⟩
